import Mathlib

/-!
# tile-downloader: download / cancel / progress pipeline

A shallow embedding of the subprocess-orchestrated download pipeline of
`broadcom.go` and `aimodel.go`.

* Go strings are modelled as `Text := List Char`.
* The stderr progress parser (`strings.FieldsFunc`, the two regular
  expressions, `strconv.ParseFloat`, the unit switch) is modelled as a pure
  function from a chunk to the list of `download-progress` events it emits.
* `float64` values are modelled exactly: a non-negative finite binary64 is
  `mant * 2 ^ sh` units of `2 ^ (-1074)`, and rounding is round-to-nearest-even
  on exact fractions.
* Stateful operations are functions from the service state and the outcome of
  the external world (process start, wait result, select winner) to the
  returned error, the events emitted and the new state.
-/

namespace TileDownloader

/-! ## Text -/

/-- A Go string, as its sequence of characters. -/
abbrev Text := List Char

/-- Go `strings.Contains(s, sub)`. -/
def contains (s sub : Text) : Bool := decide (sub <:+: s)

/-- Go `strings.FieldsFunc`, the scanning loop: `cur` is the field being
accumulated (`none` when the scan is between fields, Go's `start = -1`). -/
def fieldsFuncGo (f : Char → Bool) : Option Text → Text → List Text
  | none, [] => []
  | some w, [] => [w]
  | none, c :: cs => if f c then fieldsFuncGo f none cs else fieldsFuncGo f (some [c]) cs
  | some w, c :: cs =>
      if f c then w :: fieldsFuncGo f none cs else fieldsFuncGo f (some (w ++ [c])) cs

/-- Go `strings.FieldsFunc(s, f)`: the maximal runs of characters not satisfying `f`. -/
def fieldsFunc (f : Char → Bool) (s : Text) : List Text := fieldsFuncGo f none s

/-- The separator predicate of the stderr reader: `r == '\n' || r == '\r'`. -/
def isLineBreak (r : Char) : Bool := r == '\n' || r == '\r'

/-! ## Regular expressions (leftmost-first, as Go `regexp`) -/

/-- Capture-group contents, indexed by group number; unmatched groups are empty. -/
abbrev Caps := Nat → Text

/-- The regular-expression constructs used by the two progress patterns. -/
inductive Re where
  | cls (p : Char → Bool)
  | seq (a b : Re)
  | opt (a : Re)
  | star (a : Re)
  | lazyStar (a : Re)
  | group (i : Nat) (a : Re)

/-- Record the text of capture group `i`. -/
def setCap (c : Caps) (i : Nat) (w : Text) : Caps := fun j => if j = i then w else c j

/-- Repetition: all ways of iterating `step`, listed in priority order (longest
first when `greedy`, shortest first otherwise). The fuel bounds the number of
iterations; each iteration must consume input. -/
def starLoop (step : Text → Caps → List (Text × Caps)) (greedy : Bool) :
    Nat → Text → Caps → List (Text × Caps)
  | 0, s, c => [(s, c)]
  | n + 1, s, c =>
      let more := (step s c).flatMap fun r =>
        if r.1.length < s.length then starLoop step greedy n r.1 r.2 else []
      if greedy then more ++ [(s, c)] else (s, c) :: more

/-- All matches of `re` at the start of `s`, in the priority order of a
backtracking (leftmost-first) matcher: each result is the unconsumed rest of the
input and the captures. -/
def Re.run : Re → Text → Caps → List (Text × Caps)
  | .cls p, s, c =>
      match s with
      | [] => []
      | x :: t => if p x then [(t, c)] else []
  | .seq a b, s, c => (Re.run a s c).flatMap fun r => Re.run b r.1 r.2
  | .opt a, s, c => Re.run a s c ++ [(s, c)]
  | .star a, s, c => starLoop (Re.run a) true s.length s c
  | .lazyStar a, s, c => starLoop (Re.run a) false s.length s c
  | .group i a, s, c =>
      (Re.run a s c).map fun r => (r.1, setCap r.2 i (s.take (s.length - r.1.length)))

/-- One or more repetitions, greedy: `a+`. -/
def Re.plus (a : Re) : Re := .seq a (.star a)

/-- A single literal character. -/
def Re.chr (x : Char) : Re := .cls fun y => y == x

/-- The match of `re` anchored at the start of `s`: the whole matched text
followed by the `n` capture groups. -/
def matchAt (re : Re) (n : Nat) (s : Text) : Option (List Text) :=
  match Re.run re s (fun _ => []) with
  | [] => none
  | r :: _ => some (s.take (s.length - r.1.length) :: (List.range n).map fun i => r.2 (i + 1))

/-- Go `(*Regexp).FindStringSubmatch`: the leftmost match and its groups, or the
empty slice (`nil`) when there is no match. -/
def findStringSubmatch (re : Re) (n : Nat) : Text → List Text
  | [] => (matchAt re n []).getD []
  | x :: t =>
      match matchAt re n (x :: t) with
      | some m => m
      | none => findStringSubmatch re n t

/-- Regex class `\d`. -/
def isDigit (x : Char) : Bool := '0' ≤ x && x ≤ '9'

/-- Regex class `[\d.]`. -/
def isDigitOrDot (x : Char) : Bool := isDigit x || x == '.'

/-- Regex class `\s` (RE2: `[\t\n\f\r ]`). -/
def isSpace (x : Char) : Bool :=
  x == '\t' || x == '\n' || x == Char.ofNat 12 || x == '\r' || x == ' '

/-- Regex class `[KMG]`. -/
def isKMG (x : Char) : Bool := x == 'K' || x == 'M' || x == 'G'

/-- Regex class `.` (any character but newline). -/
def isAnyButNewline (x : Char) : Bool := x != '\n'

/-- The unit sub-pattern `[KMG]i?B`. -/
def reUnit : Re := .seq (.cls isKMG) (.seq (.opt (Re.chr 'i')) (Re.chr 'B'))

/-- The sized pattern
`[\d.]+\s+([KMG]i?B)\s*/\s*([\d.]+)\s+([KMG]i?B)\s+\[.*?\]\s+([\d.]+)%`. -/
def reWithSize : Re :=
  .seq (Re.plus (.cls isDigitOrDot)) <|
  .seq (Re.plus (.cls isSpace)) <|
  .seq (.group 1 reUnit) <|
  .seq (.star (.cls isSpace)) <|
  .seq (Re.chr '/') <|
  .seq (.star (.cls isSpace)) <|
  .seq (.group 2 (Re.plus (.cls isDigitOrDot))) <|
  .seq (Re.plus (.cls isSpace)) <|
  .seq (.group 3 reUnit) <|
  .seq (Re.plus (.cls isSpace)) <|
  .seq (Re.chr '[') <|
  .seq (.lazyStar (.cls isAnyButNewline)) <|
  .seq (Re.chr ']') <|
  .seq (Re.plus (.cls isSpace)) <|
  .seq (.group 4 (Re.plus (.cls isDigitOrDot))) <|
  Re.chr '%'

/-- The fallback pattern `([\d.]+)%`. -/
def rePercent : Re := .seq (.group 1 (Re.plus (.cls isDigitOrDot))) (Re.chr '%')

/-! ## binary64 arithmetic

A finite non-negative `float64` is an integer multiple of `2 ^ (-1074)`; it is
stored as `mant * 2 ^ sh` in units of `2 ^ (-1074)` (so the binary exponent is
`sh - 1074`). The patterns capture only digits and dots, so no negative value
arises. -/

/-- The number of units of `2 ^ (-1074)` in `1.0`. -/
@[irreducible] def unitsPerOne : Nat := 2 ^ 1074

/-- The first value (in units of `2 ^ (-1074)`) that rounds to `+Inf`: `2 ^ 1024`. -/
@[irreducible] def overflowUnits : Nat := 2 ^ 2098

/-- The `float64` values the parser can produce. -/
inductive F64 where
  | fin (mant : Nat) (sh : Nat)
  | inf
  | nan
  deriving DecidableEq

/-- Round `n / d` to the nearest integer, ties to even. -/
def roundHalfEven (n d : Nat) : Nat :=
  let q := n / d
  let r := n % d
  if 2 * r < d then q
  else if d < 2 * r then q + 1
  else if q % 2 = 0 then q else q + 1

/-- Search upward from `s` for the first shift `t` with `n < 2 ^ 53 * (d * 2 ^ t)`. -/
def findShift (n d : Nat) : Nat → Nat → Nat
  | 0, s => s
  | fuel + 1, s => if n < 2 ^ 53 * (d * 2 ^ s) then s else findShift n d fuel (s + 1)

/-- The shift `sh` at which `n / d` (in units of `2 ^ (-1074)`) is rounded: the
least `sh` with `n / d / 2 ^ sh < 2 ^ 53`, which leaves 53 significant bits for
normal numbers and is `0` in the subnormal range. -/
def roundShift (n d : Nat) : Nat := findShift n d n 0

/-- Round `n / den` units of `2 ^ (-1074)` to binary64: the value is rounded to
an integer multiple of `2 ^ sh` units, overflowing to `+Inf` from `2 ^ 1024`. -/
def f64RoundUnits (n den : Nat) : F64 :=
  let s := roundShift n den
  let k := roundHalfEven n (den * 2 ^ s)
  if overflowUnits ≤ k * 2 ^ s then .inf else .fin k s

/-- IEEE 754 round-to-nearest-even of the exact fraction `num / den` (with
`den > 0`) to binary64, overflowing to `+Inf`. -/
def f64Round (num den : Nat) : F64 := f64RoundUnits (num * unitsPerOne) den

/-- The numerator of a finite value in units of `2 ^ (-1074)`. -/
def F64.units : F64 → Nat
  | .fin k s => k * 2 ^ s
  | _ => 0

/-- The exact value of a finite `float64` (`0` for `+Inf` and `NaN`). -/
def F64.toRat (x : F64) : ℚ := (x.units : ℚ) / (unitsPerOne : ℚ)

/-- Whether the value is finite. -/
def F64.isFinite : F64 → Bool
  | .fin _ _ => true
  | _ => false

/-- The `float64` product `x * y`: the exact product, rounded. -/
def f64Mul : F64 → F64 → F64
  | .fin k1 s1, .fin k2 s2 => f64Round (k1 * 2 ^ s1 * (k2 * 2 ^ s2)) (unitsPerOne * unitsPerOne)
  | .nan, _ => .nan
  | _, .nan => .nan
  | .inf, .fin k _ => if k = 0 then .nan else .inf
  | .fin k _, .inf => if k = 0 then .nan else .inf
  | .inf, .inf => .inf

/-- The constant `1024` as a `float64`. -/
def f64_1024 : F64 := .fin 1024 1074

/-- Go's conversion `int64(x)` of a non-negative `float64`: truncation toward
zero. For a value outside the `int64` range Go leaves the result
implementation-dependent; the amd64 result (`-2^63`) is taken. -/
def int64OfF64 : F64 → Int
  | .fin k s =>
      if k * 2 ^ s / unitsPerOne < 2 ^ 63 then ((k * 2 ^ s / unitsPerOne : Nat) : Int)
      else -(2 ^ 63)
  | _ => -(2 ^ 63)

/-! ## `strconv.ParseFloat` on the captured number text -/

/-- The two errors of `strconv.ParseFloat`. -/
inductive NumError where
  | errSyntax
  | errRange
  deriving DecidableEq

/-- The value of a decimal digit. -/
def digitVal (x : Char) : Nat := x.toNat - 48

/-- The number written by a digit string. -/
def natOfDigits (w : Text) : Nat := w.foldl (fun n x => 10 * n + digitVal x) 0

/-- A decimal numeral made of digits and at most one dot, with at least one
digit: its digits read as an integer `m` and the number `d` of digits after the
dot, the value being `m / 10 ^ d`. Any other text is `none`. -/
def parseDecimal (w : Text) : Option (Nat × Nat) :=
  let ip := w.takeWhile isDigit
  match w.dropWhile isDigit with
  | [] => if ip = [] then none else some (natOfDigits ip, 0)
  | x :: fp =>
      if x == '.' && fp.all isDigit && !(ip.isEmpty && fp.isEmpty) then
        some (natOfDigits (ip ++ fp), fp.length)
      else none

/-- Go `strconv.ParseFloat(w, 64)` on text made of digits and dots (all that the
patterns capture): the nearest `float64` of a well-formed numeral, `+Inf` with
a range error when that overflows, and `0` with a syntax error for text that is
not a numeral (such as `.` or `1.2.3`). Text with other characters (a sign, an
exponent), which Go also accepts, is outside the captured language and is
reported as a syntax error here. -/
def parseFloat (w : Text) : F64 × Option NumError :=
  match parseDecimal w with
  | none => (.fin 0 0, some .errSyntax)
  | some (m, d) =>
      match f64Round m (10 ^ d) with
      | .fin k s => (.fin k s, none)
      | _ => (.inf, some .errRange)

/-! ## Events -/

/-- The events sent to the notification sink (`runtime.EventsEmit`), by event
name, with the fields of their payload. -/
inductive Event where
  | downloadProgress (fileID : Int) (progress : F64) (totalSize : Option Int) (status : Text)
  | downloadComplete (fileID : Int) (path : Text)
  | downloadCancelled (fileID : Int)
  | aiModelStatus (modelName : Text) (status : Text) (progress : Int)
  | aiModelComplete (modelName : Text) (path : Text)
  | aiModelCancelled (modelName : Text)
  deriving DecidableEq

/-- The `totalSize` field of a `download-progress` payload, when present. -/
def Event.totalSize : Event → Option Int
  | .downloadProgress _ _ t _ => t
  | _ => none

/-- The `progress` field of a `download-progress` payload. -/
def Event.progress : Event → Option F64
  | .downloadProgress _ p _ _ => some p
  | _ => none

/-! ## The stderr progress parser (identical in the three OM downloads) -/

/-- The `switch unit` of the sized branch: the total size in bytes. -/
def totalBytesOf (unit : Text) (totalSize : F64) : Int :=
  if unit = "GiB".toList ∨ unit = "GB".toList then
    int64OfF64 (f64Mul (f64Mul (f64Mul totalSize f64_1024) f64_1024) f64_1024)
  else if unit = "MiB".toList ∨ unit = "MB".toList then
    int64OfF64 (f64Mul (f64Mul totalSize f64_1024) f64_1024)
  else if unit = "KiB".toList ∨ unit = "KB".toList then
    int64OfF64 (f64Mul totalSize f64_1024)
  else 0

/-- The multiplier the specification states for each unit name: `2^30` for GiB
and GB, `2^20` for MiB and MB, `2^10` for KiB and KB. -/
def unitMultiplier (unit : Text) : Nat :=
  if unit = "GiB".toList ∨ unit = "GB".toList then 2 ^ 30
  else if unit = "MiB".toList ∨ unit = "MB".toList then 2 ^ 20
  else if unit = "KiB".toList ∨ unit = "KB".toList then 2 ^ 10
  else 0

/-- The sized match of a segment: `matches := reWithSize.FindStringSubmatch(part)`. -/
def sizedMatch (part : Text) : List Text := findStringSubmatch reWithSize 4 part

/-- The total-size text of the sized match: `totalSizeStr := matches[2]`. -/
def sizedTotal (part : Text) : Text := (sizedMatch part).getD 2 []

/-- The total's unit of the sized match: `unit := matches[3]`. -/
def sizedUnit (part : Text) : Text := (sizedMatch part).getD 3 []

/-- The percentage text of the sized match: `matches[4]`. -/
def sizedPercent (part : Text) : Text := (sizedMatch part).getD 4 []

/-- The fallback match of a segment: `matches := re.FindStringSubmatch(part)`. -/
def bareMatch (part : Text) : List Text := findStringSubmatch rePercent 1 part

/-- The percentage text of the fallback match: `matches[1]`. -/
def barePercent (part : Text) : Text := (bareMatch part).getD 1 []

/-- The body of `for _, part := range parts`: the events emitted for one
segment of a stderr chunk. -/
def parseProgressPart (fileID : Int) (part : Text) : List Event :=
  if part = [] ∨ contains part "%".toList = false then []
  else
    let ms := findStringSubmatch reWithSize 4 part
    if 5 ≤ ms.length then
      let totalSizeStr := ms.getD 2 []
      let unit := ms.getD 3 []
      let percentage := (parseFloat (ms.getD 4 [])).1
      let totalSize := (parseFloat totalSizeStr).1
      [.downloadProgress fileID percentage (some (totalBytesOf unit totalSize))
        "Downloading...".toList]
    else
      let ms := findStringSubmatch rePercent 1 part
      if 1 < ms.length then
        match parseFloat (ms.getD 1 []) with
        | (percentage, none) =>
            [.downloadProgress fileID percentage none "Downloading...".toList]
        | (_, some _) => []
      else []

/-- The events emitted for one chunk read from stderr: the chunk is split on
newline and carriage return and every segment is parsed in order. -/
def parseProgressChunk (fileID : Int) (chunk : Text) : List Event :=
  (fieldsFunc isLineBreak chunk).flatMap (parseProgressPart fileID)

/-- The six unit names `[KMG]i?B` matches. -/
def unitNames : List Text :=
  ["KiB".toList, "KB".toList, "MiB".toList, "MB".toList, "GiB".toList, "GB".toList]

/-- The value `x * 1024 * ... * 1024` with `n` factors, as the code multiplies. -/
def mul1024Iter (x : F64) : Nat → F64
  | 0 => x
  | n + 1 => f64Mul (mul1024Iter x n) f64_1024

/-! ## Processes, registries and operation results -/

/-- An `*exec.Cmd` handle: its identity, and whether `cmd.Process` is set. -/
structure Cmd where
  id : Nat
  hasProcess : Bool
  deriving DecidableEq

/-- A `chan bool` of capacity 1: its identity and the number of buffered values. -/
structure Chan where
  id : Nat
  buffered : Nat
  deriving DecidableEq

/-- Go `m[k] = v` on a map. -/
def mapSet {κ ν : Type} [DecidableEq κ] (m : κ → Option ν) (k : κ) (v : ν) : κ → Option ν :=
  fun j => if j = k then some v else m j

/-- Go `delete(m, k)` on a map. -/
def mapDelete {κ ν : Type} [DecidableEq κ] (m : κ → Option ν) (k : κ) : κ → Option ν :=
  fun j => if j = k then none else m j

/-- What one call of an operation does: the error it returns (`none` for `nil`),
the events it emits in order, the processes it kills, and the service state it
leaves. -/
structure OpResult (σ : Type) where
  err : Option Text
  events : List Event
  killed : List Cmd
  state : σ

/-- Whether an event is `download-complete`. -/
def Event.isDownloadComplete : Event → Bool
  | .downloadComplete _ _ => true
  | _ => false

/-- Whether an event is `ai-model-complete`. -/
def Event.isAIModelComplete : Event → Bool
  | .aiModelComplete _ _ => true
  | _ => false

/-! ## `BroadcomService`: the OM downloads and `CancelDownload` -/

/-- The fields of `BroadcomService` the download pipeline uses. -/
structure BroadcomService where
  apiToken : Text
  activeDownloads : Int → Option Cmd

/-- The outcome of the external world during one OM download: the results of
`GetOMPath`, `os.MkdirAll`, the two pipe creations and `cmd.Start`, the handle
`exec.Command` returns, the chunks the stderr reader read before `cmd.Wait`
returned, and the error text of `cmd.Wait` (`none` for `nil`). -/
structure OMRun where
  omPath : Except Text Text
  mkdirErr : Option Text
  stdoutPipeErr : Option Text
  stderrPipeErr : Option Text
  startErr : Option Text
  cmd : Cmd
  stderrChunks : List Text
  waitErr : Option Text

/-- The body shared by `DownloadFileWithOM`, `DownloadStemcellWithOM` and
`DownloadOpsManagerWithOM`, which differ in the file glob passed to the tool and
in the `label` of their failure message. The progress events of the stderr
reader, which runs concurrently, are listed before the completion event. -/
def omDownload (label : Text) (b : BroadcomService) (savePath : Text) (fileID : Int)
    (w : OMRun) : OpResult BroadcomService :=
  if b.apiToken = [] then ⟨some "API token not set".toList, [], [], b⟩
  else
    match w.omPath with
    | .error e => ⟨some ("failed to get OM CLI: ".toList ++ e), [], [], b⟩
    | .ok _ =>
      match w.mkdirErr with
      | some e => ⟨some ("failed to create output directory: ".toList ++ e), [], [], b⟩
      | none =>
        match w.stdoutPipeErr with
        | some e => ⟨some e, [], [], b⟩
        | none =>
          match w.stderrPipeErr with
          | some e => ⟨some e, [], [], b⟩
          | none =>
            match w.startErr with
            | some e => ⟨some ("failed to start om command: ".toList ++ e), [], [], b⟩
            | none =>
              let b1 : BroadcomService :=
                { b with activeDownloads := mapSet b.activeDownloads fileID w.cmd }
              let progress := w.stderrChunks.flatMap (parseProgressChunk fileID)
              let stderrOutput := w.stderrChunks.flatten
              let b2 : BroadcomService :=
                { b1 with activeDownloads := mapDelete b1.activeDownloads fileID }
              match w.waitErr with
              | some err =>
                  if err = "signal: killed".toList ∨ contains err "killed".toList = true then
                    ⟨none, progress, [], b2⟩
                  else if stderrOutput ≠ [] then
                    ⟨some (label ++ " failed: ".toList ++ err ++ "\n".toList ++ stderrOutput),
                      progress, [], b2⟩
                  else ⟨some (label ++ " failed: ".toList ++ err), progress, [], b2⟩
              | none => ⟨none, progress ++ [.downloadComplete fileID savePath], [], b2⟩

/-- The operation `DownloadFileWithOM` (the command line is not modelled). -/
def DownloadFileWithOM (b : BroadcomService) (savePath : Text) (fileID : Int) (w : OMRun) :
    OpResult BroadcomService :=
  omDownload "om download-product".toList b savePath fileID w

/-- The operation `DownloadStemcellWithOM` (the command line is not modelled). -/
def DownloadStemcellWithOM (b : BroadcomService) (savePath : Text) (fileID : Int) (w : OMRun) :
    OpResult BroadcomService :=
  omDownload "om download-product (stemcell)".toList b savePath fileID w

/-- The operation `DownloadOpsManagerWithOM` (the command line is not modelled). -/
def DownloadOpsManagerWithOM (b : BroadcomService) (savePath : Text) (fileID : Int)
    (w : OMRun) : OpResult BroadcomService :=
  omDownload "om download-product (ops-manager)".toList b savePath fileID w

/-- Whether an OM download gets as far as `cmd.Wait`: the token is set and the
tool was found, set up and started. -/
def OMRun.reachesWait (w : OMRun) (b : BroadcomService) : Bool :=
  b.apiToken ≠ [] && (match w.omPath with | .ok _ => true | .error _ => false) &&
    w.mkdirErr.isNone && w.stdoutPipeErr.isNone && w.stderrPipeErr.isNone && w.startErr.isNone

/-- Go `fmt.Sprintf("%d", n)` for an `int`. -/
def intText (n : Int) : Text := (toString n).toList

/-- The operation `CancelDownload`: `killErr` is the result of `cmd.Process.Kill()`, should
it be called. -/
def CancelDownload (b : BroadcomService) (fileID : Int) (killErr : Option Text) :
    OpResult BroadcomService :=
  match b.activeDownloads fileID with
  | none => ⟨some ("no active download found for file ID ".toList ++ intText fileID), [], [], b⟩
  | some cmd =>
      if cmd.hasProcess then
        match killErr with
        | some e => ⟨some ("failed to kill download process: ".toList ++ e), [], [], b⟩
        | none => ⟨none, [.downloadCancelled fileID], [cmd], b⟩
      else ⟨none, [.downloadCancelled fileID], [], b⟩

/-! ## `AIModelService`: the model downloads and `CancelModelDownload` -/

/-- Go `strings.TrimPrefix`. -/
def trimPrefix (s pre : Text) : Text := if pre.isPrefixOf s then s.drop pre.length else s

/-- Go `strings.Split(s, sep)` for a one-character separator. -/
def splitChar (sep : Char) : Text → List Text
  | [] => [[]]
  | c :: cs =>
      if c = sep then [] :: splitChar sep cs
      else
        match splitChar sep cs with
        | [] => [[c]]
        | w :: ws => (c :: w) :: ws

/-- Go `strings.Join(parts, sep)`. -/
def joinWith (sep : Text) (parts : List Text) : Text := sep.intercalate parts

/-- Go `filepath.Join(dir, name)`, without the `Clean` normalisation. -/
def filepathJoin (dir name : Text) : Text := dir ++ "/".toList ++ name

/-- The fields of `AIModelService`. -/
structure AIModelService where
  downloadLocation : Text
  activeDownloads : Text → Option Cmd
  cancelChannels : Text → Option Chan

/-- The operation `getHuggingFaceCLI`: `hfFound` and `cliFound` are the results of
`exec.LookPath` for `hf` and `huggingface-cli`, `goos` is `runtime.GOOS`. -/
def getHuggingFaceCLI (hfFound cliFound : Bool) (goos : Text) : Except Text Text :=
  if hfFound then .ok "hf".toList
  else if cliFound then .ok "huggingface-cli".toList
  else if goos = "darwin".toList then
    .error "HuggingFace CLI not found. Please install: brew install huggingface-cli".toList
  else .error "huggingface-cli not found. Please install: pip install huggingface-hub[cli]".toList

/-- Which case of the `select` of a download fires first. -/
inductive SelectOutcome where
  | cancelled
  | exited (waitErr : Option Text)
  deriving DecidableEq

/-- The outcome of the external world during one run of the HuggingFace CLI:
the `LookPath` results and the platform, the identities of the channel
`make(chan bool, 1)` and of the command handle, the result of `cmd.Start`, the
status updates `(status, progress)` the size monitor emits while the process
runs, the case of the `select` that fires, and the captured stderr text. -/
structure HFRun where
  hfFound : Bool
  cliFound : Bool
  goos : Text
  chanId : Nat
  cmd : Cmd
  startErr : Option Text
  monitor : List (Text × Int)
  outcome : SelectOutcome
  stderr : Text

/-- The events of the size monitor. -/
def monitorEvents (modelName : Text) (w : HFRun) : List Event :=
  w.monitor.map fun m => .aiModelStatus modelName m.1 m.2

/-- The operation `downloadWithHuggingFaceCLI`. The command line is not modelled;
`concat` is the outcome of `concatenateGGUFFiles`: the events it emits and
the error it returns. In the cancelled case the received value has left the
channel's buffer. -/
def downloadWithHuggingFaceCLI (a : AIModelService) (destDir modelName filePattern : Text)
    (w : HFRun) (concat : List Event × Option Text) : OpResult AIModelService :=
  match getHuggingFaceCLI w.hfFound w.cliFound w.goos with
  | .error e => ⟨some e, [], [], a⟩
  | .ok _ =>
    let a1 : AIModelService :=
      { a with cancelChannels := mapSet a.cancelChannels modelName ⟨w.chanId, 0⟩ }
    let a2 : AIModelService :=
      { a1 with activeDownloads := mapSet a1.activeDownloads modelName w.cmd }
    let ev1 : List Event :=
      [.aiModelStatus modelName "Downloading files from HuggingFace...".toList 20]
    match w.startErr with
    | some e => ⟨some ("failed to start download: ".toList ++ e), ev1, [], a2⟩
    | none =>
      let ev2 := ev1 ++ monitorEvents modelName w
      match w.outcome with
      | .cancelled =>
          ⟨some "download cancelled".toList, ev2, if w.cmd.hasProcess then [w.cmd] else [], a2⟩
      | .exited waitErr =>
        let a3 : AIModelService :=
          { a2 with activeDownloads := mapDelete a2.activeDownloads modelName }
        let a4 : AIModelService :=
          { a3 with cancelChannels := mapDelete a3.cancelChannels modelName }
        match waitErr with
        | some err =>
            if w.stderr ≠ [] then
              ⟨some ("download failed: ".toList ++ err ++ " - ".toList ++ w.stderr), ev2, [], a4⟩
            else ⟨some ("download failed: ".toList ++ err), ev2, [], a4⟩
        | none =>
            if filePattern = "*.gguf".toList then
              let ev3 := ev2 ++ [.aiModelStatus modelName "Concatenating GGUF files...".toList 90]
                ++ concat.1
              match concat.2 with
              | some e => ⟨some ("failed to concatenate GGUF files: ".toList ++ e), ev3, [], a4⟩
              | none => ⟨none, ev3 ++ [.aiModelComplete modelName destDir], [], a4⟩
            else ⟨none, ev2 ++ [.aiModelComplete modelName destDir], [], a4⟩

/-- The operation `DownloadOllamaModel`: `mkdirErr` is the result of `os.MkdirAll`. -/
def DownloadOllamaModel (a : AIModelService) (repoURL modelName : Text)
    (mkdirErr : Option Text) (w : HFRun) (concat : List Event × Option Text) :
    OpResult AIModelService :=
  if a.downloadLocation = [] then ⟨some "download location not set".toList, [], [], a⟩
  else
    let parts := splitChar '/' (trimPrefix repoURL "https://huggingface.co/".toList)
    if parts.length < 4 then ⟨some "invalid HuggingFace URL format".toList, [], [], a⟩
    else
      let modelDir := filepathJoin a.downloadLocation modelName
      match mkdirErr with
      | some e => ⟨some ("failed to create model directory: ".toList ++ e), [], [], a⟩
      | none =>
        let ev0 : List Event := [.aiModelStatus modelName "Starting download...".toList 10]
        let r := downloadWithHuggingFaceCLI a modelDir modelName "*.gguf".toList w concat
        { r with events := ev0 ++ r.events }

/-- The operation `downloadVLLMFiles` (the command line is not modelled). -/
def downloadVLLMFiles (a : AIModelService) (modelName : Text) (w : HFRun) :
    OpResult AIModelService :=
  match getHuggingFaceCLI w.hfFound w.cliFound w.goos with
  | .error e => ⟨some e, [], [], a⟩
  | .ok _ =>
    let a1 : AIModelService :=
      { a with cancelChannels := mapSet a.cancelChannels modelName ⟨w.chanId, 0⟩ }
    let a2 : AIModelService :=
      { a1 with activeDownloads := mapSet a1.activeDownloads modelName w.cmd }
    let ev1 : List Event :=
      [.aiModelStatus modelName "Downloading model files from HuggingFace...".toList 30]
    match w.startErr with
    | some e => ⟨some ("failed to start download: ".toList ++ e), ev1, [], a2⟩
    | none =>
      let ev2 := ev1 ++ monitorEvents modelName w
      match w.outcome with
      | .cancelled =>
          ⟨some "download cancelled".toList, ev2, if w.cmd.hasProcess then [w.cmd] else [], a2⟩
      | .exited waitErr =>
        let a3 : AIModelService :=
          { a2 with activeDownloads := mapDelete a2.activeDownloads modelName }
        match waitErr with
        | some err =>
            if w.stderr ≠ [] then
              ⟨some ("download failed: ".toList ++ err ++ " - ".toList ++ w.stderr), ev2, [], a3⟩
            else ⟨some ("download failed: ".toList ++ err), ev2, [], a3⟩
        | none => ⟨none, ev2, [], a3⟩

/-- The operation `DownloadVLLMModel`: `mkdirErr` is the result of `os.MkdirAll` and
`packageErr` the error `packageVLLMModel` returns. The repository path
computed from `repoURL` only enters the command line, which is not modelled. -/
def DownloadVLLMModel (a : AIModelService) (modelName : Text) (mkdirErr : Option Text)
    (w : HFRun) (packageErr : Option Text) : OpResult AIModelService :=
  if a.downloadLocation = [] then ⟨some "download location not set".toList, [], [], a⟩
  else
    match mkdirErr with
    | some e => ⟨some ("failed to create temp directory: ".toList ++ e), [], [], a⟩
    | none =>
      let ev0 : List Event := [.aiModelStatus modelName "Downloading model files...".toList 10]
      let r := downloadVLLMFiles a modelName w
      match r.err with
      | some e =>
          if contains e "cancelled".toList = true then
            ⟨none, ev0 ++ r.events, r.killed, r.state⟩
          else ⟨some e, ev0 ++ r.events, r.killed, r.state⟩
      | none =>
        let ev1 := ev0 ++ r.events ++ [.aiModelStatus modelName "Packaging model...".toList 80]
        let tarGzPath := filepathJoin a.downloadLocation (modelName ++ ".tar.gz".toList)
        match packageErr with
        | some e =>
            let a1 : AIModelService :=
              match r.state.cancelChannels modelName with
              | some _ =>
                  { r.state with cancelChannels := mapDelete r.state.cancelChannels modelName }
              | none => r.state
            if contains e "cancelled".toList = true then ⟨none, ev1, r.killed, a1⟩
            else ⟨some e, ev1, r.killed, a1⟩
        | none => ⟨none, ev1 ++ [.aiModelComplete modelName tarGzPath], r.killed, r.state⟩

/-- The operation `CancelModelDownload`. The send `cancelChan <- true` completes when the
buffer has room; on a full buffer it blocks until a receiver takes a value, and
the call does not return (`none`). -/
def CancelModelDownload (a : AIModelService) (modelName : Text) :
    Option (OpResult AIModelService) :=
  match a.cancelChannels modelName with
  | none =>
      some ⟨some ("no active download found for model: ".toList ++ modelName), [], [], a⟩
  | some ch =>
      if ch.buffered < 1 then
        some ⟨none, [.aiModelCancelled modelName], [],
          { a with cancelChannels :=
              mapSet a.cancelChannels modelName { ch with buffered := ch.buffered + 1 } }⟩
      else none

/-! ## Concrete runs -/

/-- A service with download location `/downloads` and empty registries. -/
def freshAIService : AIModelService :=
  { downloadLocation := "/downloads".toList
    activeDownloads := fun _ => none
    cancelChannels := fun _ => none }

/-- A run of the HuggingFace CLI (`hf` found, process started) during which the
cancellation signal is received before the process exit is observed. -/
def cancelledRun : HFRun :=
  { hfFound := true, cliFound := false, goos := "linux".toList, chanId := 1
    cmd := ⟨1, true⟩, startErr := none, monitor := [], outcome := .cancelled, stderr := [] }

/-- A run of the HuggingFace CLI in which no cancellation is signalled and the
process exits with status 1 after writing a message to stderr. -/
def failedRun : HFRun :=
  { hfFound := true, cliFound := false, goos := "linux".toList, chanId := 1
    cmd := ⟨1, true⟩, startErr := none, monitor := []
    outcome := .exited (some "exit status 1".toList)
    stderr := "Error: request cancelled by the server".toList }

/-- A run of the HuggingFace CLI that exits with success. -/
def successfulRun : HFRun :=
  { hfFound := true, cliFound := false, goos := "linux".toList, chanId := 1
    cmd := ⟨1, true⟩, startErr := none, monitor := [], outcome := .exited none, stderr := [] }

/-- A Broadcom service with a token and no active download. -/
def freshBroadcomService : BroadcomService :=
  { apiToken := "token".toList, activeDownloads := fun _ => none }

/-- An OM run whose process is killed after printing one progress line. -/
def killedOMRun : OMRun :=
  { omPath := .ok "/tmp/om".toList, mkdirErr := none, stdoutPipeErr := none
    stderrPipeErr := none, startErr := none, cmd := ⟨1, true⟩
    stderrChunks := [" 1 MiB / 2.5 GiB [>] 40%\r".toList]
    waitErr := some "signal: killed".toList }

/-- A service in which the model name `llama` is already registered, with
channel 7 and command 7. -/
def registeredAIService : AIModelService :=
  { downloadLocation := "/downloads".toList
    activeDownloads := mapSet (fun _ => none) "llama".toList ⟨7, true⟩
    cancelChannels := mapSet (fun _ => none) "llama".toList ⟨7, 0⟩ }

/-! ## The size probe (`monitorDownloadProgress`) -/

/-- The conversion `float64(n)` of a non-negative integer. -/
def f64OfNat (n : Nat) : F64 := f64Round n 1

/-- The `float64` quotient `x / y`: the exact quotient, rounded. -/
def f64Div : F64 → F64 → F64
  | .fin k1 s1, .fin k2 s2 =>
      if k2 = 0 then (if k1 = 0 then .nan else .inf)
      else f64Round (k1 * 2 ^ s1) (k2 * 2 ^ s2)
  | .fin _ _, .inf => .fin 0 0
  | .inf, .fin _ _ => .inf
  | _, _ => .nan

/-- The `float64` difference `x - y` for `y ≤ x`: the exact difference, rounded.
The probe subtracts a breakpoint only in a branch where the size is at least
that breakpoint; a negative difference is not representable in `F64`, and
the cases outside `y ≤ x` are `NaN` here. -/
def f64Sub : F64 → F64 → F64
  | .fin k1 s1, .fin k2 s2 =>
      if k2 * 2 ^ s2 ≤ k1 * 2 ^ s1 then f64RoundUnits (k1 * 2 ^ s1 - k2 * 2 ^ s2) 1 else .nan
  | .inf, .fin _ _ => .inf
  | _, _ => .nan

/-- The `float64` comparison `x < y`. -/
def f64Lt : F64 → F64 → Bool
  | .fin k1 s1, .fin k2 s2 => decide (k1 * 2 ^ s1 < k2 * 2 ^ s2)
  | .fin _ _, .inf => true
  | _, _ => false

/-- The percentage the probe derives from the directory size `currentSize`
(an `int64`, non-negative): the `if` chain on `sizeMB`. -/
def probeProgress (currentSize : Nat) : Int :=
  let sizeMB := f64Div (f64OfNat currentSize) (f64OfNat (1024 * 1024))
  if f64Lt sizeMB (f64OfNat 100) then
    20 + int64OfF64 (f64Mul (f64Div sizeMB (f64OfNat 100)) (f64OfNat 5))
  else if f64Lt sizeMB (f64OfNat 500) then
    25 + int64OfF64
      (f64Mul (f64Div (f64Sub sizeMB (f64OfNat 100)) (f64OfNat 400)) (f64OfNat 15))
  else if f64Lt sizeMB (f64OfNat 1024) then
    40 + int64OfF64
      (f64Mul (f64Div (f64Sub sizeMB (f64OfNat 500)) (f64OfNat 524)) (f64OfNat 10))
  else if f64Lt sizeMB (f64OfNat 5120) then
    50 + int64OfF64
      (f64Mul (f64Div (f64Sub sizeMB (f64OfNat 1024)) (f64OfNat 4096)) (f64OfNat 15))
  else if f64Lt sizeMB (f64OfNat 10240) then
    65 + int64OfF64
      (f64Mul (f64Div (f64Sub sizeMB (f64OfNat 5120)) (f64OfNat 5120)) (f64OfNat 15))
  else
    let progress := 80 + int64OfF64
      (f64Mul (f64Div (f64Sub sizeMB (f64OfNat 10240)) (f64OfNat 10240)) (f64OfNat 5))
    if progress > 85 then 85 else progress

/-- Go `fmt.Sprintf("%d", n)` for a non-negative integer. -/
def natText (n : Nat) : Text := (toString n).toList

/-- Go `fmt.Sprintf("%.2f", x)` for a non-negative `float64`: the exact value,
rounded to two decimals (ties to even). -/
def formatFixed2 : F64 → Text
  | .fin k s =>
      let c := roundHalfEven (k * 2 ^ s * 100) unitsPerOne
      natText (c / 100) ++ ['.'] ++ natText (c % 100 / 10) ++ natText (c % 10)
  | .inf => "+Inf".toList
  | .nan => "NaN".toList

/-- The value `sizeGB := float64(currentSize) / (1024 * 1024 * 1024)`. -/
def sizeGB (currentSize : Nat) : F64 := f64Div (f64OfNat currentSize) (f64OfNat (1024 * 1024 * 1024))

/-- The loop variables of `monitorDownloadProgress`. -/
structure ProbeState where
  lastSize : Nat
  noChangeTicks : Nat
  deriving DecidableEq

/-- The constant `maxNoChangeTicks`. -/
def maxNoChangeTicks : Nat := 3

/-- One tick of `monitorDownloadProgress` (the case `<-ticker.C`), where
`currentSize` is the result of `getDirSize(destDir)`: the new loop variables
and the events emitted. -/
def probeTick (modelName : Text) (st : ProbeState) (currentSize : Nat) :
    ProbeState × List Event :=
  if currentSize > st.lastSize then
    (⟨currentSize, 0⟩,
      [.aiModelStatus modelName
        ("Downloading... (".toList ++ formatFixed2 (sizeGB currentSize) ++ " GB)".toList)
        (probeProgress currentSize)])
  else if currentSize = st.lastSize ∧ currentSize > 0 then
    (⟨st.lastSize, st.noChangeTicks + 1⟩,
      if st.noChangeTicks + 1 ≤ maxNoChangeTicks then
        [.aiModelStatus modelName
          ("Processing... (".toList ++ formatFixed2 (sizeGB currentSize) ++ " GB)".toList) (-1)]
      else [])
  else (st, [])

/-- The ticks of `monitorDownloadProgress` from the loop variables `st`: for
each tick, with the directory sizes observed in `sizes`, the events it emits. -/
def probeTicks (modelName : Text) : ProbeState → List Nat → List (List Event)
  | _, [] => []
  | st, size :: rest =>
      (probeTick modelName st size).2 :: probeTicks modelName (probeTick modelName st size).1 rest

/-- The operation `monitorDownloadProgress`: the events emitted over the ticks that
elapse before `done` or the cancellation signal ends the loop, `sizes` being
the directory sizes observed at these ticks. -/
def monitorDownloadProgress (modelName : Text) (sizes : List Nat) : List Event :=
  (probeTicks modelName ⟨0, 0⟩ sizes).flatten

/-- The result of rounding `n / den` units of `2 ^ (-1074)` to binary64, in
units, before the overflow test of `f64RoundUnits`. -/
def roundedUnits (n den : Nat) : Nat :=
  roundHalfEven n (den * 2 ^ roundShift n den) * 2 ^ roundShift n den

/-- A finite `float64` of `u` units of `2 ^ (-1074)`. -/
def HasUnits (x : F64) (u : Nat) : Prop := ∃ k s, x = .fin k s ∧ k * 2 ^ s = u

/-- The units of `float64(n)`. -/
def uOfNat (n : Nat) : Nat := roundedUnits (n * unitsPerOne) 1

/-- The units of the `float64` quotient of values of `u` and `v` units. -/
def uDiv (u v : Nat) : Nat := roundedUnits (u * unitsPerOne) v

/-- The units of the `float64` product of values of `u` and `v` units. -/
def uMul (u v : Nat) : Nat := roundedUnits (u * v * unitsPerOne) (unitsPerOne * unitsPerOne)

/-- The units of the `float64` difference of values of `u` and `v ≤ u` units. -/
def uSub (u v : Nat) : Nat := roundedUnits (u - v) 1

/-- The units of `sizeMB`. -/
def sizeMBUnits (size : Nat) : Nat := uDiv (uOfNat size) (1048576 * unitsPerOne)

/-- The value `int(sizeMB / 100 * 5)` of the first band, from the units of `sizeMB`. -/
def firstBand (mb : Nat) : Nat := uMul (uDiv mb (100 * unitsPerOne)) (5 * unitsPerOne) / unitsPerOne

/-- The value `int((sizeMB - lo) / width * factor)` of a later band, from the units
of `sizeMB`. -/
def bandValue (mb lo width factor : Nat) : Nat :=
  uMul (uDiv (uSub mb (lo * unitsPerOne)) (width * unitsPerOne)) (factor * unitsPerOne) /
    unitsPerOne

/-- The last branch of the probe's `if` chain, from the units of `sizeMB`. -/
def probeTail10240 (mb : Nat) : Nat := min 85 (80 + bandValue mb 10240 10240 5)

/-- The `if` chain of the probe from its fifth branch on. -/
def probeTail5120 (mb : Nat) : Nat :=
  if mb < 10240 * unitsPerOne then 65 + bandValue mb 5120 5120 15 else probeTail10240 mb

/-- The `if` chain of the probe from its fourth branch on. -/
def probeTail1024 (mb : Nat) : Nat :=
  if mb < 5120 * unitsPerOne then 50 + bandValue mb 1024 4096 15 else probeTail5120 mb

/-- The `if` chain of the probe from its third branch on. -/
def probeTail500 (mb : Nat) : Nat :=
  if mb < 1024 * unitsPerOne then 40 + bandValue mb 500 524 10 else probeTail1024 mb

/-- The `if` chain of the probe from its second branch on. -/
def probeTail100 (mb : Nat) : Nat :=
  if mb < 500 * unitsPerOne then 25 + bandValue mb 100 400 15 else probeTail500 mb

/-- The `if` chain of the probe as a function of the units of `sizeMB`. -/
def probeOfMB (mb : Nat) : Nat :=
  if mb < 100 * unitsPerOne then 20 + firstBand mb else probeTail100 mb

/-! ## Files and directory trees -/

/-- The content of a file. -/
abbrev Bytes := List Nat

/-- A directory tree as `filepath.Walk` sees it: a regular file with its content, or a
directory with its entries in the order in which they are visited. -/
inductive FileTree where
  | file (name : Text) (data : Bytes)
  | dir (name : Text) (children : List FileTree)

/-- The base name of a node, `info.Name()`. -/
def FileTree.name : FileTree → Text
  | .file n _ => n
  | .dir n _ => n

/-- One call of the `filepath.Walk` callback: the path, `info.Name()`, `info.IsDir()`,
and for a regular file the bytes a reader of that path gets. -/
structure WalkEntry where
  path : Text
  name : Text
  isDir : Bool
  data : Bytes
  deriving DecidableEq

mutual
/-- The calls `filepath.Walk(path, fn)` makes on a tree rooted at `path`, in order. -/
def walkTree (path : Text) : FileTree → List WalkEntry
  | .file n d => [⟨path, n, false, d⟩]
  | .dir n cs => ⟨path, n, true, []⟩ :: walkChildren path cs
/-- The calls made for the entries of the directory at `path`. -/
def walkChildren (path : Text) : List FileTree → List WalkEntry
  | [] => []
  | t :: ts => walkTree (filepathJoin path t.name) t ++ walkChildren path ts
end

/-- Go `filepath.Dir(path)` for a cleaned path with a separator that is not its first
character: the text before the last `/`. -/
def filepathDir (p : Text) : Text :=
  ((p.reverse.dropWhile fun c => c != '/').drop 1).reverse

/-- Go `strings.HasPrefix`. -/
def hasPrefix (s pre : Text) : Bool := pre.isPrefixOf s

/-- Go `strings.HasSuffix`. -/
def hasSuffix (s suf : Text) : Bool := suf.isSuffixOf s

/-- Go `strings.ToLower`, on the ASCII letters (the only ones that can yield `.gguf`). -/
def toLower (s : Text) : Text := s.map Char.toLower

/-- The regular files below a walked tree, by path. -/
def filesOf (entries : List WalkEntry) : Text → Option Bytes :=
  fun p => (entries.find? fun e => !e.isDir && e.path == p).map fun e => e.data

/-- Go `sort.Strings`: ascending in the lexicographic order of the characters. -/
def sortStrings (l : List Text) : List Text := l.insertionSort fun a b => a ≤ b

/-- Go `os.RemoveAll(dir)` on a map of files by path. -/
def removeAll {ν : Type} (dir : Text) (files : Text → Option ν) : Text → Option ν :=
  fun p => if p = dir ∨ (dir ++ "/".toList) <+: p then none else files p

/-! ## Concatenation of GGUF parts -/

/-- How a call of `concatenateGGUFFiles` ends: it returns, with the events emitted and
the regular files below the destination directory by path; or `io.Copy` reads the
output file while appending to it, which ends only when the disk is full. -/
inductive ConcatOutcome where
  | returned (err : Option Text) (events : List Event) (files : Text → Option Bytes)
  | selfCopy (events : List Event)

/-- The error of a call that returned (`some none` is success). -/
def ConcatOutcome.returnedErr : ConcatOutcome → Option (Option Text)
  | .returned err _ _ => some err
  | .selfCopy _ => none

/-- The file at a path after a call that returned. -/
def ConcatOutcome.fileAt : ConcatOutcome → Text → Option Bytes
  | .returned _ _ files, p => files p
  | .selfCopy _, _ => none

/-- The events emitted. -/
def ConcatOutcome.events : ConcatOutcome → List Event
  | .returned _ ev _ => ev
  | .selfCopy ev => ev

/-- The status event of the loop iteration with index `i`. -/
def concatStatus (modelName : Text) (i total : Nat) : Event :=
  .aiModelStatus modelName
    ("Concatenating file ".toList ++ natText (i + 1) ++ " of ".toList ++ natText total ++
      "...".toList)
    (90 + ((i * 5 / total : Nat) : Int))

/-- The loop over the sorted part files. The output file stays open for the whole loop:
after `os.Remove` has unlinked its path, writes to it reach no path. -/
def concatLoop (modelName outputPath : Text) (total : Nat) :
    List Text → Nat → (Text → Option Bytes) → List Event → ConcatOutcome
  | [], _, files, ev => .returned none ev files
  | partFile :: rest, i, files, ev =>
    let ev1 := ev ++ [concatStatus modelName i total]
    match files partFile with
    | none =>
        .returned
          (some ("failed to open part file ".toList ++ partFile ++ ": open ".toList ++
            partFile ++ ": no such file or directory".toList)) ev1 files
    | some data =>
      if partFile = outputPath then
        if data = [] then
          concatLoop modelName outputPath total rest (i + 1) (mapDelete files partFile) ev1
        else .selfCopy ev1
      else
        let files1 :=
          match files outputPath with
          | some out => mapSet files outputPath (out ++ data)
          | none => files
        concatLoop modelName outputPath total rest (i + 1) (mapDelete files1 partFile) ev1

/-- The paths `concatenateGGUFFiles` collects from the walk. -/
def ggufFilesOf (entries : List WalkEntry) : List Text :=
  (entries.filter fun e => !e.isDir && hasSuffix (toLower e.name) ".gguf".toList).map
    fun e => e.path

/-- The operation `concatenateGGUFFiles` on the tree at `destDir`; `createErr` is the
error of `os.Create(outputPath)`, which truncates an existing file. -/
def concatenateGGUFFiles (tree : FileTree) (destDir modelName : Text)
    (createErr : Option Text) : ConcatOutcome :=
  let entries := walkTree destDir tree
  let ggufFiles := ggufFilesOf entries
  let files := filesOf entries
  if ggufFiles.length = 0 then
    .returned (some ("no GGUF files found in ".toList ++ destDir)) [] files
  else if ggufFiles.length = 1 then .returned none [] files
  else
    let sorted := sortStrings ggufFiles
    let outputPath := filepathJoin destDir (modelName ++ ".gguf".toList)
    match createErr with
    | some e => .returned (some ("failed to create output file: ".toList ++ e)) [] files
    | none =>
        concatLoop modelName outputPath sorted.length sorted 0 (mapSet files outputPath []) []

/-- A destination directory with two parts in a subdirectory. -/
def twoPartTree : FileTree :=
  .dir "llama".toList
    [.dir "Q4_K_M".toList
      [.file "m-00001-of-00002.gguf".toList [1, 2],
       .file "m-00002-of-00002.gguf".toList [3, 4]],
     .file "README.md".toList [7]]

/-- A destination directory holding one model file. -/
def onePartTree : FileTree :=
  .dir "llama".toList [.file "README.md".toList [7], .file "llama-q4.GGUF".toList [1, 2, 3]]

/-- A destination directory without model files. -/
def noPartTree : FileTree :=
  .dir "llama".toList [.file "README.md".toList [7], .dir "x.gguf".toList []]

/-- A destination directory that still holds the output of an earlier run next to the
two parts of a new download. -/
def staleOutputTree : FileTree :=
  .dir "llama".toList
    [.file "llama.gguf".toList [9, 9],
     .dir "q4_k_m".toList
      [.file "m-00001-of-00002.gguf".toList [1, 2],
       .file "m-00002-of-00002.gguf".toList [3, 4]]]

/-! ## Packaging of a vLLM model -/

/-- One entry of the archive: the name in the tar header and the bytes written after it. -/
structure TarEntry where
  name : Text
  data : Bytes
  deriving DecidableEq

/-- The size of the copy buffer, 32 MiB. -/
def copyBufferSize : Nat := 32 * 1024 * 1024

/-- The copy loop of the walk callback. Every iteration first polls the cancel channel
(poll number `n`; `cancel = some k` says that poll `k` is the first to find a
value), then reads up to one buffer and writes it; a read of zero bytes is the end
of the file. The result is the bytes written, the number of the next poll, and
whether the loop was cancelled. The fuel bounds the iterations; the length of the
file plus one is enough. -/
def copyLoop (cancel : Option Nat) : Nat → Nat → Bytes → Bytes → Bytes × Nat × Bool
  | 0, n, _, written => (written, n, false)
  | fuel + 1, n, rest, written =>
    if cancel = some n then (written, n, true)
    else if rest.take copyBufferSize = [] then (written, n + 1, false)
    else
      copyLoop cancel fuel (n + 1) (rest.drop copyBufferSize)
        (written ++ rest.take copyBufferSize)

/-- The walk of `packageVLLMModel` over the callback calls, from poll number `n` and the
entries `acc` already written: the error of the walk and the entries written. A
cancelled copy leaves the header and the bytes written so far. -/
def packageWalk (sourceDir : Text) (cancel : Option Nat) :
    List WalkEntry → Nat → List TarEntry → Option Text × List TarEntry
  | [], _, acc => (none, acc)
  | e :: es, n, acc =>
    if cancel = some n then (some "packaging cancelled".toList, acc)
    else if e.isDir = true then packageWalk sourceDir cancel es (n + 1) acc
    else if filepathDir e.path ≠ sourceDir then packageWalk sourceDir cancel es (n + 1) acc
    else if hasPrefix e.name ".".toList = true then
      packageWalk sourceDir cancel es (n + 1) acc
    else
      match copyLoop cancel (e.data.length + 1) (n + 1) e.data [] with
      | (written, _, true) =>
          (some "packaging cancelled".toList, acc ++ [⟨e.name, written⟩])
      | (written, n1, false) => packageWalk sourceDir cancel es n1 (acc ++ [⟨e.name, written⟩])

/-- What `packageVLLMModel` returns and the file it leaves at `tarGzPath`, given by the
entries written to it (`none`: the file was not created). -/
structure PackageResult where
  err : Option Text
  archive : Option (List TarEntry)

/-- The operation `packageVLLMModel` on the tree at `sourceDir`: `createErr` is the error
of `os.Create(tarGzPath)`, `hasChan` says that `cancelChan` is not nil, and
`cancelAt` is the number of the first poll of the channel that finds a value.
Compression and the header fields other than the name are not modelled. -/
def packageVLLMModel (tree : FileTree) (sourceDir : Text) (createErr : Option Text)
    (hasChan : Bool) (cancelAt : Option Nat) : PackageResult :=
  match createErr with
  | some e => ⟨some ("failed to create tar.gz: ".toList ++ e), none⟩
  | none =>
    match packageWalk sourceDir (if hasChan then cancelAt else none)
        (walkTree sourceDir tree) 0 [] with
    | (some e, entries) => ⟨some ("failed to package model: ".toList ++ e), some entries⟩
    | (none, entries) => ⟨none, some entries⟩

/-- The entries a complete archive of a directory has: its non-hidden regular files. -/
def rootFileEntries : List FileTree → List TarEntry
  | [] => []
  | .file n d :: ts =>
      if hasPrefix n ".".toList = true then rootFileEntries ts else ⟨n, d⟩ :: rootFileEntries ts
  | .dir _ _ :: ts => rootFileEntries ts

/-- What the packaging step of `DownloadVLLMModel` meets: the tree of the temp directory
after the download, the result of `os.Create`, and the first poll of the cancel
channel that finds a value. -/
structure PackRun where
  tree : FileTree
  createErr : Option Text
  cancelAt : Option Nat

/-- The temp directory of `DownloadVLLMModel`. -/
def vllmTempDir (a : AIModelService) (modelName : Text) : Text :=
  filepathJoin a.downloadLocation (modelName ++ "_temp".toList)

/-- The archive path of `DownloadVLLMModel`. -/
def vllmTarGzPath (a : AIModelService) (modelName : Text) : Text :=
  filepathJoin a.downloadLocation (modelName ++ ".tar.gz".toList)

/-- Whether `DownloadVLLMModel` reaches the packaging step. -/
def reachesPackaging (a : AIModelService) (modelName : Text) (mkdirErr : Option Text)
    (w : HFRun) : Bool :=
  decide (a.downloadLocation ≠ []) && mkdirErr.isNone &&
    (downloadVLLMFiles a modelName w).err.isNone

/-- The call `a.packageVLLMModel(tempDir, tarGzPath, modelName, cancelChan)` that
`DownloadVLLMModel` makes after the download `w`, the channel being the one
registered under the model name, if any. -/
def packagingOf (a : AIModelService) (modelName : Text) (w : HFRun) (p : PackRun) :
    PackageResult :=
  packageVLLMModel p.tree (vllmTempDir a modelName) p.createErr
    ((downloadVLLMFiles a modelName w).state.cancelChannels modelName).isSome p.cancelAt

/-- The operation `DownloadVLLMModel` with its packaging step run on `p`: the result of the
call and the archive files by path after it returns, `archives` being those
before the call. The deferred `os.RemoveAll(tempDir)` runs on every return after
the temp directory was created. -/
def DownloadVLLMModelOnDisk (a : AIModelService) (modelName : Text)
    (mkdirErr : Option Text) (w : HFRun) (p : PackRun)
    (archives : Text → Option (List TarEntry)) :
    OpResult AIModelService × (Text → Option (List TarEntry)) :=
  if reachesPackaging a modelName mkdirErr w = true then
    let pkg := packagingOf a modelName w p
    let written :=
      match pkg.archive with
      | some entries => mapSet archives (vllmTarGzPath a modelName) entries
      | none => archives
    (DownloadVLLMModel a modelName mkdirErr w pkg.err,
      removeAll (vllmTempDir a modelName) written)
  else
    (DownloadVLLMModel a modelName mkdirErr w none,
      if a.downloadLocation ≠ [] ∧ mkdirErr = none then
        removeAll (vllmTempDir a modelName) archives
      else archives)

/-- A downloaded model directory: three files at the top, one of them hidden, a hidden
directory and a subdirectory. -/
def modelTree : FileTree :=
  .dir "llama_temp".toList
    [.dir ".cache".toList [.file "lock".toList [0]],
     .file ".gitattributes".toList [5],
     .file "config.json".toList [1, 2],
     .file "model.safetensors".toList [3, 4, 5],
     .dir "onnx".toList [.file "model.onnx".toList [6]]]

/-- The entries of the directory `modelTree`. -/
def modelTreeChildren : List FileTree :=
  match modelTree with
  | .dir _ cs => cs
  | .file _ _ => []

/-- What one callback call adds to the archive when no cancellation is seen. -/
def entryOf (sourceDir : Text) (e : WalkEntry) : List TarEntry :=
  if e.isDir = true then []
  else if filepathDir e.path ≠ sourceDir then []
  else if hasPrefix e.name ".".toList = true then []
  else [⟨e.name, e.data⟩]

/-- A file name as a directory lists it: not empty, without separator, not `.` or `..`. -/
def isPlainName (n : Text) : Bool :=
  decide (n ≠ []) && !n.contains '/' && decide (n ≠ ".".toList) && decide (n ≠ "..".toList)

/-- A path that `filepath.Clean` leaves as it is and that has a last component: after an
optional leading separator, plain names joined by single separators. -/
def isCleanPath (p : Text) : Bool :=
  (splitChar '/' (trimPrefix p "/".toList)).all isPlainName

/-- The packaging step in which the cancellation is seen while the second file of
`modelTree` is copied. -/
def cancelledPackRun : PackRun := ⟨modelTree, none, some 8⟩

/-! ## The command line of `DownloadFileWithOM` -/

/-- The variable `fileGlob` of `DownloadFileWithOM`. The index `len(parts)-1` is read
under the guard `len(parts) > 0`. -/
def fileGlob (fileName awsObjectKey : Text) : Text :=
  if awsObjectKey ≠ [] then
    let parts := splitChar '/' awsObjectKey
    if parts.length > 0 then
      let actualFileName := parts.getD (parts.length - 1) []
      if actualFileName ≠ [] then actualFileName else fileName
    else fileName
  else if (!contains fileName "*".toList && !hasSuffix fileName ".pivotal".toList) = true then
    "*.pivotal".toList
  else fileName

/-- The arguments `DownloadFileWithOM` passes to `exec.Command(omPath, ...)`. -/
def omDownloadProductArgs (b : BroadcomService)
    (productSlug releaseVersion fileName awsObjectKey savePath : Text) : List Text :=
  ["download-product".toList, "-t".toList, b.apiToken, "-p".toList, productSlug,
   "--product-version".toList, releaseVersion, "-f".toList, fileGlob fileName awsObjectKey,
   "-o".toList, savePath]

/-- The text after the last `/` of `s`; all of `s` when it has no `/`. -/
def afterLastSlash (s : Text) : Text := (s.reverse.takeWhile fun c => c != '/').reverse

/-- The file glob as the specification words it. -/
def fileGlobSpec (fileName awsObjectKey : Text) : Text :=
  if awsObjectKey ≠ [] then
    if afterLastSlash awsObjectKey ≠ [] then afterLastSlash awsObjectKey else fileName
  else if '*' ∉ fileName ∧ ¬ ".pivotal".toList <:+ fileName then "*.pivotal".toList
  else fileName

/-! ## The command line of `DownloadOllamaModel` -/

/-- Go's index expression `l[i]`; `none` is the run-time panic `index out of range`. -/
def goIndex {α : Type} (l : List α) (i : Nat) : Option α := l[i]?

/-- Go's slice expression `l[i:]`; `none` is the run-time panic for `i > len(l)`. -/
def goSliceFrom {α : Type} (l : List α) (i : Nat) : Option (List α) :=
  if i ≤ l.length then some (l.drop i) else none

/-- The arguments `downloadWithHuggingFaceCLI` passes to `exec.Command(cliCmd, ...)`. -/
def hfDownloadArgs (repo pattern destDir : Text) : List Text :=
  ["download".toList, repo, "--include".toList, pattern ++ "/*".toList, "--local-dir".toList,
   destDir, "--local-dir-use-symlinks".toList, "False".toList]

/-- How `DownloadOllamaModel` gets to its command line: it returns an error before it
creates a directory or a process, an index expression panics, or it computes the
arguments that `downloadWithHuggingFaceCLI` gives to the CLI. -/
inductive OllamaStart where
  | rejected (err : Text)
  | panicked
  | command (args : List Text)
  deriving DecidableEq

/-- The URL handling of `DownloadOllamaModel` up to the arguments of the CLI. -/
def ollamaDownloadArgs (a : AIModelService) (repoURL modelName : Text) : OllamaStart :=
  if a.downloadLocation = [] then .rejected "download location not set".toList
  else
    let parts := splitChar '/' (trimPrefix repoURL "https://huggingface.co/".toList)
    if parts.length < 4 then .rejected "invalid HuggingFace URL format".toList
    else
      match goIndex parts 0, goIndex parts 1, goSliceFrom parts 4 with
      | some owner, some repo, some rest =>
          .command
            (hfDownloadArgs (owner ++ "/".toList ++ repo) (joinWith "/".toList rest)
              (filepathJoin a.downloadLocation modelName))
      | _, _, _ => .panicked

/-- The example URL of `DownloadOllamaModel`. -/
def exampleOllamaURL : Text :=
  "https://huggingface.co/unsloth/Llama-3.3-70B-Instruct-GGUF/tree/main/UD-Q6_K_XL".toList

/-! ## The goroutines of a running download -/

/-- Where the goroutine of `monitorDownloadProgress` is: not yet started, in its loop at
the `select`, or returned. -/
inductive ProbePC where
  | notStarted
  | selecting
  | returned
  deriving DecidableEq

/-- The shared state of one run of `downloadWithHuggingFaceCLI` from the registration of
the cancel channel to the end of its `select`: the number of values in
`cancelChan`, whether `cmd.Start` has returned nil (the goroutines are started and
the function is at its `select`), the value the waiter goroutine has sent on
`done` once the process has exited, whether `progressDone` is closed, the probe
goroutine with its loop variables and the events it emitted, the case the `select`
of the function took, and whether the process was killed. -/
structure RaceState where
  buffered : Nat
  started : Bool
  waitResult : Option (Option Text)
  progressDone : Bool
  probe : ProbePC
  probeState : ProbeState
  statuses : List Event
  outcome : Option SelectOutcome
  killed : Bool
  deriving DecidableEq

/-- The steps the goroutines and the process take, in the order a schedule lists them. -/
inductive RaceStep where
  | signal
  | start
  | probeCancel
  | probeDone
  | probeTick (currentSize : Nat)
  | processExit (waitErr : Option Text)
  | selectCancel
  | selectDone

/-- One step, when it is enabled. `signal` is the send `cancelChan <- true` of
`CancelModelDownload` completing; `start` is `cmd.Start` returning nil, after which
the probe and the waiter run and the function waits in its `select`;
`probeCancel`, `probeDone` and `probeTick` are the three cases of the `select` in
`monitorDownloadProgress`; `processExit` is the process ending by itself, with
`cmd.Wait` returning and its result sent on `done`; `selectCancel` and
`selectDone` are the two cases of the `select` in `downloadWithHuggingFaceCLI`. -/
def raceStep (modelName : Text) (s : RaceState) : RaceStep → Option RaceState
  | .signal => if s.buffered < 1 then some { s with buffered := s.buffered + 1 } else none
  | .start =>
      if s.started = false then some { s with started := true, probe := .selecting } else none
  | .probeCancel =>
      if s.probe = .selecting ∧ 0 < s.buffered then
        some { s with buffered := s.buffered - 1, probe := .returned }
      else none
  | .probeDone =>
      if s.probe = .selecting ∧ s.progressDone = true then some { s with probe := .returned }
      else none
  | .probeTick currentSize =>
      if s.probe = .selecting then
        some { s with
          probeState := (probeTick modelName s.probeState currentSize).1
          statuses := s.statuses ++ (probeTick modelName s.probeState currentSize).2 }
      else none
  | .processExit waitErr =>
      if s.started = true ∧ s.killed = false ∧ s.waitResult = none then
        some { s with waitResult := some waitErr }
      else none
  | .selectCancel =>
      if s.started = true ∧ s.outcome = none ∧ 0 < s.buffered then
        some { s with
          buffered := s.buffered - 1, progressDone := true, killed := true
          outcome := some .cancelled }
      else none
  | .selectDone =>
      match s.waitResult with
      | some waitErr =>
          if s.started = true ∧ s.outcome = none then
            some { s with progressDone := true, outcome := some (.exited waitErr) }
          else none
      | none => none

/-- A schedule of steps from a state; `none` when a step is not enabled. -/
def race (modelName : Text) : RaceState → List RaceStep → Option RaceState
  | s, [] => some s
  | s, step :: rest =>
      match raceStep modelName s step with
      | some s1 => race modelName s1 rest
      | none => none

/-- The state after the cancel channel is registered: empty buffer, nothing started. -/
def raceInit : RaceState :=
  { buffered := 0, started := false, waitResult := none, progressDone := false
    probe := .notStarted, probeState := ⟨0, 0⟩, statuses := [], outcome := none
    killed := false }

/-- The status and progress of an `ai-model-status` event. -/
def statusPair : Event → Option (Text × Int)
  | .aiModelStatus _ status progress => some (status, progress)
  | _ => none

/-- The run of the HuggingFace CLI a finished schedule amounts to: the case the `select`
took and the status updates of the probe. -/
def raceRun (base : HFRun) (s : RaceState) : Option HFRun :=
  s.outcome.map fun o =>
    { base with startErr := none, monitor := s.statuses.filterMap statusPair, outcome := o }

/-- The schedule in which the signal is sent while the process runs, the probe receives
it, and the process then exits with status 0. -/
def probeFirstSchedule : List RaceStep :=
  [.start, .signal, .probeCancel, .processExit none, .selectDone]

/-- The schedule in which the signal is sent after registration and before the process
is started, and the probe receives it. -/
def earlySignalSchedule : List RaceStep :=
  [.signal, .start, .probeCancel, .processExit none, .selectDone]

/-- A destination directory that holds the output of an earlier run in the same
directory as the two parts of a new download. -/
def flatStaleTree : FileTree :=
  .dir "llama".toList
    [.file "llama.gguf".toList [9, 9],
     .file "model-00001-of-00002.gguf".toList [1, 2],
     .file "model-00002-of-00002.gguf".toList [3, 4]]

/-! # Theorems -/

/-! ## Lemmas: splitting -/

theorem infix_of_mem_fieldsFuncGo (f : Char → Bool) :
    ∀ (s : Text) (cur : Option Text) (w : Text), w ∈ fieldsFuncGo f cur s →
      w <:+: cur.getD [] ++ s := by
  intro s
  induction s with
  | nil =>
      intro cur w hw
      cases cur with
      | none => simp [fieldsFuncGo] at hw
      | some u =>
          simp only [fieldsFuncGo, List.mem_singleton] at hw
          subst hw
          simp
  | cons c cs ih =>
      intro cur w hw
      cases cur with
      | none =>
          simp only [fieldsFuncGo] at hw
          split at hw
          · have h := ih none w hw
            simp only [Option.getD_none, List.nil_append] at h ⊢
            exact h.trans (List.suffix_cons c cs).isInfix
          · have h := ih (some [c]) w hw
            simpa using h
      | some u =>
          simp only [fieldsFuncGo] at hw
          split at hw
          · rcases List.mem_cons.mp hw with h | h
            · subst h
              simp only [Option.getD_some]
              exact (List.prefix_append w (c :: cs)).isInfix
            · have h2 := ih none w h
              simp only [Option.getD_none, List.nil_append] at h2
              simp only [Option.getD_some]
              exact h2.trans ((List.suffix_cons c cs).trans (List.suffix_append u (c :: cs))).isInfix
          · have h := ih (some (u ++ [c])) w hw
            simpa [List.append_assoc] using h

theorem infix_of_mem_fieldsFunc (f : Char → Bool) (s w : Text) (hw : w ∈ fieldsFunc f s) :
    w <:+: s := by
  simpa using infix_of_mem_fieldsFuncGo f s none w hw

theorem mem_of_mem_fieldsFunc (f : Char → Bool) (s w : Text) (hw : w ∈ fieldsFunc f s)
    (x : Char) (hx : x ∈ w) : x ∈ s :=
  (infix_of_mem_fieldsFunc f s w hw).subset hx

theorem fieldsFuncGo_append_sep (f : Char → Bool) (sep : Char) (hsep : f sep = true) (b : Text) :
    ∀ (a : Text) (cur : Option Text),
      fieldsFuncGo f cur (a ++ sep :: b) = fieldsFuncGo f cur a ++ fieldsFuncGo f none b := by
  intro a
  induction a with
  | nil =>
      intro cur
      cases cur <;> simp [fieldsFuncGo, hsep]
  | cons c cs ih =>
      intro cur
      cases cur with
      | none =>
          simp only [List.cons_append, fieldsFuncGo]
          split
          · exact ih none
          · exact ih _
      | some u =>
          simp only [List.cons_append, fieldsFuncGo]
          split
          · exact congrArg (u :: ·) (ih none)
          · exact ih _

theorem contains_percent_iff (s : Text) : contains s "%".toList = true ↔ '%' ∈ s := by
  simp only [contains, decide_eq_true_eq]
  constructor
  · rintro ⟨u, v, h⟩
    rw [← h]
    simp
  · intro h
    obtain ⟨u, v, h⟩ := List.append_of_mem h
    exact ⟨u, v, by simp [h]⟩

theorem parseProgressPart_of_no_percent (fileID : Int) (part : Text) (h : '%' ∉ part) :
    parseProgressPart fileID part = [] := by
  have : contains part "%".toList = false := by
    cases hc : contains part "%".toList with
    | false => rfl
    | true => exact absurd ((contains_percent_iff part).mp hc) h
  unfold parseProgressPart
  rw [if_pos (Or.inr this)]

/-! ## Lemmas: what the patterns capture -/

theorem mem_run_cls {p : Char → Bool} {s : Text} {c : Caps} {r : Text × Caps}
    (h : r ∈ Re.run (.cls p) s c) : ∃ x, s = x :: r.1 ∧ p x = true ∧ r.2 = c := by
  cases s with
  | nil => simp [Re.run] at h
  | cons x t =>
      simp only [Re.run] at h
      split at h
      · rename_i hp
        simp only [List.mem_singleton] at h
        subst h
        exact ⟨x, rfl, hp, rfl⟩
      · simp at h

theorem mem_run_chr {x : Char} {s : Text} {c : Caps} {r : Text × Caps}
    (h : r ∈ Re.run (Re.chr x) s c) : s = x :: r.1 ∧ r.2 = c := by
  obtain ⟨y, hs, hy, hc⟩ := mem_run_cls h
  have : y = x := by simpa using hy
  subst this
  exact ⟨hs, hc⟩

theorem mem_run_seq {a b : Re} {s : Text} {c : Caps} {r : Text × Caps}
    (h : r ∈ Re.run (.seq a b) s c) : ∃ m ∈ Re.run a s c, r ∈ Re.run b m.1 m.2 := by
  simpa [Re.run, List.mem_flatMap] using h

theorem mem_starLoop_cls {p : Char → Bool} {g : Bool} :
    ∀ (n : Nat) (s : Text) (c : Caps) (r : Text × Caps),
      r ∈ starLoop (Re.run (.cls p)) g n s c →
        r.2 = c ∧ ∃ w, s = w ++ r.1 ∧ ∀ x ∈ w, p x = true := by
  intro n
  induction n with
  | zero =>
      intro s c r h
      simp only [starLoop, List.mem_singleton] at h
      subst h
      exact ⟨rfl, [], rfl, by simp⟩
  | succ n ih =>
      intro s c r h
      have key : r = (s, c) ∨ ∃ m ∈ Re.run (.cls p) s c, r ∈ starLoop (Re.run (.cls p)) g n m.1 m.2 := by
        simp only [starLoop] at h
        cases g with
        | true =>
            simp only [if_true, List.mem_append, List.mem_flatMap, List.mem_singleton] at h
            rcases h with ⟨m, hm, hr⟩ | h
            · split at hr
              · exact Or.inr ⟨m, hm, hr⟩
              · simp at hr
            · exact Or.inl h
        | false =>
            simp only [Bool.false_eq_true, if_false, List.mem_cons, List.mem_flatMap] at h
            rcases h with h | ⟨m, hm, hr⟩
            · exact Or.inl h
            · split at hr
              · exact Or.inr ⟨m, hm, hr⟩
              · simp at hr
      rcases key with h | ⟨m, hm, hr⟩
      · subst h
        exact ⟨rfl, [], rfl, by simp⟩
      · obtain ⟨x, hs, hx, hc⟩ := mem_run_cls hm
        obtain ⟨hc2, w, hw, hall⟩ := ih m.1 m.2 r hr
        refine ⟨hc2.trans hc, x :: w, ?_, ?_⟩
        · rw [hs, hw]; rfl
        · intro y hy
          rcases List.mem_cons.mp hy with h | h
          · subst h; exact hx
          · exact hall y h

theorem mem_run_star_cls {p : Char → Bool} {s : Text} {c : Caps} {r : Text × Caps}
    (h : r ∈ Re.run (.star (.cls p)) s c) :
    r.2 = c ∧ ∃ w, s = w ++ r.1 ∧ ∀ x ∈ w, p x = true :=
  mem_starLoop_cls _ _ _ _ (by simpa [Re.run] using h)

theorem mem_run_lazyStar_cls {p : Char → Bool} {s : Text} {c : Caps} {r : Text × Caps}
    (h : r ∈ Re.run (.lazyStar (.cls p)) s c) :
    r.2 = c ∧ ∃ w, s = w ++ r.1 ∧ ∀ x ∈ w, p x = true :=
  mem_starLoop_cls _ _ _ _ (by simpa [Re.run] using h)

theorem mem_run_plus_cls {p : Char → Bool} {s : Text} {c : Caps} {r : Text × Caps}
    (h : r ∈ Re.run (Re.plus (.cls p)) s c) :
    r.2 = c ∧ ∃ w, w ≠ [] ∧ s = w ++ r.1 ∧ ∀ x ∈ w, p x = true := by
  obtain ⟨m, hm, hr⟩ := mem_run_seq h
  obtain ⟨x, hs, hx, hc⟩ := mem_run_cls hm
  obtain ⟨hc2, w, hw, hall⟩ := mem_run_star_cls hr
  refine ⟨hc2.trans hc, x :: w, by simp, ?_, ?_⟩
  · rw [hs, hw]; rfl
  · intro y hy
    rcases List.mem_cons.mp hy with h | h
    · subst h; exact hx
    · exact hall y h

theorem mem_run_reUnit {s : Text} {c : Caps} {r : Text × Caps}
    (h : r ∈ Re.run reUnit s c) : r.2 = c ∧ ∃ w, w ∈ unitNames ∧ s = w ++ r.1 := by
  obtain ⟨m1, hm1, h1⟩ := mem_run_seq h
  obtain ⟨x, hs, hx, hc1⟩ := mem_run_cls hm1
  obtain ⟨m2, hm2, h2⟩ := mem_run_seq h1
  obtain ⟨hs3, hc3⟩ := mem_run_chr h2
  have hx3 : x = 'K' ∨ x = 'M' ∨ x = 'G' := by
    simpa [isKMG, or_assoc] using hx
  simp only [Re.run, List.mem_append, List.mem_singleton] at hm2
  rcases hm2 with hm2 | hm2
  · obtain ⟨hs2, hc2⟩ := mem_run_chr hm2
    refine ⟨hc3.trans (hc2.trans hc1), [x, 'i', 'B'], ?_, ?_⟩
    · rcases hx3 with h | h | h <;> subst h <;> simp [unitNames]
    · rw [hs, hs2, hs3]; rfl
  · refine ⟨hc3.trans ((congrArg Prod.snd hm2).trans hc1), [x, 'B'], ?_, ?_⟩
    · rcases hx3 with h | h | h <;> subst h <;> simp [unitNames]
    · subst hm2
      simp only at hs3
      rw [hs, hs3]; rfl

theorem take_length_sub_of_append (w t : Text) :
    (w ++ t).take ((w ++ t).length - t.length) = w := by
  simp

theorem mem_run_group {i : Nat} {a : Re} {s : Text} {c : Caps} {r : Text × Caps}
    (h : r ∈ Re.run (.group i a) s c) :
    ∃ m ∈ Re.run a s c, r.1 = m.1 ∧ r.2 = setCap m.2 i (s.take (s.length - m.1.length)) := by
  simp only [Re.run, List.mem_map] at h
  obtain ⟨m, hm, hr⟩ := h
  exact ⟨m, hm, by rw [← hr], by rw [← hr]⟩

theorem mem_run_group_plus_cls {i : Nat} {p : Char → Bool} {s : Text} {c : Caps}
    {r : Text × Caps} (h : r ∈ Re.run (.group i (Re.plus (.cls p))) s c) :
    ∃ w, w ≠ [] ∧ s = w ++ r.1 ∧ (∀ x ∈ w, p x = true) ∧ r.2 = setCap c i w := by
  obtain ⟨m, hm, h1, h2⟩ := mem_run_group h
  obtain ⟨hc, w, hne, hs, hall⟩ := mem_run_plus_cls hm
  refine ⟨w, hne, by rw [h1]; exact hs, hall, ?_⟩
  rw [h2, hc, hs, take_length_sub_of_append]

theorem mem_run_group_reUnit {i : Nat} {s : Text} {c : Caps} {r : Text × Caps}
    (h : r ∈ Re.run (.group i reUnit) s c) :
    ∃ w, w ∈ unitNames ∧ s = w ++ r.1 ∧ r.2 = setCap c i w := by
  obtain ⟨m, hm, h1, h2⟩ := mem_run_group h
  obtain ⟨hc, w, hmem, hs⟩ := mem_run_reUnit hm
  refine ⟨w, hmem, by rw [h1]; exact hs, ?_⟩
  rw [h2, hc, hs, take_length_sub_of_append]

/-- What a match of the sized pattern captures: groups 2 and 4 are non-empty
runs of digits and dots, group 3 is one of the six unit names, and group 4 is
directly followed by the percent sign that ends the match. -/
theorem mem_run_reWithSize {s : Text} {c : Caps} {r : Text × Caps}
    (h : r ∈ Re.run reWithSize s c) :
    r.2 3 ∈ unitNames ∧
    (r.2 2 ≠ [] ∧ ∀ x ∈ r.2 2, isDigitOrDot x = true) ∧
    (r.2 4 ≠ [] ∧ ∀ x ∈ r.2 4, isDigitOrDot x = true) ∧
    ∃ pre, s = pre ++ r.2 4 ++ '%' :: r.1 := by
  unfold reWithSize at h
  obtain ⟨m1, hm1, h⟩ := mem_run_seq h
  obtain ⟨-, v1, -, e1, -⟩ := mem_run_plus_cls hm1
  obtain ⟨m2, hm2, h⟩ := mem_run_seq h
  obtain ⟨-, v2, -, e2, -⟩ := mem_run_plus_cls hm2
  obtain ⟨m3, hm3, h⟩ := mem_run_seq h
  obtain ⟨v3, -, e3, c3⟩ := mem_run_group_reUnit hm3
  obtain ⟨m4, hm4, h⟩ := mem_run_seq h
  obtain ⟨c4, v4, e4, -⟩ := mem_run_star_cls hm4
  obtain ⟨m5, hm5, h⟩ := mem_run_seq h
  obtain ⟨e5, c5⟩ := mem_run_chr hm5
  obtain ⟨m6, hm6, h⟩ := mem_run_seq h
  obtain ⟨c6, v6, e6, -⟩ := mem_run_star_cls hm6
  obtain ⟨m7, hm7, h⟩ := mem_run_seq h
  obtain ⟨v7, n7, e7, a7, c7⟩ := mem_run_group_plus_cls hm7
  obtain ⟨m8, hm8, h⟩ := mem_run_seq h
  obtain ⟨c8, v8, -, e8, -⟩ := mem_run_plus_cls hm8
  obtain ⟨m9, hm9, h⟩ := mem_run_seq h
  obtain ⟨v9, u9, e9, c9⟩ := mem_run_group_reUnit hm9
  obtain ⟨m10, hm10, h⟩ := mem_run_seq h
  obtain ⟨c10, v10, -, e10, -⟩ := mem_run_plus_cls hm10
  obtain ⟨m11, hm11, h⟩ := mem_run_seq h
  obtain ⟨e11, c11⟩ := mem_run_chr hm11
  obtain ⟨m12, hm12, h⟩ := mem_run_seq h
  obtain ⟨c12, v12, e12, -⟩ := mem_run_lazyStar_cls hm12
  obtain ⟨m13, hm13, h⟩ := mem_run_seq h
  obtain ⟨e13, c13⟩ := mem_run_chr hm13
  obtain ⟨m14, hm14, h⟩ := mem_run_seq h
  obtain ⟨c14, v14, -, e14, -⟩ := mem_run_plus_cls hm14
  obtain ⟨m15, hm15, h⟩ := mem_run_seq h
  obtain ⟨v15, n15, e15, a15, c15⟩ := mem_run_group_plus_cls hm15
  obtain ⟨e16, c16⟩ := mem_run_chr h
  have hc : r.2 = setCap (setCap (setCap m6.2 2 v7) 3 v9) 4 v15 := by
    rw [c16, c15, c14, c13, c12, c11, c10, c9, c8, c7]
  have h2 : r.2 2 = v7 := by rw [hc]; simp [setCap]
  have h3 : r.2 3 = v9 := by rw [hc]; simp [setCap]
  have h4 : r.2 4 = v15 := by rw [hc]; simp [setCap]
  rw [h2, h3, h4]
  refine ⟨u9, ⟨n7, a7⟩, ⟨n15, a15⟩, ?_⟩
  refine ⟨v1 ++ v2 ++ v3 ++ v4 ++ '/' :: v6 ++ v7 ++ v8 ++ v9 ++ v10 ++ '[' :: v12 ++ ']' :: v14, ?_⟩
  rw [e1, e2, e3, e4, e5, e6, e7, e8, e9, e10, e11, e12, e13, e14, e15, e16]
  simp [List.append_assoc]

/-- What a match of the fallback pattern captures. -/
theorem mem_run_rePercent {s : Text} {c : Caps} {r : Text × Caps}
    (h : r ∈ Re.run rePercent s c) :
    (r.2 1 ≠ [] ∧ ∀ x ∈ r.2 1, isDigitOrDot x = true) ∧ s = r.2 1 ++ '%' :: r.1 := by
  unfold rePercent at h
  obtain ⟨m1, hm1, h⟩ := mem_run_seq h
  obtain ⟨v, n, e, a, c1⟩ := mem_run_group_plus_cls hm1
  obtain ⟨e2, c2⟩ := mem_run_chr h
  have h1 : r.2 1 = v := by rw [c2, c1]; simp [setCap]
  rw [h1]
  exact ⟨⟨n, a⟩, by rw [e, e2]⟩

/-- The result of `findStringSubmatch` is empty, or comes from the first match
found at some suffix of the input. -/
theorem findStringSubmatch_cases (re : Re) (n : Nat) :
    ∀ s : Text, findStringSubmatch re n s = [] ∨
      ∃ (pre t : Text) (r : Text × Caps) (rest : List (Text × Caps)),
        s = pre ++ t ∧ Re.run re t (fun _ => []) = r :: rest ∧
        findStringSubmatch re n s =
          t.take (t.length - r.1.length) :: (List.range n).map fun i => r.2 (i + 1) := by
  intro s
  induction s with
  | nil =>
      simp only [findStringSubmatch, matchAt]
      cases hrun : Re.run re [] (fun _ => []) with
      | nil => left; rfl
      | cons r rest => right; exact ⟨[], [], r, rest, rfl, hrun, rfl⟩
  | cons x t ih =>
      simp only [findStringSubmatch, matchAt]
      cases hrun : Re.run re (x :: t) (fun _ => []) with
      | nil =>
          rcases ih with h | ⟨pre, u, r, rest, hs, hr, hf⟩
          · left; exact h
          · right; exact ⟨x :: pre, u, r, rest, by rw [hs]; rfl, hr, hf⟩
      | cons r rest => right; exact ⟨[], x :: t, r, rest, rfl, hrun, rfl⟩

/-! ## Lemmas: binary64 rounding -/

theorem findShift_spec (n d : Nat) :
    ∀ (fuel s : Nat), (∃ t, s ≤ t ∧ t ≤ s + fuel ∧ n < 2 ^ 53 * (d * 2 ^ t)) →
      (∀ t, t < s → ¬ n < 2 ^ 53 * (d * 2 ^ t)) →
      n < 2 ^ 53 * (d * 2 ^ findShift n d fuel s) ∧
        ∀ t, t < findShift n d fuel s → ¬ n < 2 ^ 53 * (d * 2 ^ t) := by
  intro fuel
  induction fuel with
  | zero =>
      rintro s ⟨t, h1, h2, h3⟩ hlow
      have : t = s := by omega
      subst this
      exact ⟨h3, hlow⟩
  | succ f ih =>
      rintro s ⟨t, h1, h2, h3⟩ hlow
      simp only [findShift]
      split
      · rename_i hn
        exact ⟨hn, hlow⟩
      · rename_i hn
        apply ih (s + 1)
        · refine ⟨t, ?_, by omega, h3⟩
          by_contra hc
          have : t = s := by omega
          subst this
          exact hn h3
        · intro u hu
          rcases Nat.lt_succ_iff_lt_or_eq.mp hu with h | h
          · exact hlow u h
          · subst h; exact hn

theorem roundShift_spec (n d : Nat) (hd : 0 < d) :
    n < 2 ^ 53 * (d * 2 ^ roundShift n d) ∧
      ∀ t, t < roundShift n d → 2 ^ 53 * (d * 2 ^ t) ≤ n := by
  have hn : n < 2 ^ 53 * (d * 2 ^ n) := by
    have h1 : n < 2 ^ n := Nat.lt_two_pow n
    have h2 : 1 * 2 ^ n ≤ (2 ^ 53 * d) * 2 ^ n :=
      Nat.mul_le_mul_right _ (Nat.mul_pos (by norm_num) hd)
    calc n < 2 ^ n := h1
      _ = 1 * 2 ^ n := (Nat.one_mul _).symm
      _ ≤ (2 ^ 53 * d) * 2 ^ n := h2
      _ = 2 ^ 53 * (d * 2 ^ n) := Nat.mul_assoc _ _ _
  obtain ⟨h1, h2⟩ := findShift_spec n d n 0 ⟨n, Nat.zero_le _, by omega, hn⟩
    (fun t ht => absurd ht (Nat.not_lt_zero t))
  exact ⟨h1, fun t ht => Nat.le_of_not_lt (h2 t ht)⟩

theorem roundHalfEven_mul (m d : Nat) (hd : 0 < d) : roundHalfEven (m * d) d = m := by
  simp [roundHalfEven, Nat.mul_div_cancel m hd, Nat.mul_mod_left, hd]

theorem roundHalfEven_le (n m d : Nat) (hd : 0 < d) (h : n ≤ m * d) :
    roundHalfEven n d ≤ m := by
  rcases Nat.lt_or_eq_of_le h with h | h
  · have hq : n / d < m := (Nat.div_lt_iff_lt_mul hd).mpr h
    unfold roundHalfEven
    simp only
    split
    · omega
    · split
      · omega
      · split <;> omega
  · rw [h, roundHalfEven_mul m d hd]

theorem roundShift_le (n d k j : Nat) (hd : 0 < d) (hk : k < 2 ^ 53)
    (h : n ≤ k * 2 ^ j * d) : roundShift n d ≤ j := by
  by_contra hc
  have hj : j < roundShift n d := Nat.lt_of_not_le hc
  have h1 := (roundShift_spec n d hd).2 j hj
  have hA : 0 < d * 2 ^ j := Nat.mul_pos hd (Nat.two_pow_pos _)
  have h2 : k * (d * 2 ^ j) < 2 ^ 53 * (d * 2 ^ j) := Nat.mul_lt_mul_of_pos_right hk hA
  have h3 : k * 2 ^ j * d = k * (d * 2 ^ j) := by ring
  omega

theorem f64RoundUnits_le (n den k j : Nat) (hd : 0 < den) (hk : k < 2 ^ 53)
    (h : n ≤ k * 2 ^ j * den) (hfin : k * 2 ^ j < overflowUnits) :
    ∃ k1 s1, f64RoundUnits n den = .fin k1 s1 ∧ k1 * 2 ^ s1 ≤ k * 2 ^ j := by
  have hs := roundShift_le n den k j hd hk h
  have hD : 0 < den * 2 ^ roundShift n den := Nat.mul_pos hd (Nat.two_pow_pos _)
  have hpow : 2 ^ j = 2 ^ (j - roundShift n den) * 2 ^ roundShift n den := by
    rw [← Nat.pow_add, Nat.sub_add_cancel hs]
  have hM : n ≤ k * 2 ^ (j - roundShift n den) * (den * 2 ^ roundShift n den) := by
    calc n ≤ k * 2 ^ j * den := h
      _ = _ := by rw [hpow]; ring
  have hr := roundHalfEven_le _ _ _ hD hM
  have hle : roundHalfEven n (den * 2 ^ roundShift n den) * 2 ^ roundShift n den ≤ k * 2 ^ j := by
    calc _ ≤ k * 2 ^ (j - roundShift n den) * 2 ^ roundShift n den := Nat.mul_le_mul_right _ hr
      _ = k * 2 ^ j := by rw [hpow]; ring
  refine ⟨_, _, ?_, hle⟩
  unfold f64RoundUnits
  simp only
  rw [if_neg (Nat.not_le_of_lt (Nat.lt_of_le_of_lt hle hfin))]

theorem f64RoundUnits_exact (n den k j : Nat) (hd : 0 < den) (hk : k < 2 ^ 53)
    (h : n = k * 2 ^ j * den) (hfin : k * 2 ^ j < overflowUnits) :
    ∃ k1 s1, f64RoundUnits n den = .fin k1 s1 ∧ k1 * 2 ^ s1 = k * 2 ^ j := by
  have hs := roundShift_le n den k j hd hk (Nat.le_of_eq h)
  have hD : 0 < den * 2 ^ roundShift n den := Nat.mul_pos hd (Nat.two_pow_pos _)
  have hpow : 2 ^ j = 2 ^ (j - roundShift n den) * 2 ^ roundShift n den := by
    rw [← Nat.pow_add, Nat.sub_add_cancel hs]
  have hM : n = k * 2 ^ (j - roundShift n den) * (den * 2 ^ roundShift n den) := by
    calc n = k * 2 ^ j * den := h
      _ = _ := by rw [hpow]; ring
  have hr : roundHalfEven n (den * 2 ^ roundShift n den) = k * 2 ^ (j - roundShift n den) := by
    have := roundHalfEven_mul (k * 2 ^ (j - roundShift n den)) _ hD
    rwa [← hM] at this
  have heq : roundHalfEven n (den * 2 ^ roundShift n den) * 2 ^ roundShift n den = k * 2 ^ j := by
    rw [hr]
    calc _ = k * (2 ^ (j - roundShift n den) * 2 ^ roundShift n den) := Nat.mul_assoc _ _ _
      _ = k * 2 ^ j := by rw [← hpow]
  refine ⟨_, _, ?_, heq⟩
  unfold f64RoundUnits
  simp only
  rw [if_neg (Nat.not_le_of_lt (heq ▸ hfin))]

theorem f64RoundUnits_mant_le (n den k s : Nat) (hd : 0 < den)
    (h : f64RoundUnits n den = .fin k s) : k ≤ 2 ^ 53 := by
  unfold f64RoundUnits at h
  simp only at h
  split at h
  · cases h
  · injection h with hk hs
    have hD : 0 < den * 2 ^ roundShift n den := Nat.mul_pos hd (Nat.two_pow_pos _)
    rw [← hk]
    exact roundHalfEven_le _ _ _ hD (Nat.le_of_lt (roundShift_spec _ den hd).1)

theorem representable_of_mant_le (k s : Nat) (hk : k ≤ 2 ^ 53) :
    ∃ k1 j1, k1 < 2 ^ 53 ∧ k * 2 ^ s = k1 * 2 ^ j1 := by
  rcases Nat.lt_or_eq_of_le hk with h | h
  · exact ⟨k, s, h, rfl⟩
  · refine ⟨2 ^ 52, s + 1, by norm_num, ?_⟩
    rw [h, Nat.pow_succ]
    ring

set_option exponentiation.threshold 4000 in
theorem unitsPerOne_pos : 0 < unitsPerOne := by
  unfold unitsPerOne
  exact Nat.two_pow_pos _

set_option exponentiation.threshold 4000 in
theorem unitsPerOne_lt_overflowUnits : 2 ^ 63 * unitsPerOne < overflowUnits := by
  unfold unitsPerOne overflowUnits
  rw [← Nat.pow_add]
  exact Nat.pow_lt_pow_right (by norm_num) (by norm_num)

set_option exponentiation.threshold 4000 in
theorem f64_1024_units : (1024 : Nat) * 2 ^ 1074 = 1024 * unitsPerOne := by
  unfold unitsPerOne
  rfl

/-- Multiplying a finite `float64` by `1024` is exact when it does not overflow. -/
theorem f64Mul_1024 (k s : Nat) (hk : k ≤ 2 ^ 53) (hfin : k * 2 ^ s * 1024 < overflowUnits) :
    ∃ k1 s1, f64Mul (.fin k s) f64_1024 = .fin k1 s1 ∧ k1 ≤ 2 ^ 53 ∧
      k1 * 2 ^ s1 = k * 2 ^ s * 1024 := by
  obtain ⟨k0, j0, hk0, hrep⟩ := representable_of_mant_le k s hk
  have hdef : f64Mul (.fin k s) f64_1024 =
      f64RoundUnits (k * 2 ^ s * (1024 * 2 ^ 1074) * unitsPerOne) (unitsPerOne * unitsPerOne) := rfl
  have hden : 0 < unitsPerOne * unitsPerOne := Nat.mul_pos unitsPerOne_pos unitsPerOne_pos
  have hval : k * 2 ^ s * 1024 = k0 * 2 ^ (j0 + 10) := by
    rw [hrep, Nat.pow_add]
    ring
  have hn : k * 2 ^ s * (1024 * 2 ^ 1074) * unitsPerOne =
      k0 * 2 ^ (j0 + 10) * (unitsPerOne * unitsPerOne) := by
    rw [← hval, f64_1024_units]
    ring
  obtain ⟨k1, s1, h1, h2⟩ :=
    f64RoundUnits_exact _ _ k0 (j0 + 10) hden hk0 hn (hval ▸ hfin)
  refine ⟨k1, s1, hdef.trans h1, ?_, h2.trans hval.symm⟩
  exact f64RoundUnits_mant_le _ _ k1 s1 hden h1

/-- Converting a finite `float64` below `2^63` to `int64` truncates it. -/
theorem int64OfF64_fin (k s : Nat) (h : k * 2 ^ s < 2 ^ 63 * unitsPerOne) :
    int64OfF64 (.fin k s) = ((k * 2 ^ s / unitsPerOne : Nat) : Int) := by
  have : k * 2 ^ s / unitsPerOne < 2 ^ 63 := (Nat.div_lt_iff_lt_mul unitsPerOne_pos).mpr h
  simp only [int64OfF64]
  rw [if_pos this]

theorem floor_units_div (u m : Nat) :
    ⌊((u : ℚ) / (unitsPerOne : ℚ)) * (m : ℚ)⌋ = ((u * m / unitsPerOne : Nat) : Int) := by
  have h1 : ((u : ℚ) / (unitsPerOne : ℚ)) * (m : ℚ) = ((u * m : Nat) : ℚ) / (unitsPerOne : ℚ) := by
    rw [Nat.cast_mul]
    ring
  rw [h1, ← Int.natCast_floor_eq_floor (by positivity), Nat.floor_div_eq_div]

theorem mul1024Iter_fin (k s : Nat) (hk : k ≤ 2 ^ 53) :
    ∀ n : Nat, k * 2 ^ s * 1024 ^ n < overflowUnits →
      ∃ k1 s1, mul1024Iter (.fin k s) n = .fin k1 s1 ∧ k1 ≤ 2 ^ 53 ∧
        k1 * 2 ^ s1 = k * 2 ^ s * 1024 ^ n := by
  intro n
  induction n with
  | zero =>
      intro _
      exact ⟨k, s, rfl, hk, by simp⟩
  | succ n ih =>
      intro h
      have hstep : k * 2 ^ s * 1024 ^ (n + 1) = k * 2 ^ s * 1024 ^ n * 1024 := by
        rw [Nat.pow_succ]; ring
      have hle : k * 2 ^ s * 1024 ^ n ≤ k * 2 ^ s * 1024 ^ (n + 1) := by
        rw [hstep]; exact Nat.le_mul_of_pos_right _ (by norm_num)
      obtain ⟨k1, s1, h1, hk1, hu1⟩ := ih (Nat.lt_of_le_of_lt hle h)
      obtain ⟨k2, s2, h2, hk2, hu2⟩ := f64Mul_1024 k1 s1 hk1 (by rw [hu1, ← hstep]; exact h)
      refine ⟨k2, s2, ?_, hk2, ?_⟩
      · simp only [mul1024Iter, h1, h2]
      · rw [hu2, hu1, hstep]

theorem int64_mul1024Iter (k s n : Nat) (hk : k ≤ 2 ^ 53)
    (h : k * 2 ^ s * 1024 ^ n < 2 ^ 63 * unitsPerOne) :
    int64OfF64 (mul1024Iter (.fin k s) n) = ((k * 2 ^ s * 1024 ^ n / unitsPerOne : Nat) : Int) := by
  obtain ⟨k1, s1, h1, -, hu⟩ :=
    mul1024Iter_fin k s hk n (Nat.lt_trans h unitsPerOne_lt_overflowUnits)
  rw [h1, int64OfF64_fin k1 s1 (by rw [hu]; exact h), hu]

theorem unitMultiplier_cases (unit : Text) (hu : unit ∈ unitNames) :
    (unitMultiplier unit = 1024 ^ 3 ∧
        ∀ x, totalBytesOf unit x = int64OfF64 (mul1024Iter x 3)) ∨
    (unitMultiplier unit = 1024 ^ 2 ∧
        ∀ x, totalBytesOf unit x = int64OfF64 (mul1024Iter x 2)) ∨
    (unitMultiplier unit = 1024 ^ 1 ∧
        ∀ x, totalBytesOf unit x = int64OfF64 (mul1024Iter x 1)) := by
  simp only [unitNames, List.mem_cons, List.mem_singleton, List.not_mem_nil, or_false] at hu
  rcases hu with h | h | h | h | h | h <;> subst h
  · right; right; exact ⟨by decide, fun x => by simp [totalBytesOf, mul1024Iter]⟩
  · right; right; exact ⟨by decide, fun x => by simp [totalBytesOf, mul1024Iter]⟩
  · right; left; exact ⟨by decide, fun x => by simp [totalBytesOf, mul1024Iter]⟩
  · right; left; exact ⟨by decide, fun x => by simp [totalBytesOf, mul1024Iter]⟩
  · left; exact ⟨by decide, fun x => by simp [totalBytesOf, mul1024Iter]⟩
  · left; exact ⟨by decide, fun x => by simp [totalBytesOf, mul1024Iter]⟩

/-- For one of the six units and a finite `float64` total whose product with
the unit's multiplier is below `2^63`, the byte count the code computes with
`float64` multiplications by `1024` is the exact product, rounded down. -/
theorem totalBytesOf_eq_floor (unit : Text) (hu : unit ∈ unitNames) (k s : Nat)
    (hk : k ≤ 2 ^ 53)
    (h : (F64.fin k s).toRat * (unitMultiplier unit : ℚ) < 2 ^ 63) :
    totalBytesOf unit (.fin k s) = ⌊(F64.fin k s).toRat * (unitMultiplier unit : ℚ)⌋ := by
  have hpos : (0 : ℚ) < (unitsPerOne : ℚ) := by exact_mod_cast unitsPerOne_pos
  have hnat : k * 2 ^ s * unitMultiplier unit < 2 ^ 63 * unitsPerOne := by
    have h1 : ((k * 2 ^ s : Nat) : ℚ) / (unitsPerOne : ℚ) * (unitMultiplier unit : ℚ) < 2 ^ 63 := h
    rw [div_mul_eq_mul_div, div_lt_iff₀ hpos] at h1
    exact_mod_cast h1
  have hfl : ⌊(F64.fin k s).toRat * (unitMultiplier unit : ℚ)⌋ =
      ((k * 2 ^ s * unitMultiplier unit / unitsPerOne : Nat) : Int) :=
    floor_units_div (k * 2 ^ s) (unitMultiplier unit)
  rw [hfl]
  rcases unitMultiplier_cases unit hu with ⟨hm, ht⟩ | ⟨hm, ht⟩ | ⟨hm, ht⟩ <;>
    rw [ht, hm] <;> rw [hm] at hnat <;> exact int64_mul1024Iter k s _ hk hnat

/-! ## Lemmas: `parseFloat` -/

theorem parseFloat_cases (w : Text) :
    (parseFloat w).1 = .inf ∨ ∃ k s, (parseFloat w).1 = .fin k s ∧ k ≤ 2 ^ 53 := by
  unfold parseFloat
  cases hp : parseDecimal w with
  | none => exact Or.inr ⟨0, 0, rfl, Nat.zero_le _⟩
  | some md =>
      obtain ⟨m, d⟩ := md
      simp only
      cases hr : f64Round m (10 ^ d) with
      | fin k s =>
          refine Or.inr ⟨k, s, rfl, ?_⟩
          exact f64RoundUnits_mant_le _ _ k s (Nat.pow_pos (by norm_num)) hr
      | inf => exact Or.inl rfl
      | nan => exact Or.inl rfl

theorem parseFloat_exact (w : Text) (m d k j : Nat) (hp : parseDecimal w = some (m, d))
    (h : m * unitsPerOne = k * 2 ^ j * 10 ^ d) (hk : k < 2 ^ 53)
    (hfin : k * 2 ^ j < overflowUnits) :
    ∃ k1 s1, parseFloat w = (.fin k1 s1, none) ∧ k1 * 2 ^ s1 = k * 2 ^ j := by
  obtain ⟨k1, s1, h1, h2⟩ :=
    f64RoundUnits_exact (m * unitsPerOne) (10 ^ d) k j (Nat.pow_pos (by norm_num)) hk h hfin
  refine ⟨k1, s1, ?_, h2⟩
  have h1' : f64Round m (10 ^ d) = .fin k1 s1 := h1
  simp only [parseFloat, hp, h1']

theorem parseFloat_le (w : Text) (m d k j : Nat) (hp : parseDecimal w = some (m, d))
    (h : m * unitsPerOne ≤ k * 2 ^ j * 10 ^ d) (hk : k < 2 ^ 53)
    (hfin : k * 2 ^ j < overflowUnits) :
    ∃ k1 s1, parseFloat w = (.fin k1 s1, none) ∧ k1 * 2 ^ s1 ≤ k * 2 ^ j := by
  obtain ⟨k1, s1, h1, h2⟩ :=
    f64RoundUnits_le (m * unitsPerOne) (10 ^ d) k j (Nat.pow_pos (by norm_num)) hk h hfin
  refine ⟨k1, s1, ?_, h2⟩
  have h1' : f64Round m (10 ^ d) = .fin k1 s1 := h1
  simp only [parseFloat, hp, h1']

set_option exponentiation.threshold 4000 in
theorem hundred_units : 100 * unitsPerOne = 25 * 2 ^ 1076 := by
  unfold unitsPerOne
  rw [show (1076 : Nat) = 1074 + 2 from rfl, Nat.pow_add]
  ring

set_option exponentiation.threshold 4000 in
theorem hundred_units_lt : 25 * 2 ^ 1076 < overflowUnits := by
  unfold overflowUnits
  calc 25 * 2 ^ 1076 < 2 ^ 5 * 2 ^ 1076 := Nat.mul_lt_mul_of_pos_right (by norm_num) (Nat.two_pow_pos _)
    _ = 2 ^ 1081 := by rw [← Nat.pow_add]
    _ < 2 ^ 2098 := Nat.pow_lt_pow_right (by norm_num) (by norm_num)

theorem toRat_fin (k s : Nat) :
    (F64.fin k s).toRat = ((k * 2 ^ s : Nat) : ℚ) / (unitsPerOne : ℚ) := rfl

theorem unitsPerOne_cast_pos : (0 : ℚ) < (unitsPerOne : ℚ) := by
  exact_mod_cast unitsPerOne_pos

/-- A well-formed numeral of value at most 100 parses, without error, to a
finite `float64` that is at most 100. -/
theorem parseFloat_le100 (w : Text) (m d : Nat) (hp : parseDecimal w = some (m, d))
    (h : (m : ℚ) / 10 ^ d ≤ 100) :
    (parseFloat w).2 = none ∧ (parseFloat w).1.isFinite = true ∧ (parseFloat w).1.toRat ≤ 100 := by
  have hm : m ≤ 100 * 10 ^ d := by
    rw [div_le_iff₀ (by positivity)] at h
    exact_mod_cast h
  have h1 : m * unitsPerOne ≤ 25 * 2 ^ 1076 * 10 ^ d := by
    rw [← hundred_units]
    calc m * unitsPerOne ≤ 100 * 10 ^ d * unitsPerOne := Nat.mul_le_mul_right _ hm
      _ = 100 * unitsPerOne * 10 ^ d := by ring
  obtain ⟨k1, s1, hpf, hle⟩ :=
    parseFloat_le w m d 25 1076 hp h1 (by norm_num) hundred_units_lt
  rw [hpf]
  refine ⟨rfl, rfl, ?_⟩
  rw [toRat_fin, div_le_iff₀ unitsPerOne_cast_pos]
  rw [← hundred_units] at hle
  exact_mod_cast hle

/-! ## Lemmas: the parser on one segment -/

theorem sizedMatch_shape (part : Text) (hm : sizedMatch part ≠ []) :
    ∃ whole g1, sizedMatch part = [whole, g1, sizedTotal part, sizedUnit part, sizedPercent part] ∧
      sizedUnit part ∈ unitNames ∧
      (sizedTotal part ≠ [] ∧ ∀ x ∈ sizedTotal part, isDigitOrDot x = true) ∧
      (sizedPercent part ≠ [] ∧ ∀ x ∈ sizedPercent part, isDigitOrDot x = true) ∧
      sizedPercent part ++ ['%'] <:+: part := by
  rcases findStringSubmatch_cases reWithSize 4 part with h | ⟨pre, t, r, rest, hs, hr, hf⟩
  · exact absurd h hm
  · have hmem : r ∈ Re.run reWithSize t (fun _ => []) := by rw [hr]; exact List.mem_cons_self _ _
    obtain ⟨hu, h2, h4, pre2, ht⟩ := mem_run_reWithSize hmem
    have hsm : sizedMatch part = [t.take (t.length - r.1.length), r.2 1, r.2 2, r.2 3, r.2 4] := by
      unfold sizedMatch
      rw [hf]
      rfl
    have e2 : sizedTotal part = r.2 2 := by simp [sizedTotal, hsm]
    have e3 : sizedUnit part = r.2 3 := by simp [sizedUnit, hsm]
    have e4 : sizedPercent part = r.2 4 := by simp [sizedPercent, hsm]
    rw [e2, e3, e4]
    refine ⟨_, _, hsm, hu, h2, h4, ?_⟩
    refine ⟨pre ++ pre2, r.1, ?_⟩
    rw [hs, ht]
    simp [List.append_assoc]

theorem bareMatch_shape (part : Text) (hm : bareMatch part ≠ []) :
    ∃ whole, bareMatch part = [whole, barePercent part] ∧
      (barePercent part ≠ [] ∧ ∀ x ∈ barePercent part, isDigitOrDot x = true) ∧
      barePercent part ++ ['%'] <:+: part := by
  rcases findStringSubmatch_cases rePercent 1 part with h | ⟨pre, t, r, rest, hs, hr, hf⟩
  · exact absurd h hm
  · have hmem : r ∈ Re.run rePercent t (fun _ => []) := by rw [hr]; exact List.mem_cons_self _ _
    obtain ⟨h1, ht⟩ := mem_run_rePercent hmem
    have hsm : bareMatch part = [t.take (t.length - r.1.length), r.2 1] := by
      unfold bareMatch
      rw [hf]
      rfl
    have e1 : barePercent part = r.2 1 := by simp [barePercent, hsm]
    rw [e1]
    refine ⟨_, hsm, h1, ?_⟩
    refine ⟨pre, r.1, ?_⟩
    rw [hs, ht]
    simp [List.append_assoc]

theorem percent_mem_part (w part : Text) (h : w ++ ['%'] <:+: part) : '%' ∈ part :=
  h.subset (by simp)

/-- The three outcomes of `parseProgressPart` on a segment. -/
theorem parseProgressPart_eq (fileID : Int) (part : Text) :
    parseProgressPart fileID part =
      if sizedMatch part ≠ [] then
        [.downloadProgress fileID (parseFloat (sizedPercent part)).1
          (some (totalBytesOf (sizedUnit part) (parseFloat (sizedTotal part)).1))
          "Downloading...".toList]
      else if bareMatch part ≠ [] ∧ (parseFloat (barePercent part)).2 = none then
        [.downloadProgress fileID (parseFloat (barePercent part)).1 none "Downloading...".toList]
      else [] := by
  by_cases hs : sizedMatch part ≠ []
  · obtain ⟨whole, g1, hsm, -, -, -, hinf⟩ := sizedMatch_shape part hs
    have hpc : contains part "%".toList = true :=
      (contains_percent_iff part).mpr (percent_mem_part _ _ hinf)
    have hne : part ≠ [] := by
      intro h
      rw [h] at hpc
      simp [contains] at hpc
    have hlen : 5 ≤ (findStringSubmatch reWithSize 4 part).length := by
      have : (sizedMatch part).length = 5 := by rw [hsm]; rfl
      exact Nat.le_of_eq this.symm
    rw [if_pos hs]
    unfold parseProgressPart
    rw [if_neg (fun h => h.elim hne (fun h => by rw [hpc] at h; cases h)), if_pos hlen]
    rfl
  · have hs' : sizedMatch part = [] := not_not.mp hs
    rw [if_neg hs]
    have hlen : ¬ 5 ≤ (findStringSubmatch reWithSize 4 part).length := by
      have : (findStringSubmatch reWithSize 4 part) = [] := hs'
      rw [this]
      simp
    by_cases hb : bareMatch part ≠ []
    · obtain ⟨whole, hbm, -, hinf⟩ := bareMatch_shape part hb
      have hpc : contains part "%".toList = true :=
        (contains_percent_iff part).mpr (percent_mem_part _ _ hinf)
      have hne : part ≠ [] := by
        intro h
        rw [h] at hpc
        simp [contains] at hpc
      have hlen1 : 1 < (findStringSubmatch rePercent 1 part).length := by
        have : (bareMatch part).length = 2 := by rw [hbm]; rfl
        have h2 : (findStringSubmatch rePercent 1 part).length = 2 := this
        omega
      unfold parseProgressPart
      rw [if_neg (fun h => h.elim hne (fun h => by rw [hpc] at h; cases h)), if_neg hlen]
      simp only [hlen1, if_true]
      have hbp : (findStringSubmatch rePercent 1 part).getD 1 [] = barePercent part := rfl
      rw [hbp]
      rcases hpf : parseFloat (barePercent part) with ⟨p, e⟩
      cases e with
      | none => simp [hb]
      | some e => simp
    · have hb' : bareMatch part = [] := not_not.mp hb
      have hlen1 : ¬ 1 < (findStringSubmatch rePercent 1 part).length := by
        have : (findStringSubmatch rePercent 1 part) = [] := hb'
        rw [this]
        simp
      rw [if_neg (by simp [hb'])]
      unfold parseProgressPart
      split
      · rfl
      · rw [if_neg hlen]
        simp only [hlen1, if_false]

/-! ## The progress parser: claims -/

/-- C1 (amended). For every segment that matches the sized pattern, the matched
unit of the total is one of GiB, GB, MiB, MB, KiB, KB, and the `totalSize` of
the emitted sample is `int64` of the `float64` product of `ParseFloat(total)`
with `1024` once per power of `2^10` in the unit's multiplier. When the parsed
total is finite and the product is below `2^63`, this is the parsed `float64`
value times the multiplier (`2^30`, `2^20`, `2^10`), rounded down; and when the
total is a well-formed numeral whose decimal value is exactly a `float64`
value, it is the decimal value times the multiplier, rounded down. -/
theorem sized_totalSize (fileID : Int) (part : Text) (hm : sizedMatch part ≠ []) :
    sizedUnit part ∈ unitNames ∧
    (parseProgressPart fileID part).map Event.totalSize =
      [some (totalBytesOf (sizedUnit part) (parseFloat (sizedTotal part)).1)] ∧
    ((parseFloat (sizedTotal part)).1.isFinite = true →
      (parseFloat (sizedTotal part)).1.toRat * (unitMultiplier (sizedUnit part) : ℚ) < 2 ^ 63 →
      (parseProgressPart fileID part).map Event.totalSize =
        [some ⌊(parseFloat (sizedTotal part)).1.toRat * (unitMultiplier (sizedUnit part) : ℚ)⌋]) ∧
    (∀ m d k j : Nat, parseDecimal (sizedTotal part) = some (m, d) →
      (m : ℚ) / 10 ^ d = (F64.fin k j).toRat → k < 2 ^ 53 →
      (m : ℚ) / 10 ^ d * (unitMultiplier (sizedUnit part) : ℚ) < 2 ^ 63 →
      (parseProgressPart fileID part).map Event.totalSize =
        [some ⌊(m : ℚ) / 10 ^ d * (unitMultiplier (sizedUnit part) : ℚ)⌋]) := by
  obtain ⟨whole, g1, -, hu, -, -, -⟩ := sizedMatch_shape part hm
  have hev : (parseProgressPart fileID part).map Event.totalSize =
      [some (totalBytesOf (sizedUnit part) (parseFloat (sizedTotal part)).1)] := by
    rw [parseProgressPart_eq, if_pos hm]
    rfl
  have hfloor : (parseFloat (sizedTotal part)).1.isFinite = true →
      (parseFloat (sizedTotal part)).1.toRat * (unitMultiplier (sizedUnit part) : ℚ) < 2 ^ 63 →
      (parseProgressPart fileID part).map Event.totalSize =
        [some ⌊(parseFloat (sizedTotal part)).1.toRat * (unitMultiplier (sizedUnit part) : ℚ)⌋] := by
    intro hfin hlt
    rw [hev]
    rcases parseFloat_cases (sizedTotal part) with h | ⟨k, s, h, hk⟩
    · rw [h] at hfin
      cases hfin
    · rw [h] at hlt ⊢
      rw [totalBytesOf_eq_floor _ hu k s hk hlt]
  refine ⟨hu, hev, hfloor, ?_⟩
  intro m d k j hp hval hk hlt
  have hmul : (1 : ℚ) ≤ (unitMultiplier (sizedUnit part) : ℚ) := by
    rcases unitMultiplier_cases _ hu with ⟨h, -⟩ | ⟨h, -⟩ | ⟨h, -⟩ <;> rw [h] <;> norm_num
  have hval0 : (0 : ℚ) ≤ (m : ℚ) / 10 ^ d := by positivity
  have hlt1 : (m : ℚ) / 10 ^ d < 2 ^ 63 :=
    lt_of_le_of_lt (le_mul_of_one_le_right hval0 hmul) hlt
  have hten : (0 : ℚ) < 10 ^ d := by positivity
  have hnat : m * unitsPerOne = k * 2 ^ j * 10 ^ d := by
    rw [toRat_fin, div_eq_div_iff (ne_of_gt hten) (ne_of_gt unitsPerOne_cast_pos)] at hval
    exact_mod_cast hval
  have hfin : k * 2 ^ j < overflowUnits := by
    have h1 : ((k * 2 ^ j : Nat) : ℚ) / (unitsPerOne : ℚ) < 2 ^ 63 := by
      rw [← toRat_fin, ← hval]
      exact hlt1
    rw [div_lt_iff₀ unitsPerOne_cast_pos] at h1
    have h2 : k * 2 ^ j < 2 ^ 63 * unitsPerOne := by exact_mod_cast h1
    exact Nat.lt_trans h2 unitsPerOne_lt_overflowUnits
  obtain ⟨k1, s1, hpf, hunits⟩ := parseFloat_exact _ m d k j hp hnat hk hfin
  have hrat : (parseFloat (sizedTotal part)).1.toRat = (m : ℚ) / 10 ^ d := by
    rw [hpf, hval, toRat_fin, toRat_fin, hunits]
  have := hfloor (by rw [hpf]; rfl) (by rw [hrat]; exact hlt)
  rw [hrat] at this
  exact this

/-- C1 (as stated, refuted). The segment `1 MiB / 0.99999999999999999999 GiB [>] 1%`
matches the sized pattern with total `0.99999999999999999999` and unit `GiB`;
the emitted `totalSize` is `1073741824`, while the total value times `2^30`,
rounded down, is `1073741823`: `ParseFloat` rounds the total to `1.0`. -/
theorem sized_totalSize_not_decimal_floor :
    sizedMatch "1 MiB / 0.99999999999999999999 GiB [>] 1%".toList =
      ["1 MiB / 0.99999999999999999999 GiB [>] 1%".toList, "MiB".toList,
        "0.99999999999999999999".toList, "GiB".toList, "1".toList] ∧
    parseDecimal "0.99999999999999999999".toList = some (99999999999999999999, 20) ∧
    (parseProgressPart 1 "1 MiB / 0.99999999999999999999 GiB [>] 1%".toList).map
      Event.totalSize = [some 1073741824] ∧
    ⌊(99999999999999999999 : ℚ) / 10 ^ 20 * (unitMultiplier "GiB".toList : ℚ)⌋ = 1073741823 := by
  refine ⟨by decide!, by decide!, by decide!, ?_⟩
  have h : unitMultiplier "GiB".toList = 2 ^ 30 := by decide
  rw [h, Int.floor_eq_iff]
  norm_num

set_option exponentiation.threshold 4000 in
theorem two_and_a_half_units : (25 : ℚ) / 10 ^ 1 = (F64.fin 5 1073).toRat := by
  have h : 25 * unitsPerOne = 5 * 2 ^ 1073 * 10 := by
    unfold unitsPerOne
    rw [show (1074 : Nat) = 1073 + 1 from rfl, Nat.pow_succ]
    ring
  rw [toRat_fin, eq_div_iff (ne_of_gt unitsPerOne_cast_pos)]
  have h2 : ((25 * unitsPerOne : Nat) : ℚ) = ((5 * 2 ^ 1073 * 10 : Nat) : ℚ) := by rw [h]
  push_cast at h2 ⊢
  linarith

/-- Witness for C1: the segment `1 MiB / 2.5 GiB [>] 40%` matches the sized
pattern and its sample carries `floor(2.5 * 2^30)`. -/
theorem sized_totalSize_witness :
    sizedMatch "1 MiB / 2.5 GiB [>] 40%".toList ≠ [] ∧
    (parseProgressPart 1 "1 MiB / 2.5 GiB [>] 40%".toList).map Event.totalSize =
      [some ⌊(25 : ℚ) / 10 ^ 1 *
        (unitMultiplier (sizedUnit "1 MiB / 2.5 GiB [>] 40%".toList) : ℚ)⌋] :=
  ⟨by decide!,
    (sized_totalSize 1 "1 MiB / 2.5 GiB [>] 40%".toList (by decide!)).2.2.2 25 1 5 1073
      (by decide!) (by exact_mod_cast two_and_a_half_units) (by norm_num)
      (by
        have hu : unitMultiplier (sizedUnit "1 MiB / 2.5 GiB [>] 40%".toList) = 2 ^ 30 := by
          decide!
        rw [hu]
        norm_num)⟩

/-- C2. A stderr chunk that contains no percent sign produces no progress sample. -/
theorem no_percent_no_samples (fileID : Int) (chunk : Text) (h : '%' ∉ chunk) :
    parseProgressChunk fileID chunk = [] := by
  unfold parseProgressChunk
  rw [List.eq_nil_iff_forall_not_mem]
  intro ev hev
  obtain ⟨part, hpart, hmem⟩ := List.mem_flatMap.mp hev
  have hno : '%' ∉ part := fun hx => h (mem_of_mem_fieldsFunc _ _ _ hpart _ hx)
  rw [parseProgressPart_of_no_percent fileID part hno] at hmem
  cases hmem

/-- Witness for C2: a log line without a percent sign. -/
theorem no_percent_no_samples_witness :
    '%' ∉ "downloading product\r\n".toList ∧
    parseProgressChunk 7 "downloading product\r\n".toList = [] :=
  ⟨by decide, no_percent_no_samples 7 "downloading product\r\n".toList (by decide)⟩

/-- C3. The parser splits a chunk on newline and on carriage return: the samples
of `a ++ [sep] ++ b`, for `sep` either of the two, are the samples of `a`
followed by the samples of `b`. -/
theorem parseProgressChunk_append_sep (fileID : Int) (a b : Text) (sep : Char)
    (h : sep = '\n' ∨ sep = '\r') :
    parseProgressChunk fileID (a ++ [sep] ++ b) =
      parseProgressChunk fileID a ++ parseProgressChunk fileID b := by
  have hsep : isLineBreak sep = true := by
    rcases h with h | h <;> subst h <;> decide
  have hsplit : fieldsFunc isLineBreak (a ++ [sep] ++ b) =
      fieldsFunc isLineBreak a ++ fieldsFunc isLineBreak b := by
    have := fieldsFuncGo_append_sep isLineBreak sep hsep b a none
    simpa [fieldsFunc, List.append_assoc] using this
  unfold parseProgressChunk
  rw [hsplit, List.flatMap_append]

/-- Witness for C3: two progress updates separated by a carriage return. -/
theorem parseProgressChunk_append_sep_witness :
    ('\r' = '\n' ∨ '\r' = '\r') ∧
    parseProgressChunk 7 ("10%".toList ++ ['\r'] ++ "20%".toList) =
      parseProgressChunk 7 "10%".toList ++ parseProgressChunk 7 "20%".toList :=
  ⟨Or.inr rfl, parseProgressChunk_append_sep 7 "10%".toList "20%".toList '\r' (Or.inr rfl)⟩

/-- C4 (amended). Every segment yields at most one sample. When the sized
pattern matches, the sample carries the percentage and the total byte count.
Otherwise, when the fallback pattern `([\d.]+)%` matches and `ParseFloat`
accepts the text of its leftmost match, the sample carries the percentage only;
when `ParseFloat` rejects that text no sample is emitted. A segment matching
neither pattern yields no sample. (The function has no error result.) -/
theorem part_sample_cases (fileID : Int) (part : Text) :
    (parseProgressPart fileID part).length ≤ 1 ∧
    (sizedMatch part ≠ [] →
      parseProgressPart fileID part =
        [.downloadProgress fileID (parseFloat (sizedPercent part)).1
          (some (totalBytesOf (sizedUnit part) (parseFloat (sizedTotal part)).1))
          "Downloading...".toList]) ∧
    (sizedMatch part = [] → bareMatch part ≠ [] → (parseFloat (barePercent part)).2 = none →
      parseProgressPart fileID part =
        [.downloadProgress fileID (parseFloat (barePercent part)).1 none
          "Downloading...".toList]) ∧
    (sizedMatch part = [] → bareMatch part ≠ [] → (parseFloat (barePercent part)).2 ≠ none →
      parseProgressPart fileID part = []) ∧
    (sizedMatch part = [] → bareMatch part = [] → parseProgressPart fileID part = []) := by
  rw [parseProgressPart_eq]
  refine ⟨?_, ?_, ?_, ?_, ?_⟩
  · split
    · simp
    · split <;> simp
  · intro h
    rw [if_pos h]
  · intro h1 h2 h3
    rw [if_neg (not_not.mpr h1), if_pos ⟨h2, h3⟩]
  · intro h1 h2 h3
    rw [if_neg (not_not.mpr h1), if_neg (fun h => h3 h.2)]
  · intro h1 h2
    rw [if_neg (not_not.mpr h1), if_neg (fun h => h.1 h2)]

/-- C4 (as stated, refuted). In the segment `1.2.3%` the sized pattern does not
match and the bare pattern `<number>%` does (and `3%` occurs in it), yet no
sample is emitted: `ParseFloat` rejects `1.2.3`. -/
theorem bare_percent_without_sample :
    '%' ∈ "1.2.3%".toList ∧
    sizedMatch "1.2.3%".toList = [] ∧
    bareMatch "1.2.3%".toList = ["1.2.3%".toList, "1.2.3".toList] ∧
    "3%".toList <:+: "1.2.3%".toList ∧
    parseProgressPart 1 "1.2.3%".toList = [] := by
  refine ⟨by decide, by decide!, by decide!, by decide, by decide!⟩

/-- C5 (amended). Every sample's percentage is the `float64` that `ParseFloat`
returns for a non-empty run of digits and dots standing directly before a
percent sign in the chunk. It is never NaN (nor negative), it is finite when
the sample carries no total, and it is at most 100 whenever that text is a
well-formed numeral of value at most 100. The parser does not clamp: a larger
numeral gives a larger percentage. -/
theorem progress_percentage_range (fileID : Int) (chunk : Text) (ev : Event)
    (hev : ev ∈ parseProgressChunk fileID chunk) :
    ∃ w : Text, w ≠ [] ∧ (∀ x ∈ w, isDigitOrDot x = true) ∧ w ++ ['%'] <:+: chunk ∧
      ev.progress = some (parseFloat w).1 ∧ (parseFloat w).1 ≠ .nan ∧
      (ev.totalSize = none → (parseFloat w).1.isFinite = true) ∧
      ∀ m d : Nat, parseDecimal w = some (m, d) → (m : ℚ) / 10 ^ d ≤ 100 →
        (parseFloat w).1.isFinite = true ∧ 0 ≤ (parseFloat w).1.toRat ∧
          (parseFloat w).1.toRat ≤ 100 := by
  obtain ⟨part, hpart, hmem⟩ := List.mem_flatMap.mp hev
  have hinfix := infix_of_mem_fieldsFunc _ _ _ hpart
  have hnan : ∀ w, (parseFloat w).1 ≠ .nan := by
    intro w h
    rcases parseFloat_cases w with h1 | ⟨k, s, h1, -⟩ <;> rw [h1] at h <;> cases h
  have hbound : ∀ w (m d : Nat), parseDecimal w = some (m, d) → (m : ℚ) / 10 ^ d ≤ 100 →
      (parseFloat w).1.isFinite = true ∧ 0 ≤ (parseFloat w).1.toRat ∧
        (parseFloat w).1.toRat ≤ 100 := by
    intro w m d hp hle
    obtain ⟨-, h2, h3⟩ := parseFloat_le100 w m d hp hle
    refine ⟨h2, ?_, h3⟩
    unfold F64.toRat
    positivity
  rw [parseProgressPart_eq] at hmem
  split at hmem
  · rename_i hs
    obtain ⟨whole, g1, -, -, -, ⟨hne, hall⟩, hin⟩ := sizedMatch_shape part hs
    simp only [List.mem_singleton] at hmem
    subst hmem
    exact ⟨sizedPercent part, hne, hall, hin.trans hinfix, rfl, hnan _,
      fun h => absurd h (by simp [Event.totalSize]), hbound _⟩
  · split at hmem
    · rename_i hb
      obtain ⟨whole, -, ⟨hne, hall⟩, hin⟩ := bareMatch_shape part hb.1
      simp only [List.mem_singleton] at hmem
      subst hmem
      refine ⟨barePercent part, hne, hall, hin.trans hinfix, rfl, hnan _, ?_, hbound _⟩
      intro _
      have herr := hb.2
      unfold parseFloat at herr ⊢
      cases hp : parseDecimal (barePercent part) with
      | none => rfl
      | some md =>
          rw [hp] at herr
          simp only at herr ⊢
          cases hr : f64Round md.1 (10 ^ md.2) with
          | fin k s => rfl
          | inf => rw [hr] at herr; cases herr
          | nan => rw [hr] at herr; cases herr
    · cases hmem

/-- Witness for C5: the sample of `50%`. -/
theorem progress_percentage_range_witness :
    Event.downloadProgress 7 (parseFloat "50".toList).1 none "Downloading...".toList ∈
      parseProgressChunk 7 "50%".toList ∧
    ∃ w : Text, w ≠ [] ∧ (∀ x ∈ w, isDigitOrDot x = true) ∧ w ++ ['%'] <:+: "50%".toList ∧
      (Event.downloadProgress 7 (parseFloat "50".toList).1 none "Downloading...".toList).progress =
        some (parseFloat w).1 ∧ (parseFloat w).1 ≠ .nan ∧
      ((Event.downloadProgress 7 (parseFloat "50".toList).1 none
          "Downloading...".toList).totalSize = none → (parseFloat w).1.isFinite = true) ∧
      ∀ m d : Nat, parseDecimal w = some (m, d) → (m : ℚ) / 10 ^ d ≤ 100 →
        (parseFloat w).1.isFinite = true ∧ 0 ≤ (parseFloat w).1.toRat ∧
          (parseFloat w).1.toRat ≤ 100 :=
  ⟨by decide!, progress_percentage_range 7 "50%".toList _ (by decide!)⟩

/-- C5 (as stated, refuted). The chunk `250%` yields one sample, whose
percentage is `250`. -/
theorem percentage_above_100 :
    (parseProgressChunk 1 "250%".toList).map Event.progress =
      [some (F64.fin 8796093022208000 1029)] ∧
    (F64.fin 8796093022208000 1029).toRat = 250 ∧
    ¬ (F64.fin 8796093022208000 1029).toRat ≤ 100 := by
  have hu : 8796093022208000 * 2 ^ 1029 = 250 * unitsPerOne := by decide!
  have hr : (F64.fin 8796093022208000 1029).toRat = 250 := by
    rw [toRat_fin, hu, Nat.cast_mul, mul_div_assoc, div_self (ne_of_gt unitsPerOne_cast_pos)]
    norm_num
  refine ⟨by decide!, hr, ?_⟩
  rw [hr]
  norm_num

/-! ## The download operations: claims -/

theorem parseProgressChunk_isProgress (fileID : Int) (chunk : Text) (ev : Event)
    (h : ev ∈ parseProgressChunk fileID chunk) : ev.isDownloadComplete = false := by
  obtain ⟨part, -, hmem⟩ := List.mem_flatMap.mp h
  rw [parseProgressPart_eq] at hmem
  split at hmem
  · simp only [List.mem_singleton] at hmem
    subst hmem
    rfl
  · split at hmem
    · simp only [List.mem_singleton] at hmem
      subst hmem
      rfl
    · cases hmem

theorem omDownload_killed (label : Text) (b : BroadcomService) (savePath : Text) (fileID : Int)
    (w : OMRun) (e : Text) (hreach : w.reachesWait b = true) (hw : w.waitErr = some e)
    (hk : "killed".toList <:+: e) :
    (omDownload label b savePath fileID w).err = none ∧
      ∀ ev ∈ (omDownload label b savePath fileID w).events, ev.isDownloadComplete = false := by
  simp only [OMRun.reachesWait, Bool.and_eq_true, decide_eq_true_eq, Option.isNone_iff_eq_none]
    at hreach
  obtain ⟨⟨⟨⟨⟨h1, h2⟩, h3⟩, h4⟩, h5⟩, h6⟩ := hreach
  have hc : contains e "killed".toList = true := by
    simp only [contains, decide_eq_true_eq]
    exact hk
  cases hp : w.omPath with
  | error x => rw [hp] at h2; cases h2
  | ok x =>
      have heq : omDownload label b savePath fileID w =
          ⟨none, w.stderrChunks.flatMap (parseProgressChunk fileID), [],
            { b with activeDownloads :=
                mapDelete (mapSet b.activeDownloads fileID w.cmd) fileID }⟩ := by
        unfold omDownload
        rw [if_neg h1]
        simp only [hp, h3, h4, h5, h6, hw]
        rw [if_pos (Or.inr hc)]
      rw [heq]
      refine ⟨rfl, ?_⟩
      intro ev hev
      obtain ⟨chunk, -, hmem⟩ := List.mem_flatMap.mp hev
      exact parseProgressChunk_isProgress fileID chunk ev hmem

/-- C6. In each of the three OM downloads, when the process was started and
`cmd.Wait` returns an error whose text contains `killed`, the operation returns
no error and emits no `download-complete` event. -/
theorem om_killed_returns_nil (b : BroadcomService) (savePath : Text) (fileID : Int)
    (w : OMRun) (e : Text) (hreach : w.reachesWait b = true) (hw : w.waitErr = some e)
    (hk : "killed".toList <:+: e) :
    ((DownloadFileWithOM b savePath fileID w).err = none ∧
      ∀ ev ∈ (DownloadFileWithOM b savePath fileID w).events, ev.isDownloadComplete = false) ∧
    ((DownloadStemcellWithOM b savePath fileID w).err = none ∧
      ∀ ev ∈ (DownloadStemcellWithOM b savePath fileID w).events,
        ev.isDownloadComplete = false) ∧
    ((DownloadOpsManagerWithOM b savePath fileID w).err = none ∧
      ∀ ev ∈ (DownloadOpsManagerWithOM b savePath fileID w).events,
        ev.isDownloadComplete = false) :=
  ⟨omDownload_killed _ b savePath fileID w e hreach hw hk,
    omDownload_killed _ b savePath fileID w e hreach hw hk,
    omDownload_killed _ b savePath fileID w e hreach hw hk⟩

/-- Witness for C6: a process killed after one progress line. -/
theorem om_killed_returns_nil_witness :
    (killedOMRun.reachesWait freshBroadcomService = true ∧
      killedOMRun.waitErr = some "signal: killed".toList ∧
      "killed".toList <:+: "signal: killed".toList) ∧
    (DownloadFileWithOM freshBroadcomService "/out".toList 42 killedOMRun).err = none :=
  ⟨⟨by decide, rfl, by decide⟩,
    (om_killed_returns_nil freshBroadcomService "/out".toList 42 killedOMRun
      "signal: killed".toList (by decide) rfl (by decide)).1.1⟩

/-- The deregistration the OM downloads perform: once the process was started,
the file ID is not in the active-downloads map when the operation returns,
whatever `cmd.Wait` returned. -/
theorem omDownload_deregisters (label : Text) (b : BroadcomService) (savePath : Text)
    (fileID : Int) (w : OMRun) (hreach : w.reachesWait b = true) :
    (omDownload label b savePath fileID w).state.activeDownloads fileID = none := by
  simp only [OMRun.reachesWait, Bool.and_eq_true, decide_eq_true_eq, Option.isNone_iff_eq_none]
    at hreach
  obtain ⟨⟨⟨⟨⟨h1, h2⟩, h3⟩, h4⟩, h5⟩, h6⟩ := hreach
  cases hp : w.omPath with
  | error x => rw [hp] at h2; cases h2
  | ok x =>
      unfold omDownload
      rw [if_neg h1]
      simp only [hp, h3, h4, h5, h6]
      cases w.waitErr with
      | none => simp [mapDelete]
      | some e =>
          simp only
          split
          · simp [mapDelete]
          · split <;> simp [mapDelete]

/-- The deregistration on the process-exit path of `downloadWithHuggingFaceCLI`:
when the CLI was found and started and the `select` observes the process exit,
the model name is in neither registry map when the function returns. -/
theorem downloadWithHuggingFaceCLI_exit_deregisters (a : AIModelService)
    (destDir modelName filePattern : Text) (w : HFRun) (concat : List Event × Option Text)
    (cli : Text) (waitErr : Option Text)
    (hcli : getHuggingFaceCLI w.hfFound w.cliFound w.goos = .ok cli)
    (hstart : w.startErr = none) (hout : w.outcome = .exited waitErr) :
    (downloadWithHuggingFaceCLI a destDir modelName filePattern w concat).state.cancelChannels
        modelName = none ∧
    (downloadWithHuggingFaceCLI a destDir modelName filePattern w concat).state.activeDownloads
        modelName = none := by
  unfold downloadWithHuggingFaceCLI
  simp only [hcli, hstart, hout]
  constructor <;> (repeat' split) <;> simp [mapDelete]

/-- C7 (failing input). `DownloadOllamaModel`, when the cancellation signal is
received before the process exit is observed, returns the error
`download cancelled` (and emits no `ai-model-complete` event). -/
theorem ollama_cancel_returns_error :
    (DownloadOllamaModel freshAIService
        "https://huggingface.co/unsloth/Llama-3.3-70B-Instruct-GGUF/tree/main/UD-Q6_K_XL".toList
        "llama".toList none cancelledRun ([], none)).err = some "download cancelled".toList ∧
    (DownloadOllamaModel freshAIService
        "https://huggingface.co/unsloth/Llama-3.3-70B-Instruct-GGUF/tree/main/UD-Q6_K_XL".toList
        "llama".toList none cancelledRun ([], none)).events.filter Event.isAIModelComplete = [] ∧
    (DownloadVLLMModel freshAIService "llama".toList none cancelledRun none).err = none := by
  refine ⟨by decide, by decide, by decide⟩

/-- C8 (failing input). `DownloadVLLMModel`, when no cancellation is signalled
and the process exits with status 1 after writing
`Error: request cancelled by the server` to stderr, returns no error. -/
theorem vllm_failure_swallowed :
    failedRun.outcome = .exited (some "exit status 1".toList) ∧
    (downloadVLLMFiles freshAIService "llama".toList failedRun).err =
      some "download failed: exit status 1 - Error: request cancelled by the server".toList ∧
    (DownloadVLLMModel freshAIService "llama".toList none failedRun none).err = none := by
  refine ⟨rfl, by decide, by decide⟩

/-- C9 (failing input). After `DownloadOllamaModel` returns from a cancelled
download the model name is still in both registry maps, and after
`DownloadVLLMModel` returns with success it is still in the cancel-channel
map. -/
theorem stale_registry_entries :
    ((DownloadOllamaModel freshAIService
        "https://huggingface.co/unsloth/Llama-3.3-70B-Instruct-GGUF/tree/main/UD-Q6_K_XL".toList
        "llama".toList none cancelledRun ([], none)).state.cancelChannels "llama".toList =
      some ⟨1, 0⟩) ∧
    ((DownloadOllamaModel freshAIService
        "https://huggingface.co/unsloth/Llama-3.3-70B-Instruct-GGUF/tree/main/UD-Q6_K_XL".toList
        "llama".toList none cancelledRun ([], none)).state.activeDownloads "llama".toList =
      some ⟨1, true⟩) ∧
    (DownloadVLLMModel freshAIService "llama".toList none successfulRun none).err = none ∧
    ((DownloadVLLMModel freshAIService "llama".toList none successfulRun none).state.cancelChannels
        "llama".toList = some ⟨1, 0⟩) := by
  refine ⟨by decide, by decide, by decide, by decide⟩

/-- C10. Cancelling a job that is not registered returns the not-found error,
emits no event, kills no process and leaves the service state, hence every
registry entry, unchanged: for `CancelModelDownload` (by model name) and for
`CancelDownload` (by file ID), whatever `Kill` would have returned. -/
theorem cancel_unregistered_noop (a : AIModelService) (modelName : Text)
    (b : BroadcomService) (fileID : Int) (killErr : Option Text)
    (ha : a.cancelChannels modelName = none) (hb : b.activeDownloads fileID = none) :
    CancelModelDownload a modelName =
      some ⟨some ("no active download found for model: ".toList ++ modelName), [], [], a⟩ ∧
    CancelDownload b fileID killErr =
      ⟨some ("no active download found for file ID ".toList ++ intText fileID), [], [], b⟩ := by
  constructor
  · unfold CancelModelDownload
    rw [ha]
  · unfold CancelDownload
    rw [hb]

/-- Witness for C10: cancelling in services whose registries are empty. -/
theorem cancel_unregistered_noop_witness :
    (freshAIService.cancelChannels "llama".toList = none ∧
      freshBroadcomService.activeDownloads 42 = none) ∧
    CancelModelDownload freshAIService "llama".toList =
      some ⟨some ("no active download found for model: ".toList ++ "llama".toList), [], [],
        freshAIService⟩ ∧
    CancelDownload freshBroadcomService 42 none =
      ⟨some ("no active download found for file ID ".toList ++ intText 42), [], [],
        freshBroadcomService⟩ :=
  ⟨⟨rfl, rfl⟩, cancel_unregistered_noop freshAIService "llama".toList freshBroadcomService 42 none
    rfl rfl⟩

/-! ## Registration: claims -/

theorem mapSet_mapDelete {κ ν : Type} [DecidableEq κ] (m : κ → Option ν) (k : κ) (v : ν) :
    mapSet (mapDelete m k) k v = mapSet m k v := by
  funext j
  unfold mapSet mapDelete
  split <;> rfl

/-- C11 (amended). Starting an AI-model download for a model name does not
check the registries for an existing entry: once the HuggingFace CLI is found,
`downloadWithHuggingFaceCLI` and `downloadVLLMFiles` behave exactly as if the
name had an entry in neither the cancel-channel map nor the active-downloads
map (same error, events, kills and final state), so no duplicate-job error is
returned; a channel left registered under the name when they return is the new
download's channel, and a command handle left registered under the name is the
new download's handle, not the earlier ones. -/
theorem registration_overwrites (a : AIModelService) (destDir modelName filePattern : Text)
    (w : HFRun) (concat : List Event × Option Text) (cli : Text)
    (hcli : getHuggingFaceCLI w.hfFound w.cliFound w.goos = .ok cli) :
    downloadWithHuggingFaceCLI a destDir modelName filePattern w concat =
      downloadWithHuggingFaceCLI
        { a with
          cancelChannels := mapDelete a.cancelChannels modelName
          activeDownloads := mapDelete a.activeDownloads modelName }
        destDir modelName filePattern w concat ∧
    downloadVLLMFiles a modelName w =
      downloadVLLMFiles
        { a with
          cancelChannels := mapDelete a.cancelChannels modelName
          activeDownloads := mapDelete a.activeDownloads modelName }
        modelName w ∧
    (∀ ch, (downloadWithHuggingFaceCLI a destDir modelName filePattern w concat).state.cancelChannels
        modelName = some ch → ch = ⟨w.chanId, 0⟩) ∧
    (∀ ch, (downloadVLLMFiles a modelName w).state.cancelChannels modelName = some ch →
      ch = ⟨w.chanId, 0⟩) ∧
    (∀ c, (downloadWithHuggingFaceCLI a destDir modelName filePattern w
        concat).state.activeDownloads modelName = some c → c = w.cmd) ∧
    (∀ c, (downloadVLLMFiles a modelName w).state.activeDownloads modelName = some c →
      c = w.cmd) := by
  refine ⟨?_, ?_, ?_, ?_, ?_, ?_⟩
  · unfold downloadWithHuggingFaceCLI
    simp only [hcli, mapSet_mapDelete]
  · unfold downloadVLLMFiles
    simp only [hcli, mapSet_mapDelete]
  · intro ch
    unfold downloadWithHuggingFaceCLI
    simp only [hcli]
    (repeat' split) <;> simp [mapSet, mapDelete] <;> intro h <;> exact h.symm
  · intro ch
    unfold downloadVLLMFiles
    simp only [hcli]
    (repeat' split) <;> simp [mapSet, mapDelete] <;> intro h <;> exact h.symm
  · intro c
    unfold downloadWithHuggingFaceCLI
    simp only [hcli]
    (repeat' split) <;> simp [mapSet, mapDelete] <;> intro h <;> exact h.symm
  · intro c
    unfold downloadVLLMFiles
    simp only [hcli]
    (repeat' split) <;> simp [mapSet, mapDelete] <;> intro h <;> exact h.symm

/-- Witness for C11: a download for the registered name `llama`, whose earlier channel 7
and command handle 7 are replaced by channel 1 and command handle 1. -/
theorem registration_overwrites_witness :
    getHuggingFaceCLI cancelledRun.hfFound cancelledRun.cliFound cancelledRun.goos =
      .ok "hf".toList ∧
    (∀ ch, (downloadVLLMFiles registeredAIService "llama".toList cancelledRun).state.cancelChannels
        "llama".toList = some ch → ch = ⟨cancelledRun.chanId, 0⟩) ∧
    (∀ c, (downloadVLLMFiles registeredAIService "llama".toList cancelledRun).state.activeDownloads
        "llama".toList = some c → c = cancelledRun.cmd) ∧
    (downloadVLLMFiles registeredAIService "llama".toList cancelledRun).state.activeDownloads
        "llama".toList = some ⟨1, true⟩ :=
  ⟨rfl,
    (registration_overwrites registeredAIService [] "llama".toList [] cancelledRun ([], none)
      "hf".toList rfl).2.2.2.1,
    (registration_overwrites registeredAIService [] "llama".toList [] cancelledRun ([], none)
      "hf".toList rfl).2.2.2.2.2,
    by decide⟩

/-- C11 (as stated, refuted). With `llama` already registered under channel 7 and
command handle 7, `DownloadOllamaModel` for `llama` returns no error when the
process exits with success, and when it is cancelled the entries registered
under the name are the new channel 1 and the new command handle 1: the existing
handles were replaced. -/
theorem duplicate_registration_accepted :
    registeredAIService.cancelChannels "llama".toList = some ⟨7, 0⟩ ∧
    registeredAIService.activeDownloads "llama".toList = some ⟨7, true⟩ ∧
    (DownloadOllamaModel registeredAIService
        "https://huggingface.co/unsloth/Llama-3.3-70B-Instruct-GGUF/tree/main/UD-Q6_K_XL".toList
        "llama".toList none cancelledRun ([], none)).state.activeDownloads "llama".toList =
      some ⟨1, true⟩ ∧
    (DownloadOllamaModel registeredAIService
        "https://huggingface.co/unsloth/Llama-3.3-70B-Instruct-GGUF/tree/main/UD-Q6_K_XL".toList
        "llama".toList none successfulRun ([], none)).err = none ∧
    (DownloadOllamaModel registeredAIService
        "https://huggingface.co/unsloth/Llama-3.3-70B-Instruct-GGUF/tree/main/UD-Q6_K_XL".toList
        "llama".toList none cancelledRun ([], none)).state.cancelChannels "llama".toList =
      some ⟨1, 0⟩ ∧
    (DownloadVLLMModel registeredAIService "llama".toList none cancelledRun none).state.cancelChannels
        "llama".toList = some ⟨1, 0⟩ := by
  refine ⟨by decide, by decide, by decide, by decide, by decide, by decide⟩

/-! ## Lemmas: monotone rounding -/

theorem roundShift_mono (n1 n2 d : Nat) (hd : 0 < d) (h : n1 ≤ n2) :
    roundShift n1 d ≤ roundShift n2 d := by
  by_contra hc
  have hlt : roundShift n2 d < roundShift n1 d := Nat.lt_of_not_le hc
  have h1 := (roundShift_spec n1 d hd).2 _ hlt
  have h2 := (roundShift_spec n2 d hd).1
  omega

theorem roundHalfEven_le_succ (n d : Nat) : roundHalfEven n d ≤ n / d + 1 := by
  unfold roundHalfEven
  simp only
  split
  · omega
  · split
    · omega
    · split <;> omega

theorem div_le_roundHalfEven (n d : Nat) : n / d ≤ roundHalfEven n d := by
  unfold roundHalfEven
  simp only
  split
  · omega
  · split
    · omega
    · split <;> omega

theorem roundHalfEven_ge (n m d : Nat) (hd : 0 < d) (h : m * d ≤ n) :
    m ≤ roundHalfEven n d :=
  Nat.le_trans ((Nat.le_div_iff_mul_le hd).mpr h) (div_le_roundHalfEven n d)

theorem roundHalfEven_mono (n1 n2 d : Nat) (h : n1 ≤ n2) :
    roundHalfEven n1 d ≤ roundHalfEven n2 d := by
  have hq : n1 / d ≤ n2 / d := Nat.div_le_div_right h
  rcases Nat.lt_or_eq_of_le hq with hlt | heq
  · exact Nat.le_trans (roundHalfEven_le_succ n1 d)
      (Nat.le_trans hlt (div_le_roundHalfEven n2 d))
  · have e1 := Nat.div_add_mod n1 d
    have e2 := Nat.div_add_mod n2 d
    have hr : n1 % d ≤ n2 % d := by
      rw [heq] at e1
      omega
    unfold roundHalfEven
    simp only
    rw [heq]
    clear e1 e2 hq heq h
    generalize n2 / d = q
    generalize n1 % d = r1 at hr ⊢
    generalize n2 % d = r2 at hr ⊢
    split_ifs <;> omega

theorem roundedUnits_mono (n1 n2 d : Nat) (hd : 0 < d) (h : n1 ≤ n2) :
    roundedUnits n1 d ≤ roundedUnits n2 d := by
  unfold roundedUnits
  have hs := roundShift_mono n1 n2 d hd h
  rcases Nat.lt_or_eq_of_le hs with hlt | heq
  · have hD1 : 0 < d * 2 ^ roundShift n1 d := Nat.mul_pos hd (Nat.two_pow_pos _)
    have hD2 : 0 < d * 2 ^ roundShift n2 d := Nat.mul_pos hd (Nat.two_pow_pos _)
    have hk1 : roundHalfEven n1 (d * 2 ^ roundShift n1 d) ≤ 2 ^ 53 :=
      roundHalfEven_le _ _ _ hD1 (Nat.le_of_lt (roundShift_spec n1 d hd).1)
    have hlow := (roundShift_spec n2 d hd).2 (roundShift n2 d - 1) (by omega)
    have hpow : 2 ^ roundShift n2 d = 2 * 2 ^ (roundShift n2 d - 1) := by
      rw [← Nat.pow_succ']
      congr 1
      omega
    have hk2 : 2 ^ 52 ≤ roundHalfEven n2 (d * 2 ^ roundShift n2 d) := by
      apply roundHalfEven_ge _ _ _ hD2
      calc 2 ^ 52 * (d * 2 ^ roundShift n2 d)
          = 2 ^ 53 * (d * 2 ^ (roundShift n2 d - 1)) := by rw [hpow]; ring
        _ ≤ n2 := hlow
    have hp : 2 ^ roundShift n1 d ≤ 2 ^ (roundShift n2 d - 1) :=
      Nat.pow_le_pow_right (by norm_num) (by omega)
    calc roundHalfEven n1 (d * 2 ^ roundShift n1 d) * 2 ^ roundShift n1 d
        ≤ 2 ^ 53 * 2 ^ roundShift n1 d := Nat.mul_le_mul_right _ hk1
      _ ≤ 2 ^ 53 * 2 ^ (roundShift n2 d - 1) := Nat.mul_le_mul_left _ hp
      _ = 2 ^ 52 * 2 ^ roundShift n2 d := by rw [hpow]; ring
      _ ≤ roundHalfEven n2 (d * 2 ^ roundShift n2 d) * 2 ^ roundShift n2 d :=
          Nat.mul_le_mul_right _ hk2
  · rw [heq]
    exact Nat.mul_le_mul_right _
      (roundHalfEven_mono _ _ _ h)

theorem roundedUnits_exact (d k j : Nat) (hd : 0 < d) (hk : k < 2 ^ 53) :
    roundedUnits (k * 2 ^ j * d) d = k * 2 ^ j := by
  have hs := roundShift_le (k * 2 ^ j * d) d k j hd hk (Nat.le_refl _)
  have hD : 0 < d * 2 ^ roundShift (k * 2 ^ j * d) d := Nat.mul_pos hd (Nat.two_pow_pos _)
  have hpow : 2 ^ j = 2 ^ (j - roundShift (k * 2 ^ j * d) d) *
      2 ^ roundShift (k * 2 ^ j * d) d := by
    rw [← Nat.pow_add, Nat.sub_add_cancel hs]
  have hM : k * 2 ^ j * d = k * 2 ^ (j - roundShift (k * 2 ^ j * d) d) *
      (d * 2 ^ roundShift (k * 2 ^ j * d) d) := by
    conv_lhs => rw [hpow]
    ring
  have hr : roundHalfEven (k * 2 ^ j * d) (d * 2 ^ roundShift (k * 2 ^ j * d) d) =
      k * 2 ^ (j - roundShift (k * 2 ^ j * d) d) := by
    have := roundHalfEven_mul (k * 2 ^ (j - roundShift (k * 2 ^ j * d) d)) _ hD
    rwa [← hM] at this
  unfold roundedUnits
  rw [hr, Nat.mul_assoc, ← hpow]

theorem roundedUnits_le_of_le (n d k j : Nat) (hd : 0 < d) (hk : k < 2 ^ 53)
    (h : n ≤ k * 2 ^ j * d) : roundedUnits n d ≤ k * 2 ^ j :=
  (roundedUnits_exact d k j hd hk) ▸ roundedUnits_mono n _ d hd h

theorem roundedUnits_ge_of_ge (n d k j : Nat) (hd : 0 < d) (hk : k < 2 ^ 53)
    (h : k * 2 ^ j * d ≤ n) : k * 2 ^ j ≤ roundedUnits n d :=
  (roundedUnits_exact d k j hd hk) ▸ roundedUnits_mono _ n d hd h

theorem hasUnits_f64RoundUnits (n d : Nat) (h : roundedUnits n d < overflowUnits) :
    HasUnits (f64RoundUnits n d) (roundedUnits n d) := by
  refine ⟨roundHalfEven n (d * 2 ^ roundShift n d), roundShift n d, ?_, rfl⟩
  have h2 : ¬ overflowUnits ≤
      roundHalfEven n (d * 2 ^ roundShift n d) * 2 ^ roundShift n d := Nat.not_le_of_lt h
  unfold f64RoundUnits
  simp only
  rw [if_neg h2]

/-! ## Lemmas: `float64` operations on finite values -/

set_option exponentiation.threshold 4000 in
theorem unitsPerOne_eq : unitsPerOne = 2 ^ 1074 := by
  unfold unitsPerOne
  rfl

theorem units_repr (k j : Nat) : k * 2 ^ j * unitsPerOne = k * 2 ^ (j + 1074) := by
  rw [unitsPerOne_eq, Nat.pow_add, Nat.mul_assoc]

theorem roundedUnits_le_units (n d k j : Nat) (hd : 0 < d) (hk : k < 2 ^ 53)
    (h : n ≤ k * 2 ^ j * unitsPerOne * d) : roundedUnits n d ≤ k * 2 ^ j * unitsPerOne := by
  rw [units_repr] at h ⊢
  exact roundedUnits_le_of_le n d k _ hd hk h

theorem roundedUnits_ge_units (n d k j : Nat) (hd : 0 < d) (hk : k < 2 ^ 53)
    (h : k * 2 ^ j * unitsPerOne * d ≤ n) : k * 2 ^ j * unitsPerOne ≤ roundedUnits n d := by
  rw [units_repr] at h ⊢
  exact roundedUnits_ge_of_ge n d k _ hd hk h

theorem roundedUnits_eq_units (d k j : Nat) (hd : 0 < d) (hk : k < 2 ^ 53) :
    roundedUnits (k * 2 ^ j * unitsPerOne * d) d = k * 2 ^ j * unitsPerOne := by
  rw [units_repr]
  exact roundedUnits_exact d k _ hd hk

theorem lt_overflow_of_le (u : Nat) (h : u ≤ 2 ^ 63 * unitsPerOne) : u < overflowUnits :=
  Nat.lt_of_le_of_lt h unitsPerOne_lt_overflowUnits

theorem hasUnits_ofNat (n : Nat) (h : uOfNat n < overflowUnits) :
    HasUnits (f64OfNat n) (uOfNat n) :=
  hasUnits_f64RoundUnits _ _ h

theorem hasUnits_div {x y : F64} {u v : Nat} (hx : HasUnits x u) (hy : HasUnits y v)
    (hv : 0 < v) (h : uDiv u v < overflowUnits) : HasUnits (f64Div x y) (uDiv u v) := by
  obtain ⟨k1, s1, rfl, rfl⟩ := hx
  obtain ⟨k2, s2, rfl, rfl⟩ := hy
  have hk2 : k2 ≠ 0 := by
    intro h0
    rw [h0] at hv
    simp at hv
  have : f64Div (.fin k1 s1) (.fin k2 s2) =
      f64RoundUnits (k1 * 2 ^ s1 * unitsPerOne) (k2 * 2 ^ s2) := by
    simp only [f64Div, if_neg hk2]
    rfl
  rw [this]
  exact hasUnits_f64RoundUnits _ _ h

theorem hasUnits_mul {x y : F64} {u v : Nat} (hx : HasUnits x u) (hy : HasUnits y v)
    (h : uMul u v < overflowUnits) : HasUnits (f64Mul x y) (uMul u v) := by
  obtain ⟨k1, s1, rfl, rfl⟩ := hx
  obtain ⟨k2, s2, rfl, rfl⟩ := hy
  have : f64Mul (.fin k1 s1) (.fin k2 s2) =
      f64RoundUnits (k1 * 2 ^ s1 * (k2 * 2 ^ s2) * unitsPerOne) (unitsPerOne * unitsPerOne) := rfl
  rw [this]
  exact hasUnits_f64RoundUnits _ _ h

theorem hasUnits_sub {x y : F64} {u v : Nat} (hx : HasUnits x u) (hy : HasUnits y v)
    (hvu : v ≤ u) (h : uSub u v < overflowUnits) : HasUnits (f64Sub x y) (uSub u v) := by
  obtain ⟨k1, s1, rfl, rfl⟩ := hx
  obtain ⟨k2, s2, rfl, rfl⟩ := hy
  have : f64Sub (.fin k1 s1) (.fin k2 s2) =
      f64RoundUnits (k1 * 2 ^ s1 - k2 * 2 ^ s2) 1 := by
    simp only [f64Sub, if_pos hvu]
  rw [this]
  exact hasUnits_f64RoundUnits _ _ h

theorem f64Lt_of_hasUnits {x y : F64} {u v : Nat} (hx : HasUnits x u) (hy : HasUnits y v) :
    f64Lt x y = decide (u < v) := by
  obtain ⟨k1, s1, rfl, rfl⟩ := hx
  obtain ⟨k2, s2, rfl, rfl⟩ := hy
  rfl

theorem int64_of_hasUnits {x : F64} {u : Nat} (hx : HasUnits x u)
    (h : u < 2 ^ 63 * unitsPerOne) : int64OfF64 x = ((u / unitsPerOne : Nat) : Int) := by
  obtain ⟨k, s, rfl, rfl⟩ := hx
  exact int64OfF64_fin k s h

theorem uOfNat_exact (c : Nat) (hc : c < 2 ^ 53) : uOfNat c = c * unitsPerOne := by
  have := roundedUnits_eq_units 1 c 0 (by norm_num) hc
  simpa [uOfNat] using this

theorem hasUnits_const (c : Nat) (hc : c < 2 ^ 53) :
    HasUnits (f64OfNat c) (c * unitsPerOne) := by
  have h := uOfNat_exact c hc
  have hlt : uOfNat c < overflowUnits := by
    rw [h]
    apply lt_overflow_of_le
    exact Nat.mul_le_mul_right _ (Nat.le_of_lt (Nat.lt_trans hc (by norm_num)))
  have := hasUnits_ofNat c hlt
  rwa [h] at this

theorem unitsSq_pos : 0 < unitsPerOne * unitsPerOne :=
  Nat.mul_pos unitsPerOne_pos unitsPerOne_pos

theorem uOfNat_mono (n1 n2 : Nat) (h : n1 ≤ n2) : uOfNat n1 ≤ uOfNat n2 :=
  roundedUnits_mono _ _ 1 (by norm_num) (Nat.mul_le_mul_right _ h)

theorem uDiv_mono (u1 u2 v : Nat) (hv : 0 < v) (h : u1 ≤ u2) : uDiv u1 v ≤ uDiv u2 v :=
  roundedUnits_mono _ _ v hv (Nat.mul_le_mul_right _ h)

theorem uMul_mono (u1 u2 v : Nat) (h : u1 ≤ u2) : uMul u1 v ≤ uMul u2 v :=
  roundedUnits_mono _ _ _ unitsSq_pos
    (Nat.mul_le_mul_right _ (Nat.mul_le_mul_right _ h))

theorem uSub_mono (u1 u2 v : Nat) (h : u1 ≤ u2) : uSub u1 v ≤ uSub u2 v :=
  roundedUnits_mono _ _ 1 (by norm_num) (Nat.sub_le_sub_right h v)

theorem uOfNat_le (n k j : Nat) (hk : k < 2 ^ 53) (h : n ≤ k * 2 ^ j) :
    uOfNat n ≤ k * 2 ^ j * unitsPerOne := by
  apply roundedUnits_le_units _ _ k j (by norm_num) hk
  rw [Nat.mul_one]
  exact Nat.mul_le_mul_right _ h

theorem uDiv_le (u v k j : Nat) (hv : 0 < v) (hk : k < 2 ^ 53) (h : u ≤ k * 2 ^ j * v) :
    uDiv u v ≤ k * 2 ^ j * unitsPerOne := by
  apply roundedUnits_le_units _ _ k j hv hk
  calc u * unitsPerOne ≤ k * 2 ^ j * v * unitsPerOne := Nat.mul_le_mul_right _ h
    _ = k * 2 ^ j * unitsPerOne * v := by ring

theorem uMul_le (u v k j : Nat) (hk : k < 2 ^ 53)
    (h : u * v ≤ k * 2 ^ j * unitsPerOne * unitsPerOne) :
    uMul u v ≤ k * 2 ^ j * unitsPerOne := by
  apply roundedUnits_le_units _ _ k j unitsSq_pos hk
  calc u * v * unitsPerOne ≤ k * 2 ^ j * unitsPerOne * unitsPerOne * unitsPerOne :=
        Nat.mul_le_mul_right _ h
    _ = k * 2 ^ j * unitsPerOne * (unitsPerOne * unitsPerOne) := by ring

theorem uSub_le (u v k j : Nat) (hk : k < 2 ^ 53) (h : u - v ≤ k * 2 ^ j * unitsPerOne) :
    uSub u v ≤ k * 2 ^ j * unitsPerOne := by
  apply roundedUnits_le_units _ _ k j (by norm_num) hk
  rw [Nat.mul_one]
  exact h

/-! ## Lemmas: the probe's bands -/

theorem firstBand_mono (m1 m2 : Nat) (h : m1 ≤ m2) : firstBand m1 ≤ firstBand m2 := by
  unfold firstBand
  exact Nat.div_le_div_right
    (uMul_mono _ _ _ (uDiv_mono _ _ _ (Nat.mul_pos (by norm_num) unitsPerOne_pos) h))

theorem bandValue_mono (m1 m2 lo width factor : Nat) (hw : 0 < width) (h : m1 ≤ m2) :
    bandValue m1 lo width factor ≤ bandValue m2 lo width factor := by
  unfold bandValue
  exact Nat.div_le_div_right
    (uMul_mono _ _ _ (uDiv_mono _ _ _ (Nat.mul_pos hw unitsPerOne_pos) (uSub_mono _ _ _ h)))

theorem uDiv_le_one (u c : Nat) (hc : 0 < c) (h : u ≤ c * unitsPerOne) :
    uDiv u (c * unitsPerOne) ≤ unitsPerOne := by
  have := uDiv_le u (c * unitsPerOne) 1 0 (Nat.mul_pos hc unitsPerOne_pos) (by norm_num)
    (by simpa using h)
  simpa using this

theorem uMul_const_le (y f : Nat) (hf : f < 2 ^ 53) (h : y ≤ unitsPerOne) :
    uMul y (f * unitsPerOne) ≤ f * unitsPerOne := by
  have := uMul_le y (f * unitsPerOne) f 0 hf (by
    calc y * (f * unitsPerOne) ≤ unitsPerOne * (f * unitsPerOne) := Nat.mul_le_mul_right _ h
      _ = f * 2 ^ 0 * unitsPerOne * unitsPerOne := by ring)
  simpa using this

theorem firstBand_le (mb : Nat) (h : mb ≤ 100 * unitsPerOne) : firstBand mb ≤ 5 := by
  unfold firstBand
  have h1 := uDiv_le_one mb 100 (by norm_num) h
  have h2 := uMul_const_le _ 5 (by norm_num) h1
  exact (Nat.div_le_iff_le_mul_add_pred unitsPerOne_pos).mpr (by
    have := unitsPerOne_pos
    calc _ ≤ 5 * unitsPerOne := h2
      _ = unitsPerOne * 5 := Nat.mul_comm _ _
      _ ≤ unitsPerOne * 5 + (unitsPerOne - 1) := Nat.le_add_right _ _)

theorem bandValue_le (mb lo width factor : Nat) (hw : 0 < width) (hw2 : width < 2 ^ 53)
    (hf : factor < 2 ^ 53) (h : mb ≤ (lo + width) * unitsPerOne) :
    bandValue mb lo width factor ≤ factor := by
  unfold bandValue
  have h0 : mb - lo * unitsPerOne ≤ width * 2 ^ 0 * unitsPerOne := by
    rw [Nat.add_mul] at h
    simp only [pow_zero, Nat.mul_one]
    omega
  have h1 : uSub mb (lo * unitsPerOne) ≤ width * unitsPerOne := by
    have := uSub_le mb (lo * unitsPerOne) width 0 hw2 h0
    simpa using this
  have h2 := uDiv_le_one _ width hw h1
  have h3 := uMul_const_le _ factor hf h2
  exact (Nat.div_le_iff_le_mul_add_pred unitsPerOne_pos).mpr (by
    calc _ ≤ factor * unitsPerOne := h3
      _ = unitsPerOne * factor := Nat.mul_comm _ _
      _ ≤ unitsPerOne * factor + (unitsPerOne - 1) := Nat.le_add_right _ _)

theorem piecewise_mono (c m : Nat) (f g : Nat → Nat)
    (hf : ∀ x y, x ≤ y → f x ≤ f y) (hfm : ∀ x, x < c → f x ≤ m)
    (hg : ∀ x y, x ≤ y → g x ≤ g y) (hgm : ∀ y, m ≤ g y) :
    ∀ x y, x ≤ y → (if x < c then f x else g x) ≤ (if y < c then f y else g y) := by
  intro x y hxy
  by_cases hx : x < c
  · by_cases hy : y < c
    · rw [if_pos hx, if_pos hy]
      exact hf x y hxy
    · rw [if_pos hx, if_neg hy]
      exact Nat.le_trans (hfm x hx) (hgm y)
  · have hy : ¬ y < c := by omega
    rw [if_neg hx, if_neg hy]
    exact hg x y hxy

theorem probeTail10240_mono (x y : Nat) (h : x ≤ y) : probeTail10240 x ≤ probeTail10240 y := by
  unfold probeTail10240
  have := bandValue_mono x y 10240 10240 5 (by norm_num) h
  omega

theorem probeTail10240_bounds (x : Nat) : 80 ≤ probeTail10240 x ∧ probeTail10240 x ≤ 85 := by
  unfold probeTail10240
  omega

theorem band5120_le (x : Nat) (h : x < 10240 * unitsPerOne) :
    65 + bandValue x 5120 5120 15 ≤ 80 := by
  have := bandValue_le x 5120 5120 15 (by norm_num) (by norm_num) (by norm_num) (by omega)
  omega

theorem band1024_le (x : Nat) (h : x < 5120 * unitsPerOne) :
    50 + bandValue x 1024 4096 15 ≤ 65 := by
  have := bandValue_le x 1024 4096 15 (by norm_num) (by norm_num) (by norm_num) (by omega)
  omega

theorem band500_le (x : Nat) (h : x < 1024 * unitsPerOne) :
    40 + bandValue x 500 524 10 ≤ 50 := by
  have := bandValue_le x 500 524 10 (by norm_num) (by norm_num) (by norm_num) (by omega)
  omega

theorem band100_le (x : Nat) (h : x < 500 * unitsPerOne) :
    25 + bandValue x 100 400 15 ≤ 40 := by
  have := bandValue_le x 100 400 15 (by norm_num) (by norm_num) (by norm_num) (by omega)
  omega

theorem band0_le (x : Nat) (h : x < 100 * unitsPerOne) : 20 + firstBand x ≤ 25 := by
  have := firstBand_le x (by omega)
  omega

theorem probeTail5120_bounds (x : Nat) : 65 ≤ probeTail5120 x ∧ probeTail5120 x ≤ 85 := by
  unfold probeTail5120
  have := probeTail10240_bounds x
  split
  · rename_i h
    have := band5120_le x h
    omega
  · omega

theorem probeTail5120_mono (x y : Nat) (h : x ≤ y) : probeTail5120 x ≤ probeTail5120 y :=
  piecewise_mono _ 80 (fun x => 65 + bandValue x 5120 5120 15) probeTail10240
    (fun a b hab => Nat.add_le_add_left (bandValue_mono a b _ _ _ (by norm_num) hab) _)
    band5120_le probeTail10240_mono (fun y => (probeTail10240_bounds y).1) x y h

theorem probeTail1024_bounds (x : Nat) : 50 ≤ probeTail1024 x ∧ probeTail1024 x ≤ 85 := by
  unfold probeTail1024
  have := probeTail5120_bounds x
  split
  · rename_i h
    have := band1024_le x h
    omega
  · omega

theorem probeTail1024_mono (x y : Nat) (h : x ≤ y) : probeTail1024 x ≤ probeTail1024 y :=
  piecewise_mono _ 65 (fun x => 50 + bandValue x 1024 4096 15) probeTail5120
    (fun a b hab => Nat.add_le_add_left (bandValue_mono a b _ _ _ (by norm_num) hab) _)
    band1024_le probeTail5120_mono (fun y => (probeTail5120_bounds y).1) x y h

theorem probeTail500_bounds (x : Nat) : 40 ≤ probeTail500 x ∧ probeTail500 x ≤ 85 := by
  unfold probeTail500
  have := probeTail1024_bounds x
  split
  · rename_i h
    have := band500_le x h
    omega
  · omega

theorem probeTail500_mono (x y : Nat) (h : x ≤ y) : probeTail500 x ≤ probeTail500 y :=
  piecewise_mono _ 50 (fun x => 40 + bandValue x 500 524 10) probeTail1024
    (fun a b hab => Nat.add_le_add_left (bandValue_mono a b _ _ _ (by norm_num) hab) _)
    band500_le probeTail1024_mono (fun y => (probeTail1024_bounds y).1) x y h

theorem probeTail100_bounds (x : Nat) : 25 ≤ probeTail100 x ∧ probeTail100 x ≤ 85 := by
  unfold probeTail100
  have := probeTail500_bounds x
  split
  · rename_i h
    have := band100_le x h
    omega
  · omega

theorem probeTail100_mono (x y : Nat) (h : x ≤ y) : probeTail100 x ≤ probeTail100 y :=
  piecewise_mono _ 40 (fun x => 25 + bandValue x 100 400 15) probeTail500
    (fun a b hab => Nat.add_le_add_left (bandValue_mono a b _ _ _ (by norm_num) hab) _)
    band100_le probeTail500_mono (fun y => (probeTail500_bounds y).1) x y h

theorem probeOfMB_bounds (x : Nat) : 20 ≤ probeOfMB x ∧ probeOfMB x ≤ 85 := by
  unfold probeOfMB
  have := probeTail100_bounds x
  split
  · rename_i h
    have := band0_le x h
    omega
  · omega

theorem probeOfMB_mono (x y : Nat) (h : x ≤ y) : probeOfMB x ≤ probeOfMB y :=
  piecewise_mono _ 25 (fun x => 20 + firstBand x) probeTail100
    (fun a b hab => Nat.add_le_add_left (firstBand_mono a b hab) _)
    band0_le probeTail100_mono (fun y => (probeTail100_bounds y).1) x y h

/-! ## Lemmas: the probe on `int64` sizes -/

set_option exponentiation.threshold 4000 in
theorem units_split : ∃ p : Nat, p = 2 ^ 1054 ∧ unitsPerOne = p * 1048576 := by
  refine ⟨2 ^ 1054, rfl, ?_⟩
  rw [unitsPerOne_eq, show (1074 : Nat) = 1054 + 20 from rfl, Nat.pow_add]

theorem sizeMBUnits_mono (s1 s2 : Nat) (h : s1 ≤ s2) : sizeMBUnits s1 ≤ sizeMBUnits s2 :=
  uDiv_mono _ _ _ (Nat.mul_pos (by norm_num) unitsPerOne_pos) (uOfNat_mono s1 s2 h)

theorem sizeMBUnits_exact (size : Nat) (h : size < 2 ^ 53) :
    sizeMBUnits size * 1048576 = size * unitsPerOne := by
  unfold sizeMBUnits
  rw [uOfNat_exact size h]
  unfold uDiv
  have hd : 0 < 1048576 * unitsPerOne := Nat.mul_pos (by norm_num) unitsPerOne_pos
  have hex := roundedUnits_exact (1048576 * unitsPerOne) size 1054 hd h
  obtain ⟨p, hp, hu⟩ := units_split
  rw [← hp] at hex
  have e : size * unitsPerOne * unitsPerOne = size * p * (1048576 * unitsPerOne) := by
    calc size * unitsPerOne * unitsPerOne = size * (p * 1048576) * unitsPerOne := by rw [← hu]
      _ = size * p * (1048576 * unitsPerOne) := by ring
  rw [e, hex, hu]
  ring

theorem sizeMBUnits_le (size : Nat) (h : size < 2 ^ 63) :
    sizeMBUnits size ≤ 2 ^ 43 * unitsPerOne := by
  unfold sizeMBUnits
  have h1 : uOfNat size ≤ 1 * 2 ^ 63 * unitsPerOne :=
    uOfNat_le size 1 63 (by norm_num) (by omega)
  have := uDiv_le (uOfNat size) (1048576 * unitsPerOne) 1 43
    (Nat.mul_pos (by norm_num) unitsPerOne_pos) (by norm_num) (by
      calc uOfNat size ≤ 1 * 2 ^ 63 * unitsPerOne := h1
        _ = 1 * 2 ^ 43 * (1048576 * unitsPerOne) := by ring)
  simpa using this

theorem sizeMBUnits_lt_iff (c size : Nat) (hc : c ≤ 10240) :
    sizeMBUnits size < c * unitsPerOne ↔ size < c * 1048576 := by
  have hU := unitsPerOne_pos
  have key : ∀ s, s < 2 ^ 53 → (sizeMBUnits s < c * unitsPerOne ↔ s < c * 1048576) := by
    intro s hs
    have hex := sizeMBUnits_exact s hs
    constructor
    · intro hlt
      have h1 : sizeMBUnits s * 1048576 < c * unitsPerOne * 1048576 :=
        Nat.mul_lt_mul_of_pos_right hlt (by norm_num)
      rw [hex] at h1
      have h2 : s * unitsPerOne < c * 1048576 * unitsPerOne := by
        calc s * unitsPerOne < c * unitsPerOne * 1048576 := h1
          _ = c * 1048576 * unitsPerOne := by ring
      exact Nat.lt_of_mul_lt_mul_right h2
    · intro hlt
      have h2 : s * unitsPerOne < c * 1048576 * unitsPerOne :=
        Nat.mul_lt_mul_of_pos_right hlt hU
      rw [← hex] at h2
      have h3 : sizeMBUnits s * 1048576 < c * unitsPerOne * 1048576 := by
        calc sizeMBUnits s * 1048576 < c * 1048576 * unitsPerOne := h2
          _ = c * unitsPerOne * 1048576 := by ring
      exact Nat.lt_of_mul_lt_mul_right h3
  by_cases hs : size < 2 ^ 53
  · exact key size hs
  · have h1 : ¬ size < c * 1048576 := by omega
    have h2 : sizeMBUnits (10240 * 1048576) ≤ sizeMBUnits size :=
      sizeMBUnits_mono _ _ (by omega)
    have h3 : ¬ sizeMBUnits (10240 * 1048576) < c * unitsPerOne := by
      rw [key _ (by norm_num)]
      omega
    constructor
    · intro h
      exact absurd (Nat.lt_of_le_of_lt h2 h) h3
    · intro h
      exact absurd h h1

theorem hasUnits_sizeMB (size : Nat) (h : size < 2 ^ 63) :
    HasUnits (f64Div (f64OfNat size) (f64OfNat (1024 * 1024))) (sizeMBUnits size) := by
  have h1 : uOfNat size ≤ 1 * 2 ^ 63 * unitsPerOne :=
    uOfNat_le size 1 63 (by norm_num) (by omega)
  have hx : HasUnits (f64OfNat size) (uOfNat size) :=
    hasUnits_ofNat size (lt_overflow_of_le _ (by simpa using h1))
  have hy : HasUnits (f64OfNat (1024 * 1024)) (1048576 * unitsPerOne) :=
    hasUnits_const 1048576 (by norm_num)
  have hle := sizeMBUnits_le size h
  exact hasUnits_div hx hy (Nat.mul_pos (by norm_num) unitsPerOne_pos)
    (lt_overflow_of_le _ (Nat.le_trans hle
      (Nat.mul_le_mul_right _ (Nat.pow_le_pow_right (by norm_num) (by norm_num)))))

theorem le_pow63_of_le_pow47 (u : Nat) (h : u ≤ 2 ^ 47 * unitsPerOne) :
    u ≤ 2 ^ 63 * unitsPerOne :=
  Nat.le_trans h (Nat.mul_le_mul_right _ (Nat.pow_le_pow_right (by norm_num) (by norm_num)))

theorem scaled_int64 {x : F64} {u : Nat} (width factor : Nat) (hx : HasUnits x u)
    (hu : u ≤ 2 ^ 43 * unitsPerOne) (hw : 0 < width) (hw2 : width < 2 ^ 53)
    (hf : factor ≤ 16) :
    int64OfF64 (f64Mul (f64Div x (f64OfNat width)) (f64OfNat factor)) =
      ((uMul (uDiv u (width * unitsPerOne)) (factor * unitsPerOne) / unitsPerOne : Nat) : Int) := by
  have hwu : 0 < width * unitsPerOne := Nat.mul_pos hw unitsPerOne_pos
  have hU := unitsPerOne_pos
  have h2 : uDiv u (width * unitsPerOne) ≤ 1 * 2 ^ 43 * unitsPerOne :=
    uDiv_le _ _ 1 43 hwu (by norm_num) (by
      calc u ≤ 2 ^ 43 * unitsPerOne := hu
        _ ≤ 2 ^ 43 * (width * unitsPerOne) :=
            Nat.mul_le_mul_left _ (Nat.le_mul_of_pos_left _ hw)
        _ = 1 * 2 ^ 43 * (width * unitsPerOne) := by ring)
  have h3 : uMul (uDiv u (width * unitsPerOne)) (factor * unitsPerOne) ≤
      1 * 2 ^ 47 * unitsPerOne :=
    uMul_le _ _ 1 47 (by norm_num) (by
      calc uDiv u (width * unitsPerOne) * (factor * unitsPerOne)
          ≤ 1 * 2 ^ 43 * unitsPerOne * (16 * unitsPerOne) :=
            Nat.mul_le_mul h2 (Nat.mul_le_mul_right _ hf)
        _ = 1 * 2 ^ 47 * unitsPerOne * unitsPerOne := by ring)
  have d1 : HasUnits (f64Div x (f64OfNat width)) (uDiv u (width * unitsPerOne)) :=
    hasUnits_div hx (hasUnits_const width hw2) hwu
      (lt_overflow_of_le _ (Nat.le_trans h2
        (Nat.mul_le_mul_right _ (by norm_num))))
  have d2 := hasUnits_mul d1 (hasUnits_const factor (by omega))
    (lt_overflow_of_le _ (le_pow63_of_le_pow47 _ (by simpa using h3)))
  exact int64_of_hasUnits d2 (Nat.lt_of_le_of_lt (by simpa using h3)
    (Nat.mul_lt_mul_of_pos_right (by norm_num) hU))

theorem first_int64 {x : F64} {mb : Nat} (hx : HasUnits x mb)
    (hmb : mb ≤ 2 ^ 43 * unitsPerOne) :
    int64OfF64 (f64Mul (f64Div x (f64OfNat 100)) (f64OfNat 5)) = ((firstBand mb : Nat) : Int) :=
  scaled_int64 100 5 hx hmb (by norm_num) (by norm_num) (by norm_num)

theorem band_int64 {x : F64} {mb : Nat} (lo width factor : Nat) (hx : HasUnits x mb)
    (hmb : mb ≤ 2 ^ 43 * unitsPerOne) (hlo : lo < 2 ^ 53) (hlomb : lo * unitsPerOne ≤ mb)
    (hw : 0 < width) (hw2 : width < 2 ^ 53) (hf : factor ≤ 16) :
    int64OfF64 (f64Mul (f64Div (f64Sub x (f64OfNat lo)) (f64OfNat width)) (f64OfNat factor)) =
      ((bandValue mb lo width factor : Nat) : Int) := by
  have h1 : uSub mb (lo * unitsPerOne) ≤ 1 * 2 ^ 43 * unitsPerOne :=
    uSub_le _ _ 1 43 (by norm_num) (by
      have : mb - lo * unitsPerOne ≤ mb := Nat.sub_le _ _
      calc mb - lo * unitsPerOne ≤ mb := this
        _ ≤ 2 ^ 43 * unitsPerOne := hmb
        _ = 1 * 2 ^ 43 * unitsPerOne := by ring)
  have d0 : HasUnits (f64Sub x (f64OfNat lo)) (uSub mb (lo * unitsPerOne)) :=
    hasUnits_sub hx (hasUnits_const lo hlo) hlomb
      (lt_overflow_of_le _ (Nat.le_trans h1 (Nat.mul_le_mul_right _ (by norm_num))))
  exact scaled_int64 width factor d0 (by simpa using h1) hw hw2 hf

/-- For an `int64` size the `float64` computation of the probe is the `if` chain
on the units of `sizeMB`. -/
theorem probeProgress_eq (size : Nat) (h : size < 2 ^ 63) :
    probeProgress size = ((probeOfMB (sizeMBUnits size) : Nat) : Int) := by
  have hx := hasUnits_sizeMB size h
  have hmb := sizeMBUnits_le size h
  have hlt : ∀ c, c < 2 ^ 53 →
      f64Lt (f64Div (f64OfNat size) (f64OfNat (1024 * 1024))) (f64OfNat c) =
        decide (sizeMBUnits size < c * unitsPerOne) :=
    fun c hc => f64Lt_of_hasUnits hx (hasUnits_const c hc)
  unfold probeProgress probeOfMB probeTail100 probeTail500 probeTail1024 probeTail5120
    probeTail10240
  simp only [hlt 100 (by norm_num), hlt 500 (by norm_num), hlt 1024 (by norm_num),
    hlt 5120 (by norm_num), hlt 10240 (by norm_num), decide_eq_true_eq]
  by_cases c1 : sizeMBUnits size < 100 * unitsPerOne
  · rw [if_pos c1, if_pos c1, first_int64 hx hmb]
    push_cast
    rfl
  · rw [if_neg c1, if_neg c1]
    by_cases c2 : sizeMBUnits size < 500 * unitsPerOne
    · rw [if_pos c2, if_pos c2,
        band_int64 100 400 15 hx hmb (by norm_num) (by omega) (by norm_num) (by norm_num)
          (by norm_num)]
      push_cast
      rfl
    · rw [if_neg c2, if_neg c2]
      by_cases c3 : sizeMBUnits size < 1024 * unitsPerOne
      · rw [if_pos c3, if_pos c3,
          band_int64 500 524 10 hx hmb (by norm_num) (by omega) (by norm_num) (by norm_num)
            (by norm_num)]
        push_cast
        rfl
      · rw [if_neg c3, if_neg c3]
        by_cases c4 : sizeMBUnits size < 5120 * unitsPerOne
        · rw [if_pos c4, if_pos c4,
            band_int64 1024 4096 15 hx hmb (by norm_num) (by omega) (by norm_num)
              (by norm_num) (by norm_num)]
          push_cast
          rfl
        · rw [if_neg c4, if_neg c4]
          by_cases c5 : sizeMBUnits size < 10240 * unitsPerOne
          · rw [if_pos c5, if_pos c5,
              band_int64 5120 5120 15 hx hmb (by norm_num) (by omega) (by norm_num)
                (by norm_num) (by norm_num)]
            push_cast
            rfl
          · rw [if_neg c5, if_neg c5,
              band_int64 10240 10240 5 hx hmb (by norm_num) (by omega) (by norm_num)
                (by norm_num) (by norm_num)]
            generalize bandValue (sizeMBUnits size) 10240 10240 5 = b
            split_ifs <;> omega

/-! ## The size probe: claims -/

/-- C17. For every directory size in bytes (an `int64`) the percentage the size
probe derives from it is at most 85. -/
theorem probe_percentage_le_85 (size : Nat) (h : size < 2 ^ 63) : probeProgress size ≤ 85 := by
  rw [probeProgress_eq size h]
  have := (probeOfMB_bounds (sizeMBUnits size)).2
  exact_mod_cast this

/-- Witness for C17: a directory of 20 GiB. -/
theorem probe_percentage_le_85_witness :
    20 * 2 ^ 30 < 2 ^ 63 ∧ probeProgress (20 * 2 ^ 30) ≤ 85 :=
  ⟨by norm_num, probe_percentage_le_85 (20 * 2 ^ 30) (by norm_num)⟩

/-- C18. The percentage lies in the band of the size: with the size in units of
`2^20` bytes, below 100 it is in 20..25, from 100 to below 500 in 25..40, from
500 to below 1024 in 40..50, from 1024 to below 5120 in 50..65, from 5120 to
below 10240 in 65..80, and from 10240 on in 80..85; a directory of 150 MB
(`150 * 2^20` or `150 * 10^6` bytes) gives a percentage between 20 and 30. -/
theorem probe_percentage_bands (size : Nat) (h : size < 2 ^ 63) :
    (size < 100 * 2 ^ 20 → 20 ≤ probeProgress size ∧ probeProgress size ≤ 25) ∧
    (100 * 2 ^ 20 ≤ size → size < 500 * 2 ^ 20 →
      25 ≤ probeProgress size ∧ probeProgress size ≤ 40) ∧
    (500 * 2 ^ 20 ≤ size → size < 1024 * 2 ^ 20 →
      40 ≤ probeProgress size ∧ probeProgress size ≤ 50) ∧
    (1024 * 2 ^ 20 ≤ size → size < 5120 * 2 ^ 20 →
      50 ≤ probeProgress size ∧ probeProgress size ≤ 65) ∧
    (5120 * 2 ^ 20 ≤ size → size < 10240 * 2 ^ 20 →
      65 ≤ probeProgress size ∧ probeProgress size ≤ 80) ∧
    (10240 * 2 ^ 20 ≤ size → 80 ≤ probeProgress size ∧ probeProgress size ≤ 85) ∧
    (20 ≤ probeProgress (150 * 2 ^ 20) ∧ probeProgress (150 * 2 ^ 20) ≤ 30) ∧
    (20 ≤ probeProgress (150 * 10 ^ 6) ∧ probeProgress (150 * 10 ^ 6) ≤ 30) := by
  have e150 : probeProgress (150 * 2 ^ 20) = 26 := by decide!
  have e150d : probeProgress (150 * 10 ^ 6) = 26 := by decide!
  rw [probeProgress_eq size h, e150, e150d]
  have i100 := sizeMBUnits_lt_iff 100 size (by norm_num)
  have i500 := sizeMBUnits_lt_iff 500 size (by norm_num)
  have i1024 := sizeMBUnits_lt_iff 1024 size (by norm_num)
  have i5120 := sizeMBUnits_lt_iff 5120 size (by norm_num)
  have i10240 := sizeMBUnits_lt_iff 10240 size (by norm_num)
  have e20 : (2 : Nat) ^ 20 = 1048576 := by norm_num
  rw [e20]
  generalize sizeMBUnits size = mb at *
  have b0 := band0_le mb
  have b100 := band100_le mb
  have b500 := band500_le mb
  have b1024 := band1024_le mb
  have b5120 := band5120_le mb
  have t := probeTail10240_bounds mb
  refine ⟨?_, ?_, ?_, ?_, ?_, ?_, by norm_num, by norm_num⟩
  · intro h1
    have c1 := i100.mpr h1
    have := b0 c1
    simp only [probeOfMB, if_pos c1]
    omega
  · intro h1 h2
    have c1 : ¬ mb < 100 * unitsPerOne := fun hc => by have := i100.mp hc; omega
    have c2 := i500.mpr h2
    have := b100 c2
    simp only [probeOfMB, probeTail100, if_neg c1, if_pos c2]
    omega
  · intro h1 h2
    have c1 : ¬ mb < 100 * unitsPerOne := fun hc => by have := i100.mp hc; omega
    have c2 : ¬ mb < 500 * unitsPerOne := fun hc => by have := i500.mp hc; omega
    have c3 := i1024.mpr h2
    have := b500 c3
    simp only [probeOfMB, probeTail100, probeTail500, if_neg c1, if_neg c2, if_pos c3]
    omega
  · intro h1 h2
    have c1 : ¬ mb < 100 * unitsPerOne := fun hc => by have := i100.mp hc; omega
    have c2 : ¬ mb < 500 * unitsPerOne := fun hc => by have := i500.mp hc; omega
    have c3 : ¬ mb < 1024 * unitsPerOne := fun hc => by have := i1024.mp hc; omega
    have c4 := i5120.mpr h2
    have := b1024 c4
    simp only [probeOfMB, probeTail100, probeTail500, probeTail1024, if_neg c1, if_neg c2,
      if_neg c3, if_pos c4]
    omega
  · intro h1 h2
    have c1 : ¬ mb < 100 * unitsPerOne := fun hc => by have := i100.mp hc; omega
    have c2 : ¬ mb < 500 * unitsPerOne := fun hc => by have := i500.mp hc; omega
    have c3 : ¬ mb < 1024 * unitsPerOne := fun hc => by have := i1024.mp hc; omega
    have c4 : ¬ mb < 5120 * unitsPerOne := fun hc => by have := i5120.mp hc; omega
    have c5 := i10240.mpr h2
    have := b5120 c5
    simp only [probeOfMB, probeTail100, probeTail500, probeTail1024, probeTail5120, if_neg c1,
      if_neg c2, if_neg c3, if_neg c4, if_pos c5]
    omega
  · intro h1
    have c1 : ¬ mb < 100 * unitsPerOne := fun hc => by have := i100.mp hc; omega
    have c2 : ¬ mb < 500 * unitsPerOne := fun hc => by have := i500.mp hc; omega
    have c3 : ¬ mb < 1024 * unitsPerOne := fun hc => by have := i1024.mp hc; omega
    have c4 : ¬ mb < 5120 * unitsPerOne := fun hc => by have := i5120.mp hc; omega
    have c5 : ¬ mb < 10240 * unitsPerOne := fun hc => by have := i10240.mp hc; omega
    simp only [probeOfMB, probeTail100, probeTail500, probeTail1024, probeTail5120, if_neg c1,
      if_neg c2, if_neg c3, if_neg c4, if_neg c5]
    omega

/-- Witness for C18: a directory of 3 GiB lies in the band 50..65. -/
theorem probe_percentage_bands_witness :
    3 * 2 ^ 30 < 2 ^ 63 ∧
    (1024 * 2 ^ 20 ≤ 3 * 2 ^ 30 → 3 * 2 ^ 30 < 5120 * 2 ^ 20 →
      50 ≤ probeProgress (3 * 2 ^ 30) ∧ probeProgress (3 * 2 ^ 30) ≤ 65) :=
  ⟨by norm_num, (probe_percentage_bands (3 * 2 ^ 30) (by norm_num)).2.2.2.1⟩

/-- C19. The percentage is monotone in the byte count: for `int64` sizes
`s1 ≤ s2` the percentage derived from `s1` is at most the one derived from
`s2`, also across the breakpoints between bands. -/
theorem probe_percentage_mono (s1 s2 : Nat) (h : s1 ≤ s2) (h2 : s2 < 2 ^ 63) :
    probeProgress s1 ≤ probeProgress s2 := by
  rw [probeProgress_eq s1 (Nat.lt_of_le_of_lt h h2), probeProgress_eq s2 h2]
  have := probeOfMB_mono _ _ (sizeMBUnits_mono s1 s2 h)
  exact_mod_cast this

/-- Witness for C19: sizes on the two sides of the 500 MiB breakpoint. -/
theorem probe_percentage_mono_witness :
    (500 * 2 ^ 20 - 1 ≤ 500 * 2 ^ 20 ∧ 500 * 2 ^ 20 < 2 ^ 63) ∧
    probeProgress (500 * 2 ^ 20 - 1) ≤ probeProgress (500 * 2 ^ 20) :=
  ⟨⟨by norm_num, by norm_num⟩,
    probe_percentage_mono (500 * 2 ^ 20 - 1) (500 * 2 ^ 20) (by norm_num) (by norm_num)⟩

theorem probeTick_zero (modelName : Text) (st : ProbeState) :
    probeTick modelName st 0 = (st, []) := by
  unfold probeTick
  rw [if_neg (Nat.not_lt_zero _), if_neg (fun h => absurd h.2 (Nat.lt_irrefl 0))]

theorem probeTicks_unchanged (modelName : Text) (s : Nat) (hs : 0 < s) :
    ∀ (k n : Nat), probeTicks modelName ⟨s, n⟩ (List.replicate k s) =
      (List.range k).map fun i =>
        if n + i < 3 then
          [Event.aiModelStatus modelName
            ("Processing... (".toList ++ formatFixed2 (sizeGB s) ++ " GB)".toList) (-1)]
        else [] := by
  intro k
  induction k with
  | zero => intro n; rfl
  | succ k ih =>
      intro n
      have htick : probeTick modelName ⟨s, n⟩ s =
          (⟨s, n + 1⟩,
            if n + 1 ≤ maxNoChangeTicks then
              [Event.aiModelStatus modelName
                ("Processing... (".toList ++ formatFixed2 (sizeGB s) ++ " GB)".toList) (-1)]
            else []) := by
        unfold probeTick
        rw [if_neg (Nat.lt_irrefl s), if_pos ⟨rfl, hs⟩]
      rw [List.replicate_succ, probeTicks, htick, ih (n + 1), List.range_succ_eq_map,
        List.map_cons, List.map_map]
      have hhead : (if n + 1 ≤ maxNoChangeTicks then
            [Event.aiModelStatus modelName
              ("Processing... (".toList ++ formatFixed2 (sizeGB s) ++ " GB)".toList) (-1)]
          else []) =
          (if n + 0 < 3 then
            [Event.aiModelStatus modelName
              ("Processing... (".toList ++ formatFixed2 (sizeGB s) ++ " GB)".toList) (-1)]
          else []) := by
        by_cases h : n + 1 ≤ maxNoChangeTicks
        · rw [if_pos h, if_pos (by unfold maxNoChangeTicks at h; omega)]
        · rw [if_neg h, if_neg (by unfold maxNoChangeTicks at h; omega)]
      rw [hhead]
      congr 1
      apply List.map_congr_left
      intro i _
      simp only [Function.comp]
      by_cases h : n + 1 + i < 3
      · rw [if_pos h, if_pos (by omega)]
      · rw [if_neg h, if_neg (by omega)]

/-- C20. After a tick at which the size grew to `s`, over a run of `k` ticks at
which the size is again `s`, exactly the first `min k 3` ticks emit a
`Processing...` status with progress `-1` and every later tick of the run emits
nothing; and a tick at which the size is zero emits nothing. -/
theorem probe_processing_window (modelName : Text) (st : ProbeState) (s k : Nat)
    (hgrow : st.lastSize < s) :
    probeTicks modelName (probeTick modelName st s).1 (List.replicate k s) =
      ((List.range k).map fun i =>
        if i < 3 then
          [Event.aiModelStatus modelName
            ("Processing... (".toList ++ formatFixed2 (sizeGB s) ++ " GB)".toList) (-1)]
        else []) ∧
    ∀ st0 : ProbeState, (probeTick modelName st0 0).2 = [] := by
  constructor
  · have h1 : (probeTick modelName st s).1 = ⟨s, 0⟩ := by
      unfold probeTick
      rw [if_pos hgrow]
    rw [h1, probeTicks_unchanged modelName s (by omega) k 0]
    simp only [Nat.zero_add]
  · intro st0
    rw [probeTick_zero]

/-- Witness for C20: five ticks at 5 bytes after growing from 0 to 5 bytes. -/
theorem probe_processing_window_witness :
    (⟨0, 0⟩ : ProbeState).lastSize < 5 ∧
    probeTicks "m".toList (probeTick "m".toList ⟨0, 0⟩ 5).1 (List.replicate 5 5) =
      ((List.range 5).map fun i =>
        if i < 3 then
          [Event.aiModelStatus "m".toList
            ("Processing... (".toList ++ formatFixed2 (sizeGB 5) ++ " GB)".toList) (-1)]
        else []) :=
  ⟨by decide, (probe_processing_window "m".toList ⟨0, 0⟩ 5 5 (by decide)).1⟩

/-! ## Concatenation of GGUF parts -/

/-- A collected path names a regular file of the walked tree. -/
theorem filesOf_of_mem_gguf (entries : List WalkEntry) (p : Text)
    (h : p ∈ ggufFilesOf entries) : ∃ d, filesOf entries p = some d := by
  unfold ggufFilesOf at h
  rw [List.mem_map] at h
  obtain ⟨e, he, hp⟩ := h
  rw [List.mem_filter] at he
  have hpred : (fun e : WalkEntry => !e.isDir && e.path == p) e = true := by
    have h1 : (!e.isDir) = true := by
      have := he.2
      simp only [Bool.and_eq_true] at this
      exact this.1
    simp [h1, hp]
  unfold filesOf
  cases hf : entries.find? (fun e : WalkEntry => !e.isDir && e.path == p) with
  | none =>
      rw [List.find?_eq_none] at hf
      exact absurd hpred (hf e he.1)
  | some x => exact ⟨x.data, rfl⟩

/-- C13: the call to `concatenateGGUFFiles` returns the error `no GGUF files found in
<destDir>` when the walk collects no `.gguf` file; when it collects exactly one
it returns nil, emits nothing and leaves every file below the destination
directory as it was (no output file is created, the one file keeps its bytes and
is not deleted). -/
theorem concatenate_none_or_single (tree : FileTree) (destDir modelName : Text)
    (createErr : Option Text) :
    (ggufFilesOf (walkTree destDir tree) = [] →
      concatenateGGUFFiles tree destDir modelName createErr =
        .returned (some ("no GGUF files found in ".toList ++ destDir)) []
          (filesOf (walkTree destDir tree))) ∧
    (∀ p, ggufFilesOf (walkTree destDir tree) = [p] →
      concatenateGGUFFiles tree destDir modelName createErr =
        .returned none [] (filesOf (walkTree destDir tree)) ∧
      ∃ d, filesOf (walkTree destDir tree) p = some d) := by
  refine ⟨fun h => ?_, fun p h => ⟨?_, ?_⟩⟩
  · simp [concatenateGGUFFiles, h]
  · simp [concatenateGGUFFiles, h]
  · exact filesOf_of_mem_gguf _ p (by rw [h]; exact List.mem_singleton_self p)

/-- The theorem `concatenate_none_or_single` on a directory without model files and on a
directory with one. -/
theorem concatenate_none_or_single_witness :
    concatenateGGUFFiles noPartTree "/downloads/llama".toList "llama".toList none =
      .returned (some "no GGUF files found in /downloads/llama".toList) []
        (filesOf (walkTree "/downloads/llama".toList noPartTree)) ∧
    (concatenateGGUFFiles onePartTree "/downloads/llama".toList "llama".toList none =
      .returned none [] (filesOf (walkTree "/downloads/llama".toList onePartTree)) ∧
     ∃ d, filesOf (walkTree "/downloads/llama".toList onePartTree)
        "/downloads/llama/llama-q4.GGUF".toList = some d) :=
  ⟨(concatenate_none_or_single noPartTree "/downloads/llama".toList "llama".toList none).1
      (by decide),
   (concatenate_none_or_single onePartTree "/downloads/llama".toList "llama".toList none).2
      "/downloads/llama/llama-q4.GGUF".toList (by decide)⟩

/-- The loop, started with the output file linked and none of the remaining parts at
the output path, returns nil with the parts appended in order and unlinked. -/
theorem concatLoop_join (modelName outputPath : Text) (total : Nat) (ps : List Text) :
    ∀ (i : Nat) (files : Text → Option Bytes) (ev : List Event) (out : Bytes),
      files outputPath = some out → outputPath ∉ ps → ps.Nodup →
      (∀ p ∈ ps, ∃ d, files p = some d) →
      ∃ ev1 files1,
        concatLoop modelName outputPath total ps i files ev = .returned none ev1 files1 ∧
        files1 outputPath = some (out ++ ps.flatMap fun p => (files p).getD []) ∧
        (∀ p ∈ ps, files1 p = none) ∧
        ∀ q, q ∉ ps → q ≠ outputPath → files1 q = files q := by
  induction ps with
  | nil =>
      intro i files ev out hout _ _ _
      exact ⟨ev, files, rfl, by simpa using hout, by simp, fun _ _ _ => rfl⟩
  | cons p rest ih =>
      intro i files ev out hout hnot hnd hex
      have hp : p ≠ outputPath := fun h => hnot (h ▸ List.mem_cons_self _ _)
      have hrest : outputPath ∉ rest := fun h => hnot (List.mem_cons_of_mem _ h)
      obtain ⟨d, hd⟩ := hex p (List.mem_cons_self _ _)
      have hnd2 := List.nodup_cons.mp hnd
      let files2 : Text → Option Bytes := mapDelete (mapSet files outputPath (out ++ d)) p
      have hstep : concatLoop modelName outputPath total (p :: rest) i files ev =
          concatLoop modelName outputPath total rest (i + 1) files2
            (ev ++ [concatStatus modelName i total]) := by
        simp only [concatLoop, hd, hout, if_neg hp, files2]
      have h2out : files2 outputPath = some (out ++ d) := by
        simp only [files2, mapDelete, mapSet, if_neg (Ne.symm hp), if_true]
      have h2other : ∀ q, q ≠ p → q ≠ outputPath → files2 q = files q := by
        intro q hq1 hq2
        simp only [files2, mapDelete, mapSet, if_neg hq1, if_neg hq2]
      have h2p : files2 p = none := by
        simp only [files2, mapDelete, if_true]
      have hex2 : ∀ q ∈ rest, ∃ d, files2 q = some d := by
        intro q hq
        have hqp : q ≠ p := fun h => hnd2.1 (h ▸ hq)
        have hqo : q ≠ outputPath := fun h => hrest (h ▸ hq)
        rw [h2other q hqp hqo]
        exact hex q (List.mem_cons_of_mem _ hq)
      obtain ⟨ev1, files1, hrun, hjoin, hgone, hkeep⟩ :=
        ih (i + 1) files2 (ev ++ [concatStatus modelName i total]) (out ++ d) h2out hrest
          hnd2.2 hex2
      refine ⟨ev1, files1, hstep.trans hrun, ?_, ?_, ?_⟩
      · rw [hjoin]
        have hmap : (rest.flatMap fun q => (files2 q).getD []) =
            rest.flatMap fun q => (files q).getD [] := by
          induction rest with
          | nil => rfl
          | cons q qs _ =>
              have hall : ∀ x ∈ q :: qs, (files2 x).getD [] = (files x).getD [] := by
                intro x hx
                have hxp : x ≠ p := fun h => hnd2.1 (h ▸ hx)
                have hxo : x ≠ outputPath := fun h => hrest (h ▸ hx)
                rw [h2other x hxp hxo]
              unfold List.flatMap
              congr 1
              exact List.map_congr_left hall
        rw [hmap]
        simp [List.flatMap, hd, List.append_assoc]
      · intro q hq
        rcases List.mem_cons.mp hq with h | h
        · rw [h, hkeep p hnd2.1 hp, h2p]
        · exact hgone q h
      · intro q hq hqo
        have hqp : q ≠ p := fun h => hq (h ▸ List.mem_cons_self _ _)
        have hqr : q ∉ rest := fun h => hq (List.mem_cons_of_mem _ h)
        rw [hkeep q hqr hqo, h2other q hqp hqo]

/-- The sorted list has the collected paths, in ascending order. -/
theorem sortStrings_spec (l : List Text) :
    (sortStrings l).Perm l ∧ List.Sorted (fun a b => a ≤ b) (sortStrings l) :=
  ⟨List.perm_insertionSort _ l, List.sorted_insertionSort _ l⟩

/-- When two or more distinct parts are collected, none of them at the output path, and
the output file can be created, `concatenateGGUFFiles` returns nil, the output
file holds the parts' contents joined in ascending order of their paths, and
every part is deleted. -/
theorem concatenate_joins_fresh_output (tree : FileTree) (destDir modelName : Text)
    (hlen : 2 ≤ (ggufFilesOf (walkTree destDir tree)).length)
    (hnd : (ggufFilesOf (walkTree destDir tree)).Nodup)
    (hout : filepathJoin destDir (modelName ++ ".gguf".toList) ∉
      ggufFilesOf (walkTree destDir tree)) :
    ∃ ev files1,
      concatenateGGUFFiles tree destDir modelName none = .returned none ev files1 ∧
      files1 (filepathJoin destDir (modelName ++ ".gguf".toList)) =
        some ((sortStrings (ggufFilesOf (walkTree destDir tree))).flatMap fun p =>
          (filesOf (walkTree destDir tree) p).getD []) ∧
      ∀ p ∈ ggufFilesOf (walkTree destDir tree), files1 p = none := by
  obtain ⟨hperm, _⟩ := sortStrings_spec (ggufFilesOf (walkTree destDir tree))
  have hmem : ∀ p, p ∈ sortStrings (ggufFilesOf (walkTree destDir tree)) ↔
      p ∈ ggufFilesOf (walkTree destDir tree) := fun p => hperm.mem_iff
  have hne : ∀ p ∈ sortStrings (ggufFilesOf (walkTree destDir tree)),
      p ≠ filepathJoin destDir (modelName ++ ".gguf".toList) :=
    fun p hp h => hout (h ▸ (hmem p).mp hp)
  have hset : ∀ p ∈ sortStrings (ggufFilesOf (walkTree destDir tree)),
      mapSet (filesOf (walkTree destDir tree))
        (filepathJoin destDir (modelName ++ ".gguf".toList)) [] p =
      filesOf (walkTree destDir tree) p := by
    intro p hp
    simp only [mapSet, if_neg (hne p hp)]
  obtain ⟨ev1, files1, hrun, hjoin, hgone, _⟩ :=
    concatLoop_join modelName (filepathJoin destDir (modelName ++ ".gguf".toList))
      (sortStrings (ggufFilesOf (walkTree destDir tree))).length
      (sortStrings (ggufFilesOf (walkTree destDir tree))) 0
      (mapSet (filesOf (walkTree destDir tree))
        (filepathJoin destDir (modelName ++ ".gguf".toList)) []) [] []
      (by simp only [mapSet, if_true])
      (fun h => hout ((hmem _).mp h))
      (hperm.nodup_iff.mpr hnd)
      (fun p hp => by
        rw [hset p hp]
        exact filesOf_of_mem_gguf _ p ((hmem p).mp hp))
  refine ⟨ev1, files1, ?_, ?_, fun p hp => hgone p ((hmem p).mpr hp)⟩
  · have h0 : ¬ (ggufFilesOf (walkTree destDir tree)).length = 0 := by omega
    have h1 : ¬ (ggufFilesOf (walkTree destDir tree)).length = 1 := by omega
    simp only [concatenateGGUFFiles, if_neg h0, if_neg h1]
    exact hrun
  · rw [hjoin, List.nil_append]
    congr 1
    unfold List.flatMap
    congr 1
    exact List.map_congr_left fun p hp => by rw [hset p hp]

/-- C12: on a destination directory that still holds `llama.gguf` from an earlier run
next to two new parts, the three collected paths sort with the output path
first; `concatenateGGUFFiles` returns nil, all three are deleted, and no file
is left at the output path, although the join of the three contents in sorted
order is `[9, 9, 1, 2, 3, 4]`. -/
theorem stale_output_not_joined :
    sortStrings (ggufFilesOf (walkTree "/downloads/llama".toList staleOutputTree)) =
      ["/downloads/llama/llama.gguf".toList,
       "/downloads/llama/q4_k_m/m-00001-of-00002.gguf".toList,
       "/downloads/llama/q4_k_m/m-00002-of-00002.gguf".toList] ∧
    ((sortStrings (ggufFilesOf (walkTree "/downloads/llama".toList staleOutputTree))).flatMap
      fun p => (filesOf (walkTree "/downloads/llama".toList staleOutputTree) p).getD []) =
      [9, 9, 1, 2, 3, 4] ∧
    (concatenateGGUFFiles staleOutputTree "/downloads/llama".toList "llama".toList
      none).returnedErr = some none ∧
    (concatenateGGUFFiles staleOutputTree "/downloads/llama".toList "llama".toList
      none).fileAt (filepathJoin "/downloads/llama".toList "llama.gguf".toList) = none ∧
    ∀ p ∈ ggufFilesOf (walkTree "/downloads/llama".toList staleOutputTree),
      (concatenateGGUFFiles staleOutputTree "/downloads/llama".toList "llama".toList
        none).fileAt p = none := by
  refine ⟨?_, ?_, ?_, ?_, ?_⟩
  · decide
  · decide
  · decide
  · decide
  · decide

/-! ## Packaging of a vLLM model -/

/-- Dropping a prefix by a test stops at the latest at an element that fails the test. -/
theorem dropWhile_length_ge (p : Char → Bool) (x : Char) (b : List Char) (hx : p x = false) :
    ∀ a : List Char, (x :: b).length ≤ ((a ++ x :: b).dropWhile p).length := by
  intro a
  induction a with
  | nil => simp [List.dropWhile, hx]
  | cons y a ih =>
      rw [List.cons_append, List.dropWhile_cons]
      split
      · exact ih
      · simp only [List.length_cons, List.length_append] at ih ⊢
        omega

/-- The directory of `dir/name` is `dir` when the name has no separator. -/
theorem filepathDir_join (d n : Text) (hn : '/' ∉ n) : filepathDir (filepathJoin d n) = d := by
  have hall : (n.reverse.dropWhile fun c => c != '/') = [] := by
    rw [List.dropWhile_eq_nil_iff]
    intro c hc
    have hc2 : c ∈ n := List.mem_reverse.mp hc
    have : c ≠ '/' := fun h => hn (h ▸ hc2)
    simpa using this
  have hrev : (filepathJoin d n).reverse = n.reverse ++ '/' :: d.reverse := by
    simp [filepathJoin]
  unfold filepathDir
  rw [hrev, List.dropWhile_append, hall]
  simp [List.dropWhile]

/-- The directory of a path below `q` is at least as long as `q`. -/
theorem filepathDir_length_ge (q r : Text) :
    q.length ≤ (filepathDir (q ++ '/' :: r)).length := by
  have hrev : (q ++ '/' :: r).reverse = r.reverse ++ '/' :: q.reverse := by simp
  have h := dropWhile_length_ge (fun c => c != '/') '/' q.reverse (by decide) r.reverse
  unfold filepathDir
  rw [hrev, List.length_reverse, List.length_drop]
  simp only [List.length_cons, List.length_reverse] at h
  omega

mutual
/-- Every call of a walk below `q` has the path `q` or a path below it. -/
theorem walkTree_path (q : Text) :
    ∀ (t : FileTree) (e : WalkEntry), e ∈ walkTree q t → e.path = q ∨ ∃ r, e.path = q ++ '/' :: r
  | .file n d, e, he => by
      simp only [walkTree, List.mem_singleton] at he
      exact Or.inl (by rw [he])
  | .dir n cs, e, he => by
      simp only [walkTree, List.mem_cons] at he
      rcases he with h | h
      · exact Or.inl (by rw [h])
      · exact Or.inr (walkChildren_path q cs e h)
/-- Every call made for the entries of the directory `q` has a path below `q`. -/
theorem walkChildren_path (q : Text) :
    ∀ (ts : List FileTree) (e : WalkEntry), e ∈ walkChildren q ts → ∃ r, e.path = q ++ '/' :: r
  | [], e, he => by simp [walkChildren] at he
  | t :: ts, e, he => by
      simp only [walkChildren, List.mem_append] at he
      rcases he with h | h
      · rcases walkTree_path (filepathJoin q t.name) t e h with h1 | ⟨r, h1⟩
        · exact ⟨t.name, by rw [h1]; simp [filepathJoin]⟩
        · exact ⟨t.name ++ '/' :: r, by rw [h1]; simp [filepathJoin]⟩
      · exact walkChildren_path q ts e h
end

/-- The copy loop writes a prefix of what is left of the file. -/
theorem copyLoop_written (cancel : Option Nat) :
    ∀ (fuel n : Nat) (rest written : Bytes),
      ∃ pre, pre <+: rest ∧ (copyLoop cancel fuel n rest written).1 = written ++ pre := by
  intro fuel
  induction fuel with
  | zero => intro n rest written; exact ⟨[], List.nil_prefix, by simp [copyLoop]⟩
  | succ fuel ih =>
      intro n rest written
      unfold copyLoop
      split
      · exact ⟨[], List.nil_prefix, by simp⟩
      · split
        · exact ⟨[], List.nil_prefix, by simp⟩
        · obtain ⟨pre, hpre, hw⟩ :=
            ih (n + 1) (rest.drop copyBufferSize) (written ++ rest.take copyBufferSize)
          refine ⟨rest.take copyBufferSize ++ pre, ?_, by rw [hw, List.append_assoc]⟩
          obtain ⟨s, hs⟩ := hpre
          exact ⟨s, by rw [List.append_assoc, hs, List.take_append_drop]⟩

/-- Without a cancellation the copy loop, given fuel above the length of the file,
writes the whole file. -/
theorem copyLoop_none :
    ∀ (fuel n : Nat) (rest written : Bytes), rest.length < fuel →
      ∃ n1, copyLoop none fuel n rest written = (written ++ rest, n1, false) := by
  intro fuel
  induction fuel with
  | zero => intro n rest written h; omega
  | succ fuel ih =>
      intro n rest written h
      unfold copyLoop
      rw [if_neg (by simp)]
      split
      · rename_i hnil
        have hrest : rest = [] := by
          cases rest with
          | nil => rfl
          | cons x xs => simp [copyBufferSize] at hnil
        exact ⟨n + 1, by rw [hrest, List.append_nil]⟩
      · rename_i hne
        have hpos : rest ≠ [] := fun h0 => hne (by rw [h0]; rfl)
        have hlen : (rest.drop copyBufferSize).length < fuel := by
          have : 0 < rest.length := List.length_pos.mpr hpos
          rw [List.length_drop]
          unfold copyBufferSize
          omega
        obtain ⟨n1, h1⟩ :=
          ih (n + 1) (rest.drop copyBufferSize) (written ++ rest.take copyBufferSize) hlen
        exact ⟨n1, by rw [h1, List.append_assoc, List.take_append_drop]⟩

/-- A copy loop that was not cancelled did what it does without a cancel channel. -/
theorem copyLoop_uncancelled (cancel : Option Nat) :
    ∀ (fuel n : Nat) (rest written x : Bytes) (n1 : Nat),
      copyLoop cancel fuel n rest written = (x, n1, false) →
      copyLoop none fuel n rest written = (x, n1, false) := by
  intro fuel
  induction fuel with
  | zero => intro n rest written x n1 h; simpa [copyLoop] using h
  | succ fuel ih =>
      intro n rest written x n1 h
      unfold copyLoop at h ⊢
      rw [if_neg (by simp)]
      split at h
      · simp at h
      · split at h
        · rename_i hnil
          rw [if_pos hnil]
          exact h
        · rename_i hne
          rw [if_neg hne]
          exact ih _ _ _ _ _ h

/-- Without a cancellation the walk adds the entry of each call in turn. -/
theorem packageWalk_none (sourceDir : Text) :
    ∀ (es : List WalkEntry) (n : Nat) (acc : List TarEntry),
      packageWalk sourceDir none es n acc = (none, acc ++ es.flatMap (entryOf sourceDir)) := by
  intro es
  induction es with
  | nil => intro n acc; simp [packageWalk]
  | cons e es ih =>
      intro n acc
      unfold packageWalk
      rw [if_neg (by simp)]
      by_cases h1 : e.isDir = true
      · rw [if_pos h1, ih]
        simp [List.flatMap_cons, entryOf, h1]
      · rw [if_neg h1]
        by_cases h2 : filepathDir e.path ≠ sourceDir
        · rw [if_pos h2, ih]
          simp [List.flatMap_cons, entryOf, h1, h2]
        · rw [if_neg h2]
          by_cases h3 : hasPrefix e.name ".".toList = true
          · rw [if_pos h3, ih]
            simp only [List.flatMap_cons, entryOf, if_neg h1, if_neg h2, if_pos h3,
              List.nil_append]
          · rw [if_neg h3]
            obtain ⟨n1, hc⟩ := copyLoop_none (e.data.length + 1) (n + 1) e.data [] (by omega)
            rw [hc]
            simp only [List.nil_append]
            rw [ih]
            simp only [List.flatMap_cons, entryOf, if_neg h1, if_neg h2, if_neg h3,
              List.append_assoc, List.singleton_append]

/-- A walk that returned nil did what it does without a cancel channel. -/
theorem packageWalk_uncancelled (sourceDir : Text) (cancel : Option Nat) :
    ∀ (es : List WalkEntry) (n : Nat) (acc r : List TarEntry),
      packageWalk sourceDir cancel es n acc = (none, r) →
      packageWalk sourceDir none es n acc = (none, r) := by
  intro es
  induction es with
  | nil => intro n acc r h; simpa [packageWalk] using h
  | cons e es ih =>
      intro n acc r h
      unfold packageWalk at h ⊢
      rw [if_neg (by simp)]
      split at h
      · simp at h
      · split at h
        · rename_i h1
          rw [if_pos h1]
          exact ih _ _ _ h
        · rename_i h1
          rw [if_neg h1]
          split at h
          · rename_i h2
            rw [if_pos h2]
            exact ih _ _ _ h
          · rename_i h2
            rw [if_neg h2]
            split at h
            · rename_i h3
              rw [if_pos h3]
              exact ih _ _ _ h
            · rename_i h3
              rw [if_neg h3]
              split at h
              · simp at h
              · rename_i written n1 hc
                rw [copyLoop_uncancelled cancel _ _ _ _ _ _ hc]
                exact ih _ _ _ h

/-- Below a subdirectory of the source directory no call adds an entry. -/
theorem entryOf_subdir (sourceDir n : Text) (cs : List FileTree) :
    (walkTree (filepathJoin sourceDir n) (.dir n cs)).flatMap (entryOf sourceDir) = [] := by
  rw [List.flatMap_eq_nil_iff]
  intro e he
  simp only [walkTree, List.mem_cons] at he
  rcases he with h | h
  · simp [entryOf, h]
  · obtain ⟨r, hr⟩ := walkChildren_path (filepathJoin sourceDir n) cs e h
    have hlen := filepathDir_length_ge (filepathJoin sourceDir n) r
    have hne : filepathDir e.path ≠ sourceDir := by
      intro heq
      rw [← hr, heq] at hlen
      simp [filepathJoin] at hlen
    simp [entryOf, hne]

/-- A regular file seen by the walk in the source directory itself is one of its
entries. -/
theorem walkChildren_root_file (sourceDir : Text) :
    ∀ (children : List FileTree) (e : WalkEntry), e ∈ walkChildren sourceDir children →
      e.isDir = false → filepathDir e.path = sourceDir →
      FileTree.file e.name e.data ∈ children := by
  intro children
  induction children with
  | nil => intro e he; simp [walkChildren] at he
  | cons t ts ih =>
      intro e he hfile hdir
      simp only [walkChildren, List.mem_append] at he
      rcases he with h | h
      · cases t with
        | file n d =>
            simp only [walkTree, List.mem_singleton] at h
            rw [h]
            exact List.mem_cons_self _ _
        | dir n cs =>
            simp only [walkTree, List.mem_cons] at h
            rcases h with h | h
            · rw [h] at hfile
              simp at hfile
            · obtain ⟨r, hr⟩ := walkChildren_path _ cs e h
              have hlen := filepathDir_length_ge (filepathJoin sourceDir (FileTree.dir n cs).name) r
              rw [← hr, hdir] at hlen
              simp [filepathJoin] at hlen
      · exact List.mem_cons_of_mem _ (ih e h hfile hdir)

/-- The entries the calls for a directory add are those of its non-hidden regular files,
when no name has a separator. -/
theorem entryOf_children (sourceDir : Text) :
    ∀ children : List FileTree, (∀ c ∈ children, '/' ∉ c.name) →
      (walkChildren sourceDir children).flatMap (entryOf sourceDir) =
        rootFileEntries children := by
  intro children
  induction children with
  | nil => intro _; simp [walkChildren, rootFileEntries]
  | cons t ts ih =>
      intro hn
      have hts := ih fun c hc => hn c (List.mem_cons_of_mem _ hc)
      have ht := hn t (List.mem_cons_self _ _)
      simp only [walkChildren, List.flatMap_append, hts]
      cases t with
      | file n d =>
          have hd : filepathDir (filepathJoin sourceDir n) = sourceDir :=
            filepathDir_join sourceDir n ht
          simp only [walkTree, FileTree.name, List.flatMap_cons, List.flatMap_nil,
            List.append_nil, entryOf, hd, rootFileEntries, Bool.false_eq_true, if_false,
            ne_eq, not_true_eq_false]
          by_cases hh : hasPrefix n ".".toList = true
          · rw [if_pos hh, if_pos hh, List.nil_append]
          · rw [if_neg hh, if_neg hh, List.singleton_append]
      | dir n cs =>
          have := entryOf_subdir sourceDir n cs
          simp only [FileTree.name] at this ⊢
          rw [this]
          simp [rootFileEntries]

/-- Every entry the walk writes is there already or stems from a call for a non-hidden
regular file whose directory is the source directory, under that file's name
and with a prefix of its bytes. -/
theorem packageWalk_mem (sourceDir : Text) (cancel : Option Nat) :
    ∀ (es : List WalkEntry) (n : Nat) (acc : List TarEntry),
      ∀ t ∈ (packageWalk sourceDir cancel es n acc).2,
        t ∈ acc ∨ ∃ e ∈ es, e.isDir = false ∧ filepathDir e.path = sourceDir ∧
          hasPrefix e.name ".".toList = false ∧ t.name = e.name ∧ t.data <+: e.data := by
  intro es
  induction es with
  | nil => intro n acc t ht; exact Or.inl (by simpa [packageWalk] using ht)
  | cons e es ih =>
      intro n acc t ht
      have lift : (t ∈ acc ∨ ∃ e1 ∈ es, e1.isDir = false ∧ filepathDir e1.path = sourceDir ∧
          hasPrefix e1.name ".".toList = false ∧ t.name = e1.name ∧ t.data <+: e1.data) →
          (t ∈ acc ∨ ∃ e1 ∈ e :: es, e1.isDir = false ∧ filepathDir e1.path = sourceDir ∧
          hasPrefix e1.name ".".toList = false ∧ t.name = e1.name ∧ t.data <+: e1.data) := by
        rintro (h | ⟨e1, h1, h2⟩)
        · exact Or.inl h
        · exact Or.inr ⟨e1, List.mem_cons_of_mem _ h1, h2⟩
      unfold packageWalk at ht
      split at ht
      · exact Or.inl ht
      · split at ht
        · exact lift (ih _ _ t ht)
        · rename_i h1
          split at ht
          · exact lift (ih _ _ t ht)
          · rename_i h2
            split at ht
            · exact lift (ih _ _ t ht)
            · rename_i h3
              obtain ⟨pre, hpre, hw⟩ := copyLoop_written cancel (e.data.length + 1) (n + 1) e.data []
              have here : ∀ written : Bytes,
                  written = (copyLoop cancel (e.data.length + 1) (n + 1) e.data []).1 →
                  t ∈ acc ++ [(⟨e.name, written⟩ : TarEntry)] →
                  (t ∈ acc ∨ ∃ e1 ∈ e :: es, e1.isDir = false ∧
                    filepathDir e1.path = sourceDir ∧
                    hasPrefix e1.name ".".toList = false ∧ t.name = e1.name ∧
                    t.data <+: e1.data) := by
                intro written hwr hmem
                rcases List.mem_append.mp hmem with h | h
                · exact Or.inl h
                · rw [List.mem_singleton] at h
                  refine Or.inr ⟨e, List.mem_cons_self _ _, by simpa using h1,
                    by simpa using h2, by simpa using h3, by rw [h], ?_⟩
                  rw [h, hwr, hw, List.nil_append]
                  exact hpre
              split at ht
              · rename_i written n1 hc
                exact here written (by rw [hc]) ht
              · rename_i written n1 hc
                rcases ih _ _ t ht with h | h
                · exact here written (by rw [hc]) h
                · exact lift (Or.inr h)

/-- The archive `packageVLLMModel` leaves once the file is created holds the entries the
walk wrote. -/
theorem packageVLLMModel_archive (tree : FileTree) (sourceDir : Text) (hasChan : Bool)
    (cancelAt : Option Nat) :
    (packageVLLMModel tree sourceDir none hasChan cancelAt).archive =
      some (packageWalk sourceDir (if hasChan then cancelAt else none)
        (walkTree sourceDir tree) 0 []).2 := by
  unfold packageVLLMModel
  simp only []
  split
  · rename_i e entries heq
    rw [heq]
  · rename_i entries heq
    rw [heq]

/-- The call `packageVLLMModel` returns nil exactly when the walk does. -/
theorem packageVLLMModel_err (tree : FileTree) (sourceDir : Text) (hasChan : Bool)
    (cancelAt : Option Nat) :
    (packageVLLMModel tree sourceDir none hasChan cancelAt).err = none ↔
      (packageWalk sourceDir (if hasChan then cancelAt else none)
        (walkTree sourceDir tree) 0 []).1 = none := by
  unfold packageVLLMModel
  simp only []
  split
  · rename_i e entries heq
    rw [heq]
    simp
  · rename_i entries heq
    rw [heq]

/-- C14: for every source directory (its name, its entries, its path), every result of
`os.Create`, with or without a cancel channel and whenever a cancellation is
seen, each entry of the archive `packageVLLMModel` leaves has a name that does
not begin with `.` and is the entry of a regular file listed in the source
directory itself, under that file's name and with a prefix of its bytes: no
entry stems from a file in a subdirectory or from a hidden file. -/
theorem package_skips_nested_and_hidden (rn : Text) (children : List FileTree)
    (sourceDir : Text) (createErr : Option Text) (hasChan : Bool) (cancelAt : Option Nat)
    (entries : List TarEntry)
    (h : (packageVLLMModel (.dir rn children) sourceDir createErr hasChan cancelAt).archive =
      some entries) :
    ∀ t ∈ entries, hasPrefix t.name ".".toList = false ∧
      ∃ d, FileTree.file t.name d ∈ children ∧ t.data <+: d := by
  intro t ht
  cases createErr with
  | some e => simp [packageVLLMModel] at h
  | none =>
      rw [packageVLLMModel_archive] at h
      have h2 := Option.some.inj h
      rw [← h2] at ht
      rcases packageWalk_mem sourceDir _ _ 0 [] t ht with hnil | ⟨e, he, hfile, hdir, hhid, hname, hdata⟩
      · simp at hnil
      · simp only [walkTree, List.mem_cons] at he
        rcases he with he | he
        · rw [he] at hfile
          simp at hfile
        · have hmem := walkChildren_root_file sourceDir children e he hfile hdir
          rw [hname]
          exact ⟨hhid, e.data, hmem, hdata⟩

/-- The theorem `package_skips_nested_and_hidden` on a model directory with a hidden
file, a hidden directory and a subdirectory, the cancellation being seen while
the second file is copied. -/
theorem package_skips_nested_and_hidden_witness :
    (packageVLLMModel modelTree "/downloads/llama_temp".toList none true (some 8)).archive =
      some [⟨"config.json".toList, [1, 2]⟩, ⟨"model.safetensors".toList, []⟩] ∧
    ∀ t ∈ [(⟨"config.json".toList, [1, 2]⟩ : TarEntry), ⟨"model.safetensors".toList, []⟩],
      hasPrefix t.name ".".toList = false ∧
      ∃ d, FileTree.file t.name d ∈ modelTreeChildren ∧ t.data <+: d :=
  ⟨by decide,
   package_skips_nested_and_hidden "llama_temp".toList modelTreeChildren
     "/downloads/llama_temp".toList none true (some 8) _ (by decide)⟩

/-- A plain name has no separator. -/
theorem not_mem_of_isPlainName (n : Text) (h : isPlainName n = true) : '/' ∉ n := by
  unfold isPlainName at h
  simp only [Bool.and_eq_true, Bool.not_eq_true', List.contains_eq_any_beq,
    List.any_eq_false] at h
  intro hmem
  have := h.1.1.2 '/' hmem
  simp at this

/-- C15: for a source directory with a cleaned path whose entries have plain names, the
call `packageVLLMModel` returns nil when no cancellation is signalled, and
whenever it returns nil the archive's entries are, in the order of the walk,
one entry per regular file listed in the source directory whose name does not
begin with `.`, named by the file's name and holding its bytes. The hypothesis
on the path marks the inputs on which `filepathJoin` and `filepathDir` are Go's
`filepath.Join` and `filepath.Dir`; the argument itself does not need it. -/
theorem package_entries_exact (rn : Text) (children : List FileTree) (sourceDir : Text)
    (hasChan : Bool) (cancelAt : Option Nat)
    (hdir : isCleanPath sourceDir = true)
    (hnames : ∀ c ∈ children, isPlainName c.name = true) :
    (packageVLLMModel (.dir rn children) sourceDir none hasChan none).err = none ∧
    ((packageVLLMModel (.dir rn children) sourceDir none hasChan cancelAt).err = none →
      (packageVLLMModel (.dir rn children) sourceDir none hasChan cancelAt).archive =
        some (rootFileEntries children)) := by
  have _ := hdir
  have hsep : ∀ c ∈ children, '/' ∉ c.name := fun c hc => not_mem_of_isPlainName _ (hnames c hc)
  have hroot : (walkTree sourceDir (.dir rn children)).flatMap (entryOf sourceDir) =
      rootFileEntries children := by
    simp only [walkTree, List.flatMap_cons]
    rw [entryOf_children sourceDir children hsep]
    simp [entryOf]
  refine ⟨?_, fun herr => ?_⟩
  · rw [packageVLLMModel_err]
    have : (if hasChan = true then (none : Option Nat) else none) = none := by
      cases hasChan <;> rfl
    rw [this, packageWalk_none]
  · rw [packageVLLMModel_err] at herr
    rw [packageVLLMModel_archive]
    have hrun := packageWalk_uncancelled sourceDir _ (walkTree sourceDir (.dir rn children)) 0 []
      (packageWalk sourceDir (if hasChan = true then cancelAt else none)
        (walkTree sourceDir (.dir rn children)) 0 []).2
      (by rw [← herr])
    rw [packageWalk_none] at hrun
    have h2 := congrArg Prod.snd hrun
    simp only [List.nil_append] at h2
    rw [← h2, hroot]

/-- The theorem `package_entries_exact` on a model directory with a hidden file, a hidden
directory and a subdirectory, with a cancel channel that stays empty. -/
theorem package_entries_exact_witness :
    isCleanPath "/downloads/llama_temp".toList = true ∧
    rootFileEntries modelTreeChildren =
      [⟨"config.json".toList, [1, 2]⟩, ⟨"model.safetensors".toList, [3, 4, 5]⟩] ∧
    (packageVLLMModel modelTree "/downloads/llama_temp".toList none true none).err = none ∧
    (packageVLLMModel modelTree "/downloads/llama_temp".toList none true none).archive =
      some (rootFileEntries modelTreeChildren) :=
  ⟨by decide, by decide,
   (package_entries_exact "llama_temp".toList modelTreeChildren
     "/downloads/llama_temp".toList true none (by decide) (by decide)).1,
   (package_entries_exact "llama_temp".toList modelTreeChildren
     "/downloads/llama_temp".toList true none (by decide) (by decide)).2 (by decide)⟩

/-- The deferred removal of the temp directory does not reach the archive path. -/
theorem removeAll_tempDir_tarGz {ν : Type} (a : AIModelService) (modelName : Text)
    (files : Text → Option ν) :
    removeAll (vllmTempDir a modelName) files (vllmTarGzPath a modelName) =
      files (vllmTarGzPath a modelName) := by
  have hne : vllmTarGzPath a modelName ≠ vllmTempDir a modelName := by
    intro h
    have := congrArg List.length h
    simp [vllmTarGzPath, vllmTempDir, filepathJoin] at this
  have hpre : ¬ (vllmTempDir a modelName ++ "/".toList) <+: vllmTarGzPath a modelName := by
    unfold vllmTempDir vllmTarGzPath filepathJoin
    simp only [List.append_assoc, List.prefix_append_right_inj]
    decide
  unfold removeAll
  rw [if_neg (by rintro (h | h); exact hne h; exact hpre h)]

/-- The events of `downloadVLLMFiles` are status events. -/
theorem downloadVLLMFiles_no_complete (a : AIModelService) (modelName : Text) (w : HFRun) :
    ∀ ev ∈ (downloadVLLMFiles a modelName w).events, ev.isAIModelComplete = false := by
  have hmon : ∀ ev ∈ monitorEvents modelName w, ev.isAIModelComplete = false := by
    intro ev hev
    unfold monitorEvents at hev
    obtain ⟨m, _, hm⟩ := List.mem_map.mp hev
    rw [← hm]
    rfl
  intro ev hev
  unfold downloadVLLMFiles at hev
  split at hev
  · simp at hev
  · simp only [] at hev
    split at hev
    · simp only [List.mem_singleton] at hev
      rw [hev]; rfl
    · have hall : ev ∈ [Event.aiModelStatus modelName
          "Downloading model files from HuggingFace...".toList 30] ++
          monitorEvents modelName w := by
        split at hev
        · exact hev
        · split at hev
          · split at hev <;> exact hev
          · exact hev
      rcases List.mem_append.mp hall with h | h
      · rw [List.mem_singleton] at h
        rw [h]; rfl
      · exact hmon ev h

/-- C16: when `DownloadVLLMModel` reaches the packaging step, the archive file is created
and the packaging is cancelled, the call returns nil and emits no
`ai-model-complete` event, and the file at `<downloadLocation>/<modelName>.tar.gz`
exists after the return, holding the entries written before the cancellation
was seen: the deferred cleanup removes the temp directory only. -/
theorem cancelled_packaging_keeps_archive (a : AIModelService) (modelName : Text)
    (mkdirErr : Option Text) (w : HFRun) (p : PackRun)
    (archives : Text → Option (List TarEntry))
    (hreach : reachesPackaging a modelName mkdirErr w = true)
    (hcreate : p.createErr = none)
    (hcancel : (packagingOf a modelName w p).err =
      some "failed to package model: packaging cancelled".toList) :
    (DownloadVLLMModelOnDisk a modelName mkdirErr w p archives).1.err = none ∧
    (∀ ev ∈ (DownloadVLLMModelOnDisk a modelName mkdirErr w p archives).1.events,
      ev.isAIModelComplete = false) ∧
    ∃ entries, (packagingOf a modelName w p).archive = some entries ∧
      (DownloadVLLMModelOnDisk a modelName mkdirErr w p archives).2
        (vllmTarGzPath a modelName) = some entries := by
  have hparts : a.downloadLocation ≠ [] ∧ mkdirErr = none ∧
      (downloadVLLMFiles a modelName w).err = none := by
    unfold reachesPackaging at hreach
    simp only [Bool.and_eq_true, decide_eq_true_eq, Option.isNone_iff_eq_none] at hreach
    exact ⟨hreach.1.1, hreach.1.2, hreach.2⟩
  obtain ⟨hloc, hmk, hdl⟩ := hparts
  have harch : ∃ entries, (packagingOf a modelName w p).archive = some entries := by
    unfold packagingOf
    rw [hcreate, packageVLLMModel_archive]
    exact ⟨_, rfl⟩
  obtain ⟨entries, hentries⟩ := harch
  have hcontains : contains "failed to package model: packaging cancelled".toList
      "cancelled".toList = true := by decide
  have hres : DownloadVLLMModel a modelName mkdirErr w (packagingOf a modelName w p).err =
      ⟨none,
        [Event.aiModelStatus modelName "Downloading model files...".toList 10] ++
          (downloadVLLMFiles a modelName w).events ++
          [Event.aiModelStatus modelName "Packaging model...".toList 80],
        (downloadVLLMFiles a modelName w).killed,
        match (downloadVLLMFiles a modelName w).state.cancelChannels modelName with
        | some _ =>
            { (downloadVLLMFiles a modelName w).state with
              cancelChannels :=
                mapDelete (downloadVLLMFiles a modelName w).state.cancelChannels modelName }
        | none => (downloadVLLMFiles a modelName w).state⟩ := by
    rw [hcancel]
    unfold DownloadVLLMModel
    rw [if_neg hloc, hmk]
    simp only [hdl]
    rw [if_pos hcontains]
  have hfst : (DownloadVLLMModelOnDisk a modelName mkdirErr w p archives).1 =
      DownloadVLLMModel a modelName mkdirErr w (packagingOf a modelName w p).err := by
    unfold DownloadVLLMModelOnDisk
    rw [if_pos hreach]
  have hsnd : (DownloadVLLMModelOnDisk a modelName mkdirErr w p archives).2
      (vllmTarGzPath a modelName) = some entries := by
    unfold DownloadVLLMModelOnDisk
    rw [if_pos hreach]
    simp only [hentries]
    rw [removeAll_tempDir_tarGz]
    simp only [mapSet, if_true]
  refine ⟨?_, ?_, entries, hentries, hsnd⟩
  · rw [hfst, hres]
  · rw [hfst, hres]
    intro ev hev
    simp only [List.mem_append, List.mem_singleton] at hev
    rcases hev with (h | h) | h
    · rw [h]; rfl
    · exact downloadVLLMFiles_no_complete a modelName w ev h
    · rw [h]; rfl

/-- The theorem `cancelled_packaging_keeps_archive` on a download of `llama` whose
packaging is cancelled while the second file is copied. -/
theorem cancelled_packaging_keeps_archive_witness :
    reachesPackaging freshAIService "llama".toList none successfulRun = true ∧
    (packagingOf freshAIService "llama".toList successfulRun cancelledPackRun).err =
      some "failed to package model: packaging cancelled".toList ∧
    (DownloadVLLMModelOnDisk freshAIService "llama".toList none successfulRun cancelledPackRun
      fun _ => none).1.err = none ∧
    ∃ entries,
      (packagingOf freshAIService "llama".toList successfulRun cancelledPackRun).archive =
        some entries ∧
      (DownloadVLLMModelOnDisk freshAIService "llama".toList none successfulRun
        cancelledPackRun fun _ => none).2 (vllmTarGzPath freshAIService "llama".toList) =
        some entries :=
  ⟨by decide, by decide,
   (cancelled_packaging_keeps_archive freshAIService "llama".toList none successfulRun
     cancelledPackRun (fun _ => none) (by decide) rfl (by decide)).1,
   (cancelled_packaging_keeps_archive freshAIService "llama".toList none successfulRun
     cancelledPackRun (fun _ => none) (by decide) rfl (by decide)).2.2⟩

/-- C16, the claim refuted: after `DownloadVLLMModel("…", "llama")` returns nil from a
packaging step cancelled while `model.safetensors` is copied, the file
`/downloads/llama.tar.gz` exists and holds `config.json` and the header of
`model.safetensors`. -/
theorem cancelled_archive_left_on_disk :
    (packagingOf freshAIService "llama".toList successfulRun cancelledPackRun).err =
      some "failed to package model: packaging cancelled".toList ∧
    (DownloadVLLMModelOnDisk freshAIService "llama".toList none successfulRun cancelledPackRun
      fun _ => none).1.err = none ∧
    (DownloadVLLMModelOnDisk freshAIService "llama".toList none successfulRun cancelledPackRun
      fun _ => none).2 "/downloads/llama.tar.gz".toList =
      some [⟨"config.json".toList, [1, 2]⟩, ⟨"model.safetensors".toList, []⟩] := by
  decide

/-! ## The CLI lookup, the URL of an Ollama download, and the OM file glob -/

/-- C23: the lookup `getHuggingFaceCLI` returns `hf` whenever `hf` is found, whatever the
second lookup gives; it returns `huggingface-cli` when only that one is found;
it returns an error exactly when neither is found; and that error names
`brew install` on darwin and `pip install` on every other operating system. -/
theorem getHuggingFaceCLI_cases (hfFound cliFound : Bool) (goos : Text) :
    getHuggingFaceCLI true cliFound goos = .ok "hf".toList ∧
    getHuggingFaceCLI false true goos = .ok "huggingface-cli".toList ∧
    ((∃ e, getHuggingFaceCLI hfFound cliFound goos = .error e) ↔
      (hfFound = false ∧ cliFound = false)) ∧
    (∃ e, getHuggingFaceCLI false false "darwin".toList = .error e ∧
      contains e "brew install huggingface-cli".toList = true ∧
      contains e "pip install".toList = false) ∧
    (goos ≠ "darwin".toList →
      ∃ e, getHuggingFaceCLI false false goos = .error e ∧
        contains e "pip install huggingface-hub[cli]".toList = true ∧
        contains e "brew install".toList = false) := by
  refine ⟨rfl, rfl, ?_, ⟨_, rfl, by decide!, by decide!⟩, fun h => ?_⟩
  · cases hfFound <;> cases cliFound
    · by_cases hg : goos = "darwin".toList
      · simp [getHuggingFaceCLI, hg]
      · simp only [getHuggingFaceCLI, Bool.false_eq_true, if_false, if_neg hg, and_self,
          iff_true]
        exact ⟨_, rfl⟩
    · simp [getHuggingFaceCLI]
    · simp [getHuggingFaceCLI]
    · simp [getHuggingFaceCLI]
  · refine ⟨"huggingface-cli not found. Please install: pip install huggingface-hub[cli]".toList,
      ?_, by decide!, by decide!⟩
    simp only [getHuggingFaceCLI, Bool.false_eq_true, if_false, if_neg h]

/-- The theorem `getHuggingFaceCLI_cases` on linux with neither binary found and on a host
with both. -/
theorem getHuggingFaceCLI_cases_witness :
    "linux".toList ≠ "darwin".toList ∧
    getHuggingFaceCLI true true "linux".toList = .ok "hf".toList ∧
    ∃ e, getHuggingFaceCLI false false "linux".toList = .error e ∧
      contains e "pip install huggingface-hub[cli]".toList = true ∧
      contains e "brew install".toList = false :=
  ⟨by decide, (getHuggingFaceCLI_cases false true "linux".toList).1,
   (getHuggingFaceCLI_cases false false "linux".toList).2.2.2.2 (by decide)⟩

/-- The pieces of a split: the last piece has no separator, and the text is that piece or
ends with a separator followed by it. -/
theorem splitChar_last (sep : Char) :
    ∀ s : Text, ∃ init w, splitChar sep s = init ++ [w] ∧ sep ∉ w ∧
      ((init = [] ∧ s = w) ∨ (init ≠ [] ∧ ∃ pre, s = pre ++ sep :: w)) := by
  intro s
  induction s with
  | nil => exact ⟨[], [], rfl, by simp, Or.inl ⟨rfl, rfl⟩⟩
  | cons c cs ih =>
      obtain ⟨init, w, hsplit, hw, hcase⟩ := ih
      by_cases hc : c = sep
      · refine ⟨[] :: init, w, by simp [splitChar, hc, hsplit], hw, Or.inr ⟨by simp, ?_⟩⟩
        rcases hcase with ⟨_, h⟩ | ⟨_, pre, h⟩
        · exact ⟨[], by rw [h, hc]; rfl⟩
        · exact ⟨sep :: pre, by rw [h, hc]; rfl⟩
      · cases init with
        | nil =>
            rcases hcase with ⟨_, h⟩ | ⟨h, _⟩
            · refine ⟨[], c :: w, by simp [splitChar, hc, hsplit], ?_, Or.inl ⟨rfl, by rw [h]⟩⟩
              intro hmem
              rcases List.mem_cons.mp hmem with h1 | h1
              · exact hc h1.symm
              · exact hw h1
            · exact absurd rfl h
        | cons x xs =>
            rcases hcase with ⟨h, _⟩ | ⟨_, pre, h⟩
            · exact absurd h (by simp)
            · exact ⟨(c :: x) :: xs, w, by simp [splitChar, hc, hsplit], hw,
                Or.inr ⟨by simp, c :: pre, by rw [h]; rfl⟩⟩

/-- The text after the last separator of a text that ends with a separator followed by a
piece without separator is that piece. -/
theorem afterLastSlash_append (pre w : Text) (hw : '/' ∉ w) :
    afterLastSlash (pre ++ '/' :: w) = w := by
  have hall : ∀ a ∈ w.reverse, (fun c : Char => c != '/') a = true := by
    intro a ha
    have : a ≠ '/' := fun h => hw (h ▸ List.mem_reverse.mp ha)
    simpa using this
  unfold afterLastSlash
  rw [List.reverse_append, List.reverse_cons, List.append_assoc,
    List.takeWhile_append_of_pos hall]
  simp [List.takeWhile]

/-- The text after the last separator of a text without separator is the text. -/
theorem afterLastSlash_self (w : Text) (hw : '/' ∉ w) : afterLastSlash w = w := by
  have hall : ∀ a ∈ w.reverse, (fun c : Char => c != '/') a = true := by
    intro a ha
    have : a ≠ '/' := fun h => hw (h ▸ List.mem_reverse.mp ha)
    simpa using this
  unfold afterLastSlash
  rw [List.takeWhile_eq_self_iff.mpr hall, List.reverse_reverse]

/-- The last piece of the split of a text at `/` is the text after its last `/`. -/
theorem splitChar_getD_last (s : Text) :
    0 < (splitChar '/' s).length ∧
    (splitChar '/' s).getD ((splitChar '/' s).length - 1) [] = afterLastSlash s := by
  obtain ⟨init, w, hsplit, hw, hcase⟩ := splitChar_last '/' s
  have hget : (splitChar '/' s).getD ((splitChar '/' s).length - 1) [] = w := by
    rw [hsplit]
    simp [List.getD_eq_getElem?_getD]
  refine ⟨by rw [hsplit]; simp, ?_⟩
  rw [hget]
  rcases hcase with ⟨_, h⟩ | ⟨_, pre, h⟩
  · rw [h, afterLastSlash_self w hw]
  · rw [h, afterLastSlash_append pre w hw]

/-- The test `strings.Contains(s, "*")` holds exactly when `*` occurs in `s`. -/
theorem contains_star_iff (s : Text) : contains s "*".toList = true ↔ '*' ∈ s := by
  unfold contains
  rw [decide_eq_true_iff]
  constructor
  · rintro ⟨a, b, h⟩
    rw [← h]
    simp
  · intro h
    obtain ⟨a, b, hab⟩ := List.mem_iff_append.mp h
    exact ⟨a, b, by rw [hab]; simp⟩

/-- C25: for every file name and object key, the file glob `DownloadFileWithOM` computes
is the one specified (with a non-empty key, the text after its last `/` if that
is not empty and else the file name; with an empty key, `*.pivotal` if the
file name has no `*` and does not end in `.pivotal`, and else the file name),
it is the argument passed after `-f`, and for the key
`path/to/actual-file-name.pivotal` it is `actual-file-name.pivotal`. -/
theorem fileGlob_spec (b : BroadcomService)
    (productSlug releaseVersion fileName awsObjectKey savePath : Text) :
    fileGlob fileName awsObjectKey = fileGlobSpec fileName awsObjectKey ∧
    (omDownloadProductArgs b productSlug releaseVersion fileName awsObjectKey savePath).drop 7 =
      ["-f".toList, fileGlobSpec fileName awsObjectKey, "-o".toList, savePath] ∧
    fileGlob fileName "path/to/actual-file-name.pivotal".toList =
      "actual-file-name.pivotal".toList := by
  have hmain : fileGlob fileName awsObjectKey = fileGlobSpec fileName awsObjectKey := by
    unfold fileGlob fileGlobSpec
    by_cases hk : awsObjectKey ≠ []
    · obtain ⟨hlen, hlast⟩ := splitChar_getD_last awsObjectKey
      rw [if_pos hk, if_pos hk]
      simp only [gt_iff_lt, hlen, if_true, hlast]
    · rw [if_neg hk, if_neg hk]
      have hcond : ((!contains fileName "*".toList &&
          !hasSuffix fileName ".pivotal".toList) = true) ↔
          ('*' ∉ fileName ∧ ¬ ".pivotal".toList <:+ fileName) := by
        rw [Bool.and_eq_true, Bool.not_eq_true', Bool.not_eq_true', ← Bool.not_eq_true,
          ← Bool.not_eq_true, contains_star_iff]
        unfold hasSuffix
        rw [List.isSuffixOf_iff_suffix]
      by_cases hc : '*' ∉ fileName ∧ ¬ ".pivotal".toList <:+ fileName
      · rw [if_pos hc, if_pos (hcond.mpr hc)]
      · rw [if_neg hc, if_neg (fun h => hc (hcond.mp h))]
  refine ⟨hmain, ?_, ?_⟩
  · rw [← hmain]
    rfl
  · have hsplit : splitChar '/' "path/to/actual-file-name.pivotal".toList =
        ["path".toList, "to".toList, "actual-file-name.pivotal".toList] := by decide
    have hkey : "path/to/actual-file-name.pivotal".toList ≠ [] := by decide
    unfold fileGlob
    rw [if_pos hkey]
    simp only [hsplit]
    rfl

/-- A list with four or more elements starts with four elements. -/
theorem four_segments {α : Type} (l : List α) (h : 4 ≤ l.length) :
    ∃ s0 s1 s2 s3 rest, l = s0 :: s1 :: s2 :: s3 :: rest := by
  match l, h with
  | s0 :: s1 :: s2 :: s3 :: rest, _ => exact ⟨s0, s1, s2, s3, rest, rfl⟩

/-- C24: with a download location set, `DownloadOllamaModel` splits the URL without the
prefix `https://huggingface.co/` at `/`. With fewer than four segments it
returns `invalid HuggingFace URL format` whatever `os.MkdirAll` and the CLI
would do, with no event, no process and the state unchanged. With four or more
segments the repository is `<segment0>/<segment1>` and the include pattern is
the segments after the fourth joined by `/`, followed by `/*`. No index
expression panics. -/
theorem ollama_url_segments (a : AIModelService) (repoURL modelName : Text)
    (mkdirErr : Option Text) (w : HFRun) (concat : List Event × Option Text)
    (hloc : a.downloadLocation ≠ []) :
    ((splitChar '/' (trimPrefix repoURL "https://huggingface.co/".toList)).length < 4 →
      DownloadOllamaModel a repoURL modelName mkdirErr w concat =
        ⟨some "invalid HuggingFace URL format".toList, [], [], a⟩ ∧
      ollamaDownloadArgs a repoURL modelName =
        .rejected "invalid HuggingFace URL format".toList) ∧
    (4 ≤ (splitChar '/' (trimPrefix repoURL "https://huggingface.co/".toList)).length →
      ∃ s0 s1 s2 s3 rest,
        splitChar '/' (trimPrefix repoURL "https://huggingface.co/".toList) =
          s0 :: s1 :: s2 :: s3 :: rest ∧
        ollamaDownloadArgs a repoURL modelName =
          .command
            ["download".toList, s0 ++ "/".toList ++ s1, "--include".toList,
             joinWith "/".toList rest ++ "/*".toList, "--local-dir".toList,
             filepathJoin a.downloadLocation modelName, "--local-dir-use-symlinks".toList,
             "False".toList]) ∧
    ollamaDownloadArgs a repoURL modelName ≠ .panicked := by
  have hshort : (splitChar '/' (trimPrefix repoURL "https://huggingface.co/".toList)).length < 4 →
      ollamaDownloadArgs a repoURL modelName =
        .rejected "invalid HuggingFace URL format".toList := by
    intro h
    unfold ollamaDownloadArgs
    rw [if_neg hloc]
    simp only [h, if_true]
  have hlong : 4 ≤ (splitChar '/' (trimPrefix repoURL "https://huggingface.co/".toList)).length →
      ∃ s0 s1 s2 s3 rest,
        splitChar '/' (trimPrefix repoURL "https://huggingface.co/".toList) =
          s0 :: s1 :: s2 :: s3 :: rest ∧
        ollamaDownloadArgs a repoURL modelName =
          .command
            ["download".toList, s0 ++ "/".toList ++ s1, "--include".toList,
             joinWith "/".toList rest ++ "/*".toList, "--local-dir".toList,
             filepathJoin a.downloadLocation modelName, "--local-dir-use-symlinks".toList,
             "False".toList] := by
    intro h
    obtain ⟨s0, s1, s2, s3, rest, hparts⟩ := four_segments _ h
    refine ⟨s0, s1, s2, s3, rest, hparts, ?_⟩
    unfold ollamaDownloadArgs
    rw [if_neg hloc]
    simp only [hparts]
    rw [if_neg (by simp)]
    have h0 : goIndex (s0 :: s1 :: s2 :: s3 :: rest) 0 = some s0 := rfl
    have h1 : goIndex (s0 :: s1 :: s2 :: s3 :: rest) 1 = some s1 := rfl
    have h4 : goSliceFrom (s0 :: s1 :: s2 :: s3 :: rest) 4 = some rest := by
      simp [goSliceFrom]
    rw [h0, h1, h4]
    rfl
  refine ⟨fun h => ⟨?_, hshort h⟩, hlong, ?_⟩
  · unfold DownloadOllamaModel
    rw [if_neg hloc]
    simp only [h, if_true]
  · by_cases h : (splitChar '/' (trimPrefix repoURL "https://huggingface.co/".toList)).length < 4
    · rw [hshort h]
      exact fun hc => by cases hc
    · obtain ⟨_, _, _, _, _, _, hcmd⟩ := hlong (by omega)
      rw [hcmd]
      exact fun hc => by cases hc

/-- The theorem `ollama_url_segments` on the example URL and on a URL with two segments. -/
theorem ollama_url_segments_witness :
    freshAIService.downloadLocation ≠ [] ∧
    ollamaDownloadArgs freshAIService exampleOllamaURL "llama".toList =
      .command
        ["download".toList, "unsloth/Llama-3.3-70B-Instruct-GGUF".toList, "--include".toList,
         "UD-Q6_K_XL/*".toList, "--local-dir".toList, "/downloads/llama".toList,
         "--local-dir-use-symlinks".toList, "False".toList] ∧
    DownloadOllamaModel freshAIService "https://huggingface.co/unsloth/model".toList
        "llama".toList none successfulRun ([], none) =
      ⟨some "invalid HuggingFace URL format".toList, [], [], freshAIService⟩ ∧
    ollamaDownloadArgs freshAIService exampleOllamaURL "llama".toList ≠ .panicked :=
  ⟨by decide, by decide!,
   ((ollama_url_segments freshAIService "https://huggingface.co/unsloth/model".toList
      "llama".toList none successfulRun ([], none) (by decide)).1 (by decide)).1,
   (ollama_url_segments freshAIService exampleOllamaURL "llama".toList none successfulRun
      ([], none) (by decide)).2.2⟩

/-! ## Signalling a registered download -/

/-- C22: the send `cancelChan <- true` of `CancelModelDownload` for a registered model
name is a plain send on a channel of capacity 1. In a state of the service it
completes exactly when the buffer of the channel is empty: the call then returns
nil, emits `ai-model-cancelled`, kills no process and leaves the value in the
buffer. With an earlier value still in the buffer the send does not complete,
and the call returns once a receiver has taken that value, that is in the state
with the buffer empty again. -/
theorem cancel_send_blocks_when_buffered (a : AIModelService) (modelName : Text) (ch : Chan)
    (hreg : a.cancelChannels modelName = some ch) :
    ((CancelModelDownload a modelName).isSome = true ↔ ch.buffered = 0) ∧
    (ch.buffered = 0 →
      CancelModelDownload a modelName =
        some ⟨none, [.aiModelCancelled modelName], [],
          { a with cancelChannels := mapSet a.cancelChannels modelName ⟨ch.id, 1⟩ }⟩) ∧
    (0 < ch.buffered → CancelModelDownload a modelName = none) ∧
    (ch.buffered = 1 →
      CancelModelDownload
          { a with
            cancelChannels := mapSet a.cancelChannels modelName ⟨ch.id, ch.buffered - 1⟩ }
          modelName =
        some ⟨none, [.aiModelCancelled modelName], [],
          { a with cancelChannels := mapSet a.cancelChannels modelName ⟨ch.id, 1⟩ }⟩) := by
  have hfull : 0 < ch.buffered → CancelModelDownload a modelName = none := by
    intro h
    unfold CancelModelDownload
    rw [hreg]
    have : ¬ ch.buffered < 1 := by omega
    simp only [this, if_false]
  have hempty : ch.buffered = 0 →
      CancelModelDownload a modelName =
        some ⟨none, [.aiModelCancelled modelName], [],
          { a with cancelChannels := mapSet a.cancelChannels modelName ⟨ch.id, 1⟩ }⟩ := by
    intro h
    unfold CancelModelDownload
    rw [hreg]
    simp [h]
  have hset : ∀ c1 c2 : Chan,
      mapSet (mapSet a.cancelChannels modelName c1) modelName c2 =
        mapSet a.cancelChannels modelName c2 := by
    intro c1 c2
    funext j
    unfold mapSet
    split <;> rfl
  refine ⟨⟨fun h => ?_, fun h => by rw [hempty h]; rfl⟩, hempty, hfull, fun h => ?_⟩
  · by_contra hne
    rw [hfull (Nat.pos_of_ne_zero hne)] at h
    simp at h
  · unfold CancelModelDownload
    simp only [mapSet, if_true, h, Nat.sub_self, Nat.lt_one_iff]
    have := hset ⟨ch.id, 0⟩ ⟨ch.id, 1⟩
    simp only [mapSet] at this
    rw [this]

/-- The theorem `cancel_send_blocks_when_buffered` on a service with `llama` registered
and an empty buffer. -/
theorem cancel_send_blocks_when_buffered_witness :
    registeredAIService.cancelChannels "llama".toList = some ⟨7, 0⟩ ∧
    (CancelModelDownload registeredAIService "llama".toList).isSome = true :=
  ⟨by decide,
   (cancel_send_blocks_when_buffered registeredAIService "llama".toList ⟨7, 0⟩
      (by decide)).1.mpr rfl⟩

/-- C22, the claim refuted: while the download of `llama` is active, a first call of
`CancelModelDownload` returns nil and leaves its signal in the buffer; a second
call made while that signal is unconsumed does not complete its send. In the
schedule of the running download the second send is likewise not enabled
before a receive: the send waits, it is not a non-blocking one. -/
theorem second_signal_waits_for_receiver :
    registeredAIService.activeDownloads "llama".toList = some ⟨7, true⟩ ∧
    (∃ r, CancelModelDownload registeredAIService "llama".toList = some r ∧
      r.err = none ∧
      r.state.activeDownloads "llama".toList = some ⟨7, true⟩ ∧
      r.state.cancelChannels "llama".toList = some ⟨7, 1⟩ ∧
      CancelModelDownload r.state "llama".toList = none) ∧
    (race "llama".toList raceInit [.start, .signal]).map
        (fun s => (s.outcome, s.waitResult, s.buffered,
          (raceStep "llama".toList s .signal).isSome)) =
      some (none, none, 1, false) := by
  refine ⟨?_, ?_, ?_⟩
  · decide
  · exact ⟨_, rfl, rfl, by decide, by decide, rfl⟩
  · decide

/-! ## The goroutines of a running download -/

/-- The case `<-cancelChan` of the function's `select` kills the process and ends the
`select` as cancelled. -/
theorem selectCancel_kills (modelName : Text) (s s1 : RaceState)
    (h : raceStep modelName s .selectCancel = some s1) :
    s1.killed = true ∧ s1.outcome = some .cancelled ∧ s1.buffered + 1 = s.buffered := by
  simp only [raceStep] at h
  by_cases hc : s.started = true ∧ s.outcome = none ∧ 0 < s.buffered
  · rw [if_pos hc] at h
    have h1 := Option.some.inj h
    rw [← h1]
    exact ⟨rfl, rfl, by simp only []; omega⟩
  · rw [if_neg hc] at h
    cases h

/-- C21: a schedule of `downloadWithHuggingFaceCLI` in which `CancelModelDownload` sends
its signal while the process runs, the `select` of `monitorDownloadProgress`
receives it, and the process exits with status 0: the buffer is empty again,
the process is not killed, the function's `select` takes the case `<-done`, and
`DownloadOllamaModel` returns nil and emits `ai-model-complete`. The same holds
when the signal is sent before the process is started. When the function's own
`select` receives the signal, the process is killed. -/
theorem probe_consumes_cancel_signal :
    (race "llama".toList raceInit [.start, .signal]).map (fun s => s.buffered) = some 1 ∧
    (∃ s w, race "llama".toList raceInit probeFirstSchedule = some s ∧
      s.buffered = 0 ∧ s.probe = .returned ∧ s.killed = false ∧
      s.waitResult = some none ∧ s.outcome = some (.exited none) ∧
      raceRun successfulRun s = some w ∧
      (DownloadOllamaModel freshAIService exampleOllamaURL "llama".toList none w
        ([], none)).err = none ∧
      (DownloadOllamaModel freshAIService exampleOllamaURL "llama".toList none w
        ([], none)).killed = [] ∧
      (DownloadOllamaModel freshAIService exampleOllamaURL "llama".toList none w
        ([], none)).events.filter Event.isAIModelComplete =
        [.aiModelComplete "llama".toList "/downloads/llama".toList]) ∧
    (∃ s, race "llama".toList raceInit earlySignalSchedule = some s ∧
      s.buffered = 0 ∧ s.killed = false ∧ s.outcome = some (.exited none)) ∧
    (∃ s, race "llama".toList raceInit [.start, .signal, .selectCancel] = some s ∧
      s.killed = true ∧ s.outcome = some .cancelled) := by
  refine ⟨?_, ?_, ?_, ?_⟩
  · decide
  · exact ⟨_, _, rfl, by decide, by decide, by decide, by decide, by decide, rfl,
      by decide, by decide, by decide⟩
  · exact ⟨_, rfl, by decide, by decide, by decide⟩
  · exact ⟨_, rfl, by decide, by decide⟩

/-- Whenever the probe waits in its `select` and one signal is buffered, the probe can
receive it; afterwards the buffer is empty, the case `<-cancelChan` of the
function's `select` is not enabled, and the process is as it was. -/
theorem probeCancel_steals (modelName : Text) (s : RaceState)
    (hprobe : s.probe = .selecting) (hbuf : s.buffered = 1) :
    ∃ s1, raceStep modelName s .probeCancel = some s1 ∧ s1.buffered = 0 ∧
      s1.killed = s.killed ∧ s1.outcome = s.outcome ∧
      raceStep modelName s1 .selectCancel = none := by
  have hc : s.probe = .selecting ∧ 0 < s.buffered := ⟨hprobe, by omega⟩
  refine ⟨{ s with buffered := s.buffered - 1, probe := .returned }, ?_, ?_, rfl, rfl, ?_⟩
  · simp only [raceStep]
    rw [if_pos hc]
  · simp only []
    omega
  · simp only [raceStep]
    rw [if_neg]
    intro h
    have := h.2.2
    simp only [] at this
    omega

/-! ## A part at the output path -/

/-- The loop, run over parts of which one is at the output path or with the output file
already unlinked, never returns nil with a file at the output path. -/
theorem concatLoop_output_part (modelName outputPath : Text) (total : Nat) (ps : List Text) :
    ∀ (i : Nat) (files : Text → Option Bytes) (ev ev1 : List Event)
      (files1 : Text → Option Bytes),
      (outputPath ∈ ps ∨ files outputPath = none) →
      concatLoop modelName outputPath total ps i files ev = .returned none ev1 files1 →
      files1 outputPath = none := by
  induction ps with
  | nil =>
      intro i files ev ev1 files1 h hrun
      rcases h with h | h
      · simp at h
      · simp only [concatLoop, ConcatOutcome.returned.injEq, true_and] at hrun
        rw [← hrun.2]
        exact h
  | cons p rest ih =>
      intro i files ev ev1 files1 h hrun
      unfold concatLoop at hrun
      simp only [] at hrun
      cases hp : files p with
      | none =>
          rw [hp] at hrun
          simp at hrun
      | some data =>
          rw [hp] at hrun
          simp only [] at hrun
          by_cases hout : p = outputPath
          · rw [if_pos hout] at hrun
            by_cases hdata : data = []
            · rw [if_pos hdata] at hrun
              refine ih _ _ _ _ _ (Or.inr ?_) hrun
              simp only [mapDelete, hout, if_true]
            · rw [if_neg hdata] at hrun
              cases hrun
          · rw [if_neg hout] at hrun
            refine ih _ _ _ _ _ ?_ hrun
            rcases h with h | h
            · rcases List.mem_cons.mp h with h1 | h1
              · exact absurd h1.symm hout
              · exact Or.inl h1
            · right
              simp only [h, mapDelete, if_neg (Ne.symm hout)]

/-- C26: when two or more `.gguf` files are collected and one of them is at the output
path, no return of `concatenateGGUFFiles` with nil leaves a file at the output
path: the bytes of the collected parts are in no file there, and the part at the
output path was truncated by `os.Create` before it was read. -/
theorem output_part_never_survives (tree : FileTree) (destDir modelName : Text)
    (createErr : Option Text) (ev : List Event) (files1 : Text → Option Bytes)
    (hlen : 2 ≤ (ggufFilesOf (walkTree destDir tree)).length)
    (hmem : filepathJoin destDir (modelName ++ ".gguf".toList) ∈
      ggufFilesOf (walkTree destDir tree))
    (hret : concatenateGGUFFiles tree destDir modelName createErr = .returned none ev files1) :
    files1 (filepathJoin destDir (modelName ++ ".gguf".toList)) = none := by
  have h0 : ¬ (ggufFilesOf (walkTree destDir tree)).length = 0 := by omega
  have h1 : ¬ (ggufFilesOf (walkTree destDir tree)).length = 1 := by omega
  unfold concatenateGGUFFiles at hret
  simp only [if_neg h0, if_neg h1] at hret
  cases createErr with
  | some e => simp at hret
  | none =>
      simp only [] at hret
      exact concatLoop_output_part _ _ _ _ _ _ _ _ _
        (Or.inl ((sortStrings_spec _).1.mem_iff.mpr hmem)) hret

/-- The theorem `output_part_never_survives` on a directory holding `llama.gguf` with
bytes `[9, 9]` next to two parts: the call returns nil, and no file is left at
`/downloads/llama/llama.gguf`. -/
theorem output_part_never_survives_witness :
    filesOf (walkTree "/downloads/llama".toList flatStaleTree)
      "/downloads/llama/llama.gguf".toList = some [9, 9] ∧
    (concatenateGGUFFiles flatStaleTree "/downloads/llama".toList "llama".toList
      none).returnedErr = some none ∧
    (concatenateGGUFFiles flatStaleTree "/downloads/llama".toList "llama".toList
      none).fileAt (filepathJoin "/downloads/llama".toList ("llama".toList ++ ".gguf".toList)) =
      none := by
  refine ⟨by decide, by decide, ?_⟩
  cases hrun : concatenateGGUFFiles flatStaleTree "/downloads/llama".toList "llama".toList
      none with
  | selfCopy ev => rfl
  | returned err ev files1 =>
      have herr : (concatenateGGUFFiles flatStaleTree "/downloads/llama".toList
          "llama".toList none).returnedErr = some none := by decide
      rw [hrun] at herr
      simp only [ConcatOutcome.returnedErr, Option.some.injEq] at herr
      rw [herr] at hrun
      exact output_part_never_survives flatStaleTree "/downloads/llama".toList
        "llama".toList none ev files1 (by decide) (by decide) hrun

end TileDownloader
